import Mathlib

/-!
Verification development for the persistence and replication engine of the
`ublog` repository (`libs/ublog-data`): the content store, the hash-chained
commit log, the storage facade (`SqliteStorage`) and the synchronizer
(`storage/sync.rs`).

The Rust sources are shallowly embedded: SQLite tables become insertion-ordered
lists of rows, SQL statements become the corresponding list operations
(`PRIMARY KEY` / `UNIQUE` indexes become explicit conflict checks, `ORDER BY`
becomes a stable sort), machine integers become `Int`/`Nat`, fallible calls
return `Except`.  A SQL transaction that fails is rolled back by the database,
so a mutating facade call is embedded as `Store → Except SqErr Store`: an
`error` result leaves the caller with the unchanged previous store.

Two facts about the backing engine are part of the embedding because the code
depends on them:
* SQLite enforces `REFERENCES ... ON DELETE CASCADE` only when the
  `foreign_keys` pragma is enabled on the connection; the repository never
  executes that pragma, so the cascade clauses of `posts_tags` and
  `posts_resources` are inert and `DELETE FROM posts` removes rows from no
  other table.
* an `INSERT INTO ... VALUES ;` statement with an empty value list (which
  `insert_commits` builds for an empty commit slice) is a SQL syntax error.
-/

namespace UBlog

/-! ## Bytes and SHA-256 (`sha2::Sha256`, used by `Commit::new`)

The digest is spelled over `Nat` words reduced modulo `2 ^ 32` at every
arithmetic step; the round constants are written in decimal. -/

/-- A byte string (`Vec<u8>`), each entry below 256. -/
abbrev Bytes := List Nat

/-- Reduce a word modulo `2 ^ 32`. -/
def mask32 (n : Nat) : Nat := n % (2 ^ 32)

/-- Read the word at position `i` of a word list, `0` past the end. -/
def wordAt (ws : List Nat) (i : Nat) : Nat := ws.getD i 0

/-- Right-rotate a 32-bit word by `r` places. -/
def rotw (r x : Nat) : Nat := mask32 (x / 2 ^ r + x * 2 ^ (32 - r))

/-- The 64 round constants of SHA-256, in decimal. -/
def shaK : List Nat :=
  [1116352408, 1899447441, 3049323471, 3921009573,
   961987163, 1508970993, 2453635748, 2870763221,
   3624381080, 310598401, 607225278, 1426881987,
   1925078388, 2162078206, 2614888103, 3248222580,
   3835390401, 4022224774, 264347078, 604807628,
   770255983, 1249150122, 1555081692, 1996064986,
   2554220882, 2821834349, 2952996808, 3210313671,
   3336571891, 3584528711, 113926993, 338241895,
   666307205, 773529912, 1294757372, 1396182291,
   1695183700, 1986661051, 2177026350, 2456956037,
   2730485921, 2820302411, 3259730800, 3345764771,
   3516065817, 3600352804, 4094571909, 275423344,
   430227734, 506948616, 659060556, 883997877,
   958139571, 1322822218, 1537002063, 1747873779,
   1955562222, 2024104815, 2227730452, 2361852424,
   2428436474, 2756734187, 3204031479, 3329325298]

/-- The eight initial state words of SHA-256, in decimal. -/
def shaH0 : List Nat :=
  [1779033703, 3144134277, 1013904242, 2773480762,
   1359893119, 2600822924, 528734635, 1541459225]

/-- The big-endian bytes of the bit length, for the padding tail. -/
def shaLenBytes (bitLen : Nat) : Bytes :=
  (List.range 8).map fun i => bitLen / 2 ^ ((7 - i) * 8) % 256

/-- Pad a message: a `0x80` byte, zeros up to 56 mod 64, then the bit length
as eight big-endian bytes. -/
def shaPad (msg : Bytes) : Bytes :=
  let zeros := (64 - (msg.length + 9) % 64) % 64
  msg ++ 128 :: List.replicate zeros 0 ++ shaLenBytes (8 * msg.length)

/-- Split a padded message into 64-byte blocks (the fuel bounds the number of
steps so the recursion is structural). -/
def shaBlocksF : Nat → Bytes → List Bytes
  | 0, _ => []
  | _, [] => []
  | fuel + 1, b :: rest => ((b :: rest).take 64) :: shaBlocksF fuel (rest.drop 63)

/-- The 64-byte blocks of a padded message. -/
def shaBlocks (bs : Bytes) : List Bytes := shaBlocksF bs.length bs

/-- One word of the initial schedule segment: four block bytes, big-endian. -/
def shaWord16 (block : Bytes) (i : Nat) : Nat :=
  ((wordAt block (4 * i) * 256 + wordAt block (4 * i + 1)) * 256 +
    wordAt block (4 * i + 2)) * 256 + wordAt block (4 * i + 3)

/-- Append one expanded word to a schedule prefix. -/
def shaExtend (w : List Nat) : List Nat :=
  let n := w.length
  let u := wordAt w (n - 15)
  let v := wordAt w (n - 2)
  let sA := rotw 7 u ^^^ rotw 18 u ^^^ u / 2 ^ 3
  let sB := rotw 17 v ^^^ rotw 19 v ^^^ v / 2 ^ 10
  w ++ [mask32 (wordAt w (n - 16) + sA + wordAt w (n - 7) + sB)]

/-- The 64-word message schedule of one block. -/
def shaSchedule (block : Bytes) : List Nat :=
  (List.range 48).foldl (fun w _ => shaExtend w)
    ((List.range 16).map (shaWord16 block))

/-- One round of the compression loop on the eight state words. -/
def shaRound (w : List Nat) (v : List Nat) (i : Nat) : List Nat :=
  let a := wordAt v 0
  let b := wordAt v 1
  let c := wordAt v 2
  let d := wordAt v 3
  let e := wordAt v 4
  let f := wordAt v 5
  let g := wordAt v 6
  let h := wordAt v 7
  let choice := (e &&& f) ^^^ (g &&& (4294967295 - e))
  let major := (a &&& b) ^^^ (c &&& (a ^^^ b))
  let big1 := rotw 6 e ^^^ rotw 11 e ^^^ rotw 25 e
  let big0 := rotw 2 a ^^^ rotw 13 a ^^^ rotw 22 a
  let t1 := mask32 (h + big1 + choice + wordAt shaK i + wordAt w i)
  let t2 := mask32 (big0 + major)
  mask32 (t1 + t2) :: a :: b :: c :: mask32 (d + t1) :: e :: f :: [g]

/-- Compress one block into the running state. -/
def shaCompress (h : List Nat) (block : Bytes) : List Nat :=
  let final := (List.range 64).foldl (shaRound (shaSchedule block)) h
  (List.range 8).map fun i => mask32 (wordAt h i + wordAt final i)

/-- SHA-256 digest of a byte string, as 32 bytes (big-endian words). -/
def sha256 (msg : Bytes) : Bytes :=
  let h := (shaBlocks (shaPad msg)).foldl shaCompress shaH0
  (List.range 8).flatMap fun i =>
    (List.range 4).map fun j => wordAt h i / 2 ^ ((3 - j) * 8) % 256

/-! ## BSON serialization (`bson::to_vec`, as driven by the serde derives
on `Commit` and `CommitPayload` in `models.rs`)

`Vec<u8>` fields have no `serde_bytes` annotation, so serde serializes them as
sequences and the `bson` crate renders them as arrays of 32-bit integers with
decimal index keys; `Uuid` serializes as its hyphenated string; an enum with a
one-field tuple variant serializes as the document `{ VariantName: inner }`. -/

/-- Bytes of an ASCII string.  All strings serialized by this model (struct
field names, enum variant names, slugs, UUIDs) are ASCII, for which UTF-8 is
the identity on code points. -/
def asciiBytes (s : String) : Bytes := s.data.map Char.toNat

/-- A BSON cstring: the bytes of the name followed by a zero byte. -/
def cstring (s : String) : Bytes := asciiBytes s ++ [0]

/-- Little-endian 32-bit encoding. -/
def int32LE (n : Nat) : Bytes :=
  [n % 256, n >>> 8 % 256, n >>> 16 % 256, n >>> 24 % 256]

/-- Little-endian 64-bit two's-complement encoding of an `i64`. -/
def int64LE (i : Int) : Bytes :=
  let n := (i % 18446744073709551616).toNat
  (List.range 8).map fun k => n >>> (8 * k) % 256

/-- A BSON document from already-encoded element bytes: total length (int32),
the elements, a terminating zero byte. -/
def bsonDoc (elems : Bytes) : Bytes :=
  int32LE (4 + elems.length + 1) ++ elems ++ [0]

/-- A BSON int32 element (tag 0x10). -/
def bsonInt32Elem (name : String) (n : Nat) : Bytes :=
  0x10 :: cstring name ++ int32LE n

/-- A BSON int64 element (tag 0x12), used for the `i64` timestamp. -/
def bsonInt64Elem (name : String) (i : Int) : Bytes :=
  0x12 :: cstring name ++ int64LE i

/-- A BSON string element (tag 0x02). -/
def bsonStringElem (name : String) (s : String) : Bytes :=
  0x02 :: cstring name ++ int32LE ((asciiBytes s).length + 1) ++ asciiBytes s ++ [0]

/-- A BSON embedded-document element (tag 0x03). -/
def bsonDocElem (name : String) (doc : Bytes) : Bytes :=
  0x03 :: cstring name ++ doc

/-- A BSON array element (tag 0x04) holding a `Vec<u8>` serialized through
serde: a document keyed by decimal indices whose values are int32. -/
def bsonByteArrayElem (name : String) (bs : Bytes) : Bytes :=
  0x04 :: cstring name ++
    bsonDoc ((bs.enum.map fun p => bsonInt32Elem (toString p.1) p.2).flatten)

/-! ## Data model (`models.rs`, `models/post.rs`)

`Post.content` is an opaque serialized document tree: the storage layer only
ever moves the blob through `bson::to_vec`/`bson::from_slice`, a bijection on
stored blobs, so the model carries the blob itself.  The `is_special` flag of
the latest `models.rs` has no column in the cited sqlite schema and is not
touched by the cited storage code, so it is not part of the row model.
A `Uuid` is modelled as its hyphenated string, which is exactly what the
storage layer stores (`format!("{}", uuid.as_hyphenated())`). -/

/-- A blog post (`Post`). -/
structure Post where
  title : String
  slug : String
  author : String
  create_timestamp : Int
  update_timestamp : Int
  category : String
  tags : List String
  content : Bytes
deriving DecidableEq, Repr

/-- A post-attached resource (`PostResource`, rows of `posts_resources`). -/
structure PostResource where
  post_slug : String
  name : String
  ty : String
  data : Bytes
deriving DecidableEq, Repr

/-- A free-standing static resource (`Resource`), its `Uuid` in hyphenated
string form. -/
structure Resource where
  id : String
  name : String
  ty : String
  data : Bytes
deriving DecidableEq, Repr

/-- A commit payload (`CommitPayload`): the tagged union folded by the
synchronizer.  The resource payloads carry the resource key (the `Uuid` of
`models.rs`, modelled as its string). -/
inductive CommitPayload where
  | createPost (slug : String)
  | deletePost (slug : String)
  | createResource (id : String)
  | deleteResource (id : String)
deriving DecidableEq, Repr

/-- A commit object (`Commit`). -/
structure Commit where
  id : Bytes
  timestamp : Int
  prev_commit_id : Bytes
  payload : CommitPayload
deriving DecidableEq, Repr

/-- BSON document for a `CommitPayload` (serde enum: `{ VariantName: inner }`,
the inner one-field struct another document). -/
def CommitPayload.bson : CommitPayload → Bytes
  | .createPost slug => bsonDoc (bsonDocElem "CreatePost" (bsonDoc (bsonStringElem "slug" slug)))
  | .deletePost slug => bsonDoc (bsonDocElem "DeletePost" (bsonDoc (bsonStringElem "slug" slug)))
  | .createResource id =>
      bsonDoc (bsonDocElem "CreateResource" (bsonDoc (bsonStringElem "id" id)))
  | .deleteResource id =>
      bsonDoc (bsonDocElem "DeleteResource" (bsonDoc (bsonStringElem "id" id)))

/-- `bson::to_vec` of a whole `Commit` value, fields in declaration order. -/
def Commit.bson (c : Commit) : Bytes :=
  bsonDoc (bsonByteArrayElem "id" c.id ++ bsonInt64Elem "timestamp" c.timestamp ++
    bsonByteArrayElem "prev_commit_id" c.prev_commit_id ++
    bsonDocElem "payload" c.payload.bson)

/-- `Commit::new`: build the commit with an empty id, serialize it with BSON,
and store the SHA-256 digest of that serialization as the id.  The creation
timestamp (`OffsetDateTime::now_utc().unix_timestamp()` in the source) is
passed in explicitly by the embedding. -/
def Commit.new (now : Int) (prev_commit_id : Bytes) (payload : CommitPayload) : Commit :=
  let commit : Commit :=
    { id := [], timestamp := now, prev_commit_id := prev_commit_id, payload := payload }
  { commit with id := sha256 commit.bson }

/-! ## The sqlite store (`storage/sqlite/{post,resource,commit}.rs`)

Each table is the insertion-ordered list of its rows (list position = `rowid`
order).  `PRIMARY KEY`/`UNIQUE` indexes become explicit conflict checks;
`ORDER BY` on the timestamp-indexed tables becomes a stable sort, matching
SQLite's index scans, which deliver equal keys in `rowid` order. -/

/-- A row of the `posts` table (no tags: those live in `posts_tags`). -/
structure PostRow where
  slug : String
  title : String
  author : String
  create_timestamp : Int
  update_timestamp : Int
  category : String
  content : Bytes
deriving DecidableEq, Repr

/-- The five tables of one sqlite store. -/
structure Store where
  posts : List PostRow
  posts_tags : List (String × String)
  posts_resources : List PostResource
  resources : List Resource
  commits : List Commit
deriving DecidableEq, Repr

/-- A store whose schema was just initialized: all tables empty. -/
def Store.empty : Store := ⟨[], [], [], [], []⟩

/-- Errors of the sqlite storage layer (`SqliteStorageError`, coarsened to the
constraint-violation/SQL-error distinctions the claims speak about). -/
inductive SqErr where
  /-- A unique-key constraint violation. -/
  | conflict
  /-- A statement that fails to prepare, e.g. `INSERT ... VALUES ;`. -/
  | malformedSql
  /-- `rusqlite`'s invalid-column-name error for `row.get("c")` on a row
  lacking column `c`. -/
  | invalidColumnName (col : String)
deriving DecidableEq, Repr

namespace Db

/-- The `posts` row with the given slug (`WHERE slug == ?`, unique key). -/
def rowFor (slug : String) (posts : List PostRow) : Option PostRow :=
  posts.find? (fun r => r.slug == slug)

/-- The tag names attached to a slug, in row order (`populate_post_tags`). -/
def tagsFor (slug : String) (tags : List (String × String)) : List String :=
  (tags.filter (fun p => p.1 == slug)).map (fun p => p.2)

/-- The `posts_resources` rows of a slug, in row order. -/
def resourcesFor (slug : String) (prs : List PostResource) : List PostResource :=
  prs.filter (fun r => r.post_slug == slug)

/-- Turn a `posts` row into a `Post` with the given tags
(`create_post_from_row` + `populate_post_tags`). -/
def PostRow.toPost (r : PostRow) (tags : List String) : Post :=
  { title := r.title, slug := r.slug, author := r.author,
    create_timestamp := r.create_timestamp, update_timestamp := r.update_timestamp,
    category := r.category, tags := tags, content := r.content }

/-- Turn a `Post` into its `posts` row (the columns of `INSERT INTO posts`). -/
def Post.toRow (p : Post) : PostRow :=
  { slug := p.slug, title := p.title, author := p.author,
    create_timestamp := p.create_timestamp, update_timestamp := p.update_timestamp,
    category := p.category, content := p.content }

/-- `post.rs::insert_post`: insert the row (`PRIMARY KEY` on slug), then the
tags (`UNIQUE (post_slug, tag_name)`), then the attached resources
(`UNIQUE (post_slug, res_name)`); resource rows take the post's slug through
the `?1` parameter.  Any constraint violation fails the whole call. -/
def insert_post (post : Post) (post_resources : List PostResource) (S : Store) :
    Except SqErr Store :=
  if S.posts.any (fun r => r.slug == post.slug) then .error .conflict
  else if (¬ post.tags.Nodup) ∨ post.tags.any (fun t => (post.slug, t) ∈ S.posts_tags) then
    .error .conflict
  else if (¬ (post_resources.map (·.name)).Nodup) ∨
      post_resources.any (fun r =>
        S.posts_resources.any (fun q => q.post_slug == post.slug && q.name == r.name)) then
    .error .conflict
  else .ok { S with
    posts := S.posts ++ [Post.toRow post],
    posts_tags := S.posts_tags ++ post.tags.map (fun t => (post.slug, t)),
    posts_resources := S.posts_resources ++ post_resources.map (fun r =>
      { r with post_slug := post.slug }) }

/-- `post.rs::delete_post`: `DELETE FROM posts WHERE slug == ?`.  The
`ON DELETE CASCADE` clauses of `posts_tags` and `posts_resources` are inert
(the `foreign_keys` pragma is never enabled), so only the `posts` table
changes.  Never an error, also for an absent slug. -/
def delete_post (slug : String) (S : Store) : Store :=
  { S with posts := S.posts.filter (fun r => r.slug != slug) }

/-- `post.rs::get_post`: the row for the slug, its tags populated from
`posts_tags`. -/
def get_post (S : Store) (slug : String) : Option Post :=
  (rowFor slug S.posts).map fun r => PostRow.toPost r (tagsFor slug S.posts_tags)

/-- `post.rs::get_post_with_resources`. -/
def get_post_with_resources (S : Store) (slug : String) :
    Option (Post × List PostResource) :=
  (get_post S slug).map fun p => (p, resourcesFor slug S.posts_resources)

/-- Stable insertion for the descending-timestamp sort: a new row goes after
every already-placed row with timestamp ≥ its own. -/
def insertByTsDesc (r : PostRow) : List PostRow → List PostRow
  | [] => [r]
  | x :: xs =>
      if r.create_timestamp ≤ x.create_timestamp then x :: insertByTsDesc r xs
      else r :: x :: xs

/-- `ORDER BY create_timestamp DESC` over the `posts` table: a stable sort
(the `posts_idx_ts` index scan delivers equal timestamps in rowid order). -/
def sortByTsDesc (rows : List PostRow) : List PostRow :=
  rows.foldl (fun acc r => insertByTsDesc r acc) []

/-- `post.rs::get_posts`: `ORDER BY create_timestamp DESC LIMIT page_size
OFFSET (page-1)*page_size`; the selected rows omit `content`
(`create_posts_from_rows` fills in the empty document) and get their tags
populated. -/
def get_posts (S : Store) (skip limit : Nat) : List Post :=
  (((sortByTsDesc S.posts).drop skip).take limit).map fun r =>
    PostRow.toPost { r with content := [] } (tagsFor r.slug S.posts_tags)

/-- `resource.rs::insert_resource` (`PRIMARY KEY` on the id column). -/
def insert_resource (r : Resource) (S : Store) : Except SqErr Store :=
  if S.resources.any (fun q => q.id == r.id) then .error .conflict
  else .ok { S with resources := S.resources ++ [r] }

/-- `resource.rs::delete_resource`: `DELETE FROM resources WHERE id == ?`. -/
def delete_resource (id : String) (S : Store) : Store :=
  { S with resources := S.resources.filter (fun r => r.id != id) }

/-- `resource.rs::get_resource`: `SELECT id, name, ty, data ... WHERE id == ?`
through `create_resource_from_row` (the stored text id parses back to the same
`Uuid`). -/
def get_resource (S : Store) (id : String) : Option Resource :=
  S.resources.find? (fun r => r.id == id)

/-- Stable insertion for the ascending-timestamp sort of the commit log. -/
def insertByTsAsc (c : Commit) : List Commit → List Commit
  | [] => [c]
  | x :: xs =>
      if x.timestamp ≤ c.timestamp then x :: insertByTsAsc c xs
      else c :: x :: xs

/-- `ORDER BY timestamp ASC` over the commit log: a stable sort (the
`commits_idx_timestamp` index delivers equal timestamps in rowid order). -/
def sortByTsAsc (cs : List Commit) : List Commit :=
  cs.foldl (fun acc c => insertByTsAsc c acc) []

/-- `commit.rs::get_commits`: `WHERE timestamp >= ? ORDER BY timestamp ASC`. -/
def get_commits_since (S : Store) (since_timestamp : Int) : List Commit :=
  sortByTsAsc (S.commits.filter (fun c => since_timestamp ≤ c.timestamp))

/-- `commit.rs::get_latest_commit`: `ORDER BY timestamp DESC LIMIT 1`.  The
backward scan of the ascending index yields, among maximal timestamps, the
row inserted last. -/
def get_latest_commit (S : Store) : Option Commit :=
  S.commits.foldl
    (fun acc c => match acc with
      | none => some c
      | some m => if m.timestamp ≤ c.timestamp then some c else some m)
    none

/-- `commit.rs::insert_commits`: one batched
`INSERT INTO commits ... VALUES (?,?,?,?),...`.  For an empty slice the
generated statement is `INSERT INTO commits (...) VALUES ;`, which fails to
prepare.  No uniqueness constraint exists on commits. -/
def insert_commits (cs : List Commit) (S : Store) : Except SqErr Store :=
  if cs.isEmpty then .error .malformedSql
  else .ok { S with commits := S.commits ++ cs }

/-- `commit.rs::insert_commit`: `insert_commits` on a one-element slice. -/
def insert_commit (c : Commit) (S : Store) : Store :=
  { S with commits := S.commits ++ [c] }

/-! ### `get_resources` and its row-mapping function

`resource.rs::get_resources` runs `SELECT id, name, ty FROM resources` but
maps rows through `create_resources_from_row_no_data`, which also requests the
`data` column.  The row model below makes the selected column list explicit so
that this mismatch is visible. -/

/-- A value stored in a SQL column. -/
inductive SqlValue where
  | text (s : String)
  | int (i : Int)
  | blob (b : Bytes)
deriving DecidableEq, Repr

/-- A fetched row: the selected columns with their values. -/
def SqlRow := List (String × SqlValue)

/-- `Row::get` by column name: fails with the invalid-column-name error when
the column was not selected. -/
def rowGet (row : SqlRow) (col : String) : Except SqErr SqlValue :=
  match row.find? (fun p => p.1 == col) with
  | some p => .ok p.2
  | none => .error (.invalidColumnName col)

/-- Extraction of a text column value. -/
def asText : SqlValue → Except SqErr String
  | .text s => .ok s
  | _ => .error .conflict

/-- Extraction of a blob column value. -/
def asBlob : SqlValue → Except SqErr Bytes
  | .blob b => .ok b
  | _ => .error .conflict

/-- The row produced for a `resources` entry by `SELECT id, name, ty`. -/
def resourceRowNoData (r : Resource) : SqlRow :=
  [("id", .text r.id), ("name", .text r.name), ("ty", .text r.ty)]

/-- `resource.rs::create_resources_from_row_no_data`: reads `id` (and parses
the uuid), then `name`, `ty` and `data` in struct-literal order. -/
def create_resources_from_row_no_data (row : SqlRow) : Except SqErr Resource := do
  let idv ← rowGet row "id"
  let id ← asText idv
  let namev ← rowGet row "name"
  let name ← asText namev
  let tyv ← rowGet row "ty"
  let ty ← asText tyv
  let datav ← rowGet row "data"
  let data ← asBlob datav
  .ok { id := id, name := name, ty := ty, data := data }

/-- `resource.rs::get_resources`: `SELECT id, name, ty FROM resources` mapped
through `create_resources_from_row_no_data` (`query_many` stops at the first
failing row). -/
def get_resources (S : Store) : Except SqErr (List Resource) :=
  S.resources.mapM (fun r => create_resources_from_row_no_data (resourceRowNoData r))

end Db

/-! ## The storage facade (`storage/sqlite/mod.rs`) and pagination
(`storage/mod.rs`) -/

/-- Pagination parameters (`Pagination`); `from_page_and_size` asserts
`page > 0` and `page_size > 0`. -/
structure Pagination where
  page : Nat
  page_size : Nat
deriving DecidableEq, Repr

/-- `Pagination::skip_count`: `(page - 1) * page_size`. -/
def Pagination.skip_count (p : Pagination) : Nat := (p.page - 1) * p.page_size

/-- A paginated list (`PaginatedList`). -/
structure PaginatedList (T : Type) where
  objects : List T
  total_count : Nat
deriving DecidableEq, Repr

namespace SqliteStorage

/-- `SqliteStorage::transact_and_commit`: inside one transaction, read the
current chain tail, run the content mutation, then create and insert one
commit per payload, each chaining to the previous one; the first payload
chains to the tail (or to the empty id on an empty log).  An error anywhere
rolls the transaction back, so the caller keeps the unchanged store.  `now` is
the clock value `Commit::new` reads. -/
def transact_and_commit (now : Int) (commit_payloads : List CommitPayload)
    (transact : Store → Except SqErr Store) (S : Store) : Except SqErr Store :=
  let last_commit_id := ((Db.get_latest_commit S).map (·.id)).getD []
  match transact S with
  | .error e => .error e
  | .ok S1 =>
      .ok (commit_payloads.foldl
        (fun (acc : Store × Bytes) payload =>
          let commit := Commit.new now acc.2 payload
          (Db.insert_commit commit acc.1, commit.id))
        (S1, last_commit_id)).1

/-- `SqliteStorage::insert_post`: one `CreatePost` commit. -/
def insert_post (now : Int) (post : Post) (post_resources : List PostResource)
    (S : Store) : Except SqErr Store :=
  transact_and_commit now [.createPost post.slug] (Db.insert_post post post_resources) S

/-- `SqliteStorage::update_post`: delete then reinsert, with a `DeletePost`
commit followed by a `CreatePost` commit. -/
def update_post (now : Int) (post : Post) (post_resources : List PostResource)
    (S : Store) : Except SqErr Store :=
  transact_and_commit now [.deletePost post.slug, .createPost post.slug]
    (fun S => Db.insert_post post post_resources (Db.delete_post post.slug S)) S

/-- `SqliteStorage::delete_post`: one `DeletePost` commit (also when no row
matches the slug). -/
def delete_post (now : Int) (slug : String) (S : Store) : Except SqErr Store :=
  transact_and_commit now [.deletePost slug] (fun S => .ok (Db.delete_post slug S)) S

/-- `SqliteStorage::insert_resource`: one `CreateResource` commit. -/
def insert_resource (now : Int) (r : Resource) (S : Store) : Except SqErr Store :=
  transact_and_commit now [.createResource r.id] (Db.insert_resource r) S

/-- `SqliteStorage::delete_resource`: one `DeleteResource` commit. -/
def delete_resource (now : Int) (id : String) (S : Store) : Except SqErr Store :=
  transact_and_commit now [.deleteResource id] (fun S => .ok (Db.delete_resource id S)) S

/-- Modelled from the spec: the facade's paginated post listing returns the
selected page together with the total number of posts regardless of
pagination (`PaginatedList.total_count`); the body assembling the
`PaginatedList` is not among the sources, only its `Pagination`/
`PaginatedList` types and the row query `post.rs::get_posts` are. -/
def get_posts (S : Store) (pagination : Pagination) : PaginatedList Post :=
  { objects := Db.get_posts S pagination.skip_count pagination.page_size,
    total_count := S.posts.length }

end SqliteStorage

/-! ## Facade call traces

A mutating facade call either commits (yielding the next store) or rolls back
(leaving the store unchanged).  A trace is a list of calls with the clock
values at which they ran; `TraceOK` says the clock is a clock: non-negative
and non-decreasing. -/

/-- One mutating facade call, with the clock value at which it runs. -/
inductive Ev where
  | insertPost (now : Int) (post : Post) (rs : List PostResource)
  | updatePost (now : Int) (post : Post) (rs : List PostResource)
  | deletePost (now : Int) (slug : String)
  | insertResource (now : Int) (r : Resource)
  | deleteResource (now : Int) (id : String)
deriving DecidableEq, Repr

/-- The clock value of a call. -/
def Ev.time : Ev → Int
  | .insertPost t _ _ => t
  | .updatePost t _ _ => t
  | .deletePost t _ => t
  | .insertResource t _ => t
  | .deleteResource t _ => t

/-- Execute one facade call. -/
def Ev.exec (S : Store) : Ev → Except SqErr Store
  | .insertPost t p rs => SqliteStorage.insert_post t p rs S
  | .updatePost t p rs => SqliteStorage.update_post t p rs S
  | .deletePost t slug => SqliteStorage.delete_post t slug S
  | .insertResource t r => SqliteStorage.insert_resource t r S
  | .deleteResource t id => SqliteStorage.delete_resource t id S

/-- Run one call; a rolled-back (failed) call leaves the store unchanged. -/
def runEv (S : Store) (e : Ev) : Store :=
  match e.exec S with
  | .ok S1 => S1
  | .error _ => S

/-- Run a trace of calls, rolled-back calls leaving no mark. -/
def runTrace (S : Store) (evs : List Ev) : Store :=
  evs.foldl runEv S

/-- Run a trace of calls, stopping at the first failure. -/
def runTraceE (S : Store) (evs : List Ev) : Except SqErr Store :=
  evs.foldlM Ev.exec S

/-- The clock discipline from a lower bound: each call time is at least the
bound, and times are non-decreasing along the trace. -/
def traceOKFrom : Int → List Ev → Bool
  | _, [] => true
  | t, e :: es => t ≤ e.time && traceOKFrom e.time es

/-- A wall clock run: call times non-negative and non-decreasing. -/
def TraceOK (evs : List Ev) : Prop := traceOKFrom 0 evs = true

/-! ## The synchronizer (`storage/sync.rs`) -/

/-- A synchronization delta (`Delta`).  The resource key is the one the store
uses (the uuid string); `sync.rs`'s fold manipulates exactly this key. -/
structure Delta where
  added_posts : List (Post × List PostResource) := []
  deleted_post_slugs : List String := []
  added_resources : List Resource := []
  deleted_resource_ids : List String := []
  commits : List Commit := []
deriving DecidableEq, Repr

/-- `Delta::new`. -/
def Delta.new : Delta := {}

/-- Errors during storage synchronization (`SynchronizeStorageError`). -/
inductive SyncError where
  | fromStorage (e : SqErr)
  | toStorage (e : SqErr)
  | diverseHistory
deriving DecidableEq, Repr

/-- Insert into a set held as a list (`HashSet::insert`; first-insertion
order). -/
def setInsert (x : String) (l : List String) : List String :=
  if x ∈ l then l else l ++ [x]

/-- The four sets built by `collect_delta`'s pass over the commits. -/
structure FoldAcc where
  added_posts : List String := []
  deleted_posts : List String := []
  added_resources : List String := []
  deleted_resources : List String := []
deriving DecidableEq, Repr

/-- One step of `collect_delta`'s `match` on a commit payload: a delete
removes a matching earlier create instead of recording a deletion
(`if !added.remove(key) { deleted.insert(key) }`). -/
def foldStep (acc : FoldAcc) (c : Commit) : FoldAcc :=
  match c.payload with
  | .createPost slug => { acc with added_posts := setInsert slug acc.added_posts }
  | .deletePost slug =>
      if slug ∈ acc.added_posts then
        { acc with added_posts := acc.added_posts.filter (fun s => s ≠ slug) }
      else { acc with deleted_posts := setInsert slug acc.deleted_posts }
  | .createResource id =>
      { acc with added_resources := setInsert id acc.added_resources }
  | .deleteResource id =>
      if id ∈ acc.added_resources then
        { acc with added_resources := acc.added_resources.filter (fun s => s ≠ id) }
      else { acc with deleted_resources := setInsert id acc.deleted_resources }

/-- The sets after `collect_delta`'s pass. -/
def foldSets (commits : List Commit) : FoldAcc :=
  commits.foldl foldStep {}

/-- `sync.rs::collect_delta`: fold the commits into the four sets, fetch the
surviving additions from the source store (`if let Some`), and carry all the
commits.  The fetches are read-only queries, pure in this model. -/
def collect_delta (storage : Store) (commits : List Commit) : Delta :=
  let acc := foldSets commits
  { added_posts := acc.added_posts.filterMap (Db.get_post_with_resources storage),
    deleted_post_slugs := acc.deleted_posts,
    added_resources := acc.added_resources.filterMap (Db.get_resource storage),
    deleted_resource_ids := acc.deleted_resources,
    commits := commits }

/-- `sync.rs::get_delta`: read the destination's latest commit, query the
source's commits since its timestamp (0 when the destination is empty),
detect divergence, drop the shared boundary commit, and fold the rest. -/
def get_delta (storage_from storage_to : Store) : Except SyncError Delta :=
  let to_latest_commit := Db.get_latest_commit storage_to
  let to_latest_commit_timestamp := (to_latest_commit.map (·.timestamp)).getD 0
  let from_commits := Db.get_commits_since storage_from to_latest_commit_timestamp
  match from_commits, to_latest_commit with
  | [], none => .ok Delta.new
  | [], some _ => .error .diverseHistory
  | c :: rest, some L =>
      if L.id = c.id then .ok (collect_delta storage_from rest)
      else .error .diverseHistory
  | fc, none => .ok (collect_delta storage_from fc)

/-- `SqliteStorage::apply_delta`: inside one transaction, delete the deleted
posts and resources, insert the added posts and resources, then insert the
delta's commits verbatim. -/
def apply_delta (S : Store) (delta : Delta) : Except SqErr Store := do
  let S1 := delta.deleted_post_slugs.foldl (fun S slug => Db.delete_post slug S) S
  let S2 := delta.deleted_resource_ids.foldl (fun S id => Db.delete_resource id S) S1
  let S3 ← delta.added_posts.foldlM (fun S pr => Db.insert_post pr.1 pr.2 S) S2
  let S4 ← delta.added_resources.foldlM (fun S r => Db.insert_resource r S) S3
  Db.insert_commits delta.commits S4

/-- `sync.rs::synchronize_storage`: compute the delta, then apply it to the
destination.  The pair's second component is the destination store afterwards;
on any error the destination transaction rolled back (or, for delta
computation errors, never started), so it is the unchanged input. -/
def synchronize_storage (storage_from storage_to : Store) :
    Except SyncError Unit × Store :=
  match get_delta storage_from storage_to with
  | .error e => (.error e, storage_to)
  | .ok delta =>
      match apply_delta storage_to delta with
      | .error e => (.error (.toStorage e), storage_to)
      | .ok S1 => (.ok (), S1)

/-! ## Derived notions used by the statements and proofs -/

/-- The commits `transact_and_commit` creates for a payload list, each
chaining to its predecessor, the first to `prev`. -/
def newCommits (now : Int) (prev : Bytes) : List CommitPayload → List Commit
  | [] => []
  | p :: ps =>
      let c := Commit.new now prev p
      c :: newCommits now c.id ps

/-- How many commits one facade call appends when it succeeds: two for
`update_post` (a `DeletePost` and a `CreatePost`), one otherwise. -/
def Ev.commitCount : Ev → Nat
  | .updatePost _ _ _ => 2
  | _ => 1

/-- Total number of commits a successful trace appends. -/
def commitCount (evs : List Ev) : Nat :=
  evs.foldl (fun n e => n + e.commitCount) 0

/-- The commit chain condition: starting from parent id `p`, each commit's
`prev_commit_id` is its predecessor's id. -/
def ChainedFrom (p : Bytes) : List Commit → Prop
  | [] => True
  | c :: cs => c.prev_commit_id = p ∧ ChainedFrom c.id cs

/-- Timestamps of a commit list are non-decreasing. -/
def tsSorted (cs : List Commit) : Prop :=
  cs.Pairwise (fun a b => a.timestamp ≤ b.timestamp)

/-- The post operation a payload performs on slug `x`, if any
(`true` = create, `false` = delete). -/
def postOp (x : String) : CommitPayload → Option Bool
  | .createPost s => if s = x then some true else none
  | .deletePost s => if s = x then some false else none
  | _ => none

/-- The free-resource operation a payload performs on resource key `x`. -/
def resOp (x : String) : CommitPayload → Option Bool
  | .createResource s => if s = x then some true else none
  | .deleteResource s => if s = x then some false else none
  | _ => none

/-- The subsequence of operations on slug `x` in a commit list. -/
def projPost (x : String) (cs : List Commit) : List Bool :=
  cs.filterMap (fun c => postOp x c.payload)

/-- The subsequence of operations on resource key `x` in a commit list. -/
def projRes (x : String) (cs : List Commit) : List Bool :=
  cs.filterMap (fun c => resOp x c.payload)

/-- The two-bit state `(in added set, in deleted set)` of one key under
`collect_delta`'s fold. -/
def bitStep (ad : Bool × Bool) (b : Bool) : Bool × Bool :=
  if b then (true, ad.2) else if ad.1 then (false, ad.2) else (false, true)

/-- The key's fold state after a sequence of its operations. -/
def bitRun (l : List Bool) : Bool × Bool := l.foldl bitStep (false, false)

/-- A slug has a `posts` row. -/
def isLivePost (S : Store) (x : String) : Prop := (Db.rowFor x S.posts).isSome

/-- The commits a trace starting at `S` appended. -/
def windowOf (S : Store) (evs : List Ev) : List Commit :=
  (runTrace S evs).commits.drop S.commits.length

/-- The content-observable part of a store for one slug: its `posts` row, its
tag rows, its attached-resource rows. -/
def postState (S : Store) (x : String) :
    Option PostRow × List String × List PostResource :=
  (Db.rowFor x S.posts, Db.tagsFor x S.posts_tags, Db.resourcesFor x S.posts_resources)

/-- Creation-timestamp-descending order on `posts` rows. -/
def tsSortedDesc (rows : List PostRow) : Prop :=
  rows.Pairwise (fun a b => b.create_timestamp ≤ a.create_timestamp)

/-- Lexicographic order on strings by code point, used to spell out the
spec's "deterministic tie-break by slug". -/
def strLeB : List Char → List Char → Bool
  | [], _ => true
  | _ :: _, [] => false
  | a :: as, b :: bs =>
      if a.toNat < b.toNat then true
      else if b.toNat < a.toNat then false
      else strLeB as bs

/-- Written from the spec's words for the pagination claim: the spec ranking
orders posts by creation timestamp descending "with ties broken
deterministically by slug".  To be compared against what `get_posts`
computes. -/
def specLe (a b : PostRow) : Prop :=
  b.create_timestamp < a.create_timestamp ∨
    (a.create_timestamp = b.create_timestamp ∧ strLeB a.slug.data b.slug.data = true)

instance (a b : PostRow) : Decidable (specLe a b) := by
  unfold specLe; infer_instance

/-- Written from the spec's words: insertion sort of the rows under the
spec's descending-timestamp, slug-tie-break order. -/
def specInsert (r : PostRow) : List PostRow → List PostRow
  | [] => [r]
  | x :: xs => if specLe x r then x :: specInsert r xs else r :: x :: xs

/-- Written from the spec's words: the spec's full ranking of the store's
posts. -/
def specRanking (rows : List PostRow) : List PostRow :=
  rows.foldl (fun acc r => specInsert r acc) []

/-- The commit payloads one facade call hands to `transact_and_commit`. -/
def Ev.payloads : Ev → List CommitPayload
  | .insertPost _ p _ => [.createPost p.slug]
  | .updatePost _ p _ => [.deletePost p.slug, .createPost p.slug]
  | .deletePost _ slug => [.deletePost slug]
  | .insertResource _ r => [.createResource r.id]
  | .deleteResource _ id => [.deleteResource id]

/-- The chain tail `transact_and_commit` reads: the latest commit's id, or the
empty byte sequence on an empty log. -/
def lastId (S : Store) : Bytes := ((Db.get_latest_commit S).map (·.id)).getD []

/-- The last post operation on slug `x` in a commit list, if any. -/
def lastPostOp (x : String) (cs : List Commit) : Option Bool := (projPost x cs).getLast?

/-- The last free-resource operation on key `x` in a commit list, if any. -/
def lastResOp (x : String) (cs : List Commit) : Option Bool := (projRes x cs).getLast?

/-- A free resource key has a `resources` row. -/
def resLive (S : Store) (x : String) : Prop := (Db.get_resource S x).isSome

/-- The time of the last call of a trace, or `t` for the empty trace. -/
def lastTime (t : Int) (evs : List Ev) : Int :=
  evs.foldl (fun _ e => e.time) t

/-- The id of the last commit of `l`, or `p` when `l` is empty. -/
def chainTail (p : Bytes) (l : List Commit) : Bytes :=
  match l.getLast? with
  | some c => c.id
  | none => p

/-- The invariants every store reachable through the facade satisfies:
the commit log is timestamp-sorted, non-negative and hash-chained from the
empty id; the unique keys of the four content tables hold; and a post row
(resp. free resource row) exists exactly when the last commit concerning its
key is a create. -/
structure Inv (S : Store) : Prop where
  ts_sorted : tsSorted S.commits
  ts_nonneg : ∀ c ∈ S.commits, 0 ≤ c.timestamp
  chain : ChainedFrom [] S.commits
  posts_nodup : (S.posts.map (·.slug)).Nodup
  tags_nodup : S.posts_tags.Nodup
  pres_nodup : (S.posts_resources.map (fun r => (r.post_slug, r.name))).Nodup
  res_nodup : (S.resources.map (·.id)).Nodup
  post_live : ∀ x, isLivePost S x ↔ lastPostOp x S.commits = some true
  res_live : ∀ x, resLive S x ↔ lastResOp x S.commits = some true

/-! ### Concrete fixtures for witnesses and counterexamples -/

/-- A concrete commit record. -/
def fixCommit : Commit :=
  { id := [1], timestamp := 5, prev_commit_id := [], payload := .createPost "a" }

/-- A destination store holding one commit. -/
def fixDst : Store := { Store.empty with commits := [fixCommit] }

/-- A concrete post with slug `a`. -/
def fixPost : Post :=
  { title := "t", slug := "a", author := "u", create_timestamp := 1,
    update_timestamp := 1, category := "c", tags := [], content := [] }

/-- A store already containing the post with slug `a`. -/
def fixStoreWithA : Store := { Store.empty with posts := [Db.Post.toRow fixPost] }

/-- The commit list of the C6 scenarios: create `a`, delete `a`. -/
def cexCommits2 : List Commit :=
  [{ id := [], timestamp := 1, prev_commit_id := [], payload := .createPost "a" },
   { id := [], timestamp := 2, prev_commit_id := [], payload := .deletePost "a" }]

/-- A commit list in which a `CreatePost` for `a` is later followed by a
`DeletePost` for `a` — and then another `CreatePost` for `a`. -/
def cexCommits3 : List Commit :=
  cexCommits2 ++
    [{ id := [], timestamp := 3, prev_commit_id := [], payload := .createPost "a" }]

/-- A post-attached resource fixture. -/
def fixPr : PostResource := { post_slug := "a", name := "r", ty := "m", data := [7] }

/-- The post `a` carrying one tag. -/
def fixTagged : Post := { fixPost with tags := ["g"] }

/-- A store built by the facade: post `a` inserted with one tag and one
attached resource. -/
def storeC7 : Store := runTrace Store.empty [.insertPost 1 fixTagged [fixPr]]

/-- The same store after `delete_post("a")` through the facade. -/
def storeC7d : Store :=
  runTrace Store.empty [.insertPost 1 fixTagged [fixPr], .deletePost 2 "a"]

/-- A `posts` row with timestamp 5 and slug `b`. -/
def cexRowB : PostRow :=
  { slug := "b", title := "t", author := "u", create_timestamp := 5,
    update_timestamp := 5, category := "c", content := [] }

/-- The same row with slug `a`, inserted after `b`. -/
def cexRowA : PostRow := { cexRowB with slug := "a" }

/-- A store whose two posts share a creation timestamp, `b` inserted first. -/
def cexPagStore : Store := { Store.empty with posts := [cexRowB, cexRowA] }

/-- A concrete post with slug `a1`, for the synchronization scenarios. -/
def c1pA : Post :=
  { title := "t", slug := "a1", author := "u", create_timestamp := 1,
    update_timestamp := 1, category := "c", tags := [], content := [] }

/-- The same post shape under slug `b1`. -/
def c1pB : Post := { c1pA with slug := "b1" }

/-- The same post shape under slug `c1`. -/
def c1pC : Post := { c1pA with slug := "c1" }

/-- Two inserts sharing clock value 100: the destination's history. -/
def c1Evs1 : List Ev := [.insertPost 100 c1pA [], .insertPost 100 c1pB []]

/-- One further insert at clock 101: the source's extra history. -/
def c1Evs2 : List Ev := [.insertPost 101 c1pC []]

/-- Destination history for the convergence witness. -/
def c1wEvs1 : List Ev := [.insertPost 1 c1pA []]

/-- Source-only history for the convergence witness. -/
def c1wEvs2 : List Ev := [.insertPost 2 c1pB []]

/-! ## Lemmas: the synchronizer's fold, per key -/

theorem mem_setInsert {x y : String} {l : List String} :
    x ∈ setInsert y l ↔ x = y ∨ x ∈ l := by
  unfold setInsert
  split
  · rename_i h
    exact ⟨fun hx => Or.inr hx, fun h2 => h2.elim (fun e => e ▸ h) id⟩
  · simp [or_comm]

theorem mem_setInsert_ne {x y : String} {l : List String} (h : ¬ y = x) :
    (x ∈ setInsert y l) = (x ∈ l) :=
  propext ⟨fun hm => (mem_setInsert.mp hm).elim (fun e => absurd e.symm h) id,
    fun hm => mem_setInsert.mpr (Or.inr hm)⟩

theorem mem_filter_ne {x y : String} {l : List String} (h : ¬ y = x) :
    (x ∈ l.filter (fun q => q ≠ y)) = (x ∈ l) :=
  propext ⟨fun hm => (List.mem_filter.mp hm).1,
    fun hm => List.mem_filter.mpr ⟨hm, by exact decide_eq_true (fun e => h e.symm)⟩⟩

/-- One `foldStep` acts on a key's two-bit membership state exactly as
`bitStep` acts on the key's operation (if the commit concerns the key at
all). -/
theorem foldStep_postPair (x : String) (acc : FoldAcc) (c : Commit) :
    (decide (x ∈ (foldStep acc c).added_posts),
      decide (x ∈ (foldStep acc c).deleted_posts)) =
    (match postOp x c.payload with
     | some b => bitStep (decide (x ∈ acc.added_posts), decide (x ∈ acc.deleted_posts)) b
     | none => (decide (x ∈ acc.added_posts), decide (x ∈ acc.deleted_posts))) := by
  obtain ⟨cid, cts, cprev, pl⟩ := c
  cases pl with
  | createPost s =>
      by_cases hxs : s = x
      · subst hxs
        simp [foldStep, postOp, bitStep, mem_setInsert]
      · simp [foldStep, postOp, hxs, mem_setInsert_ne hxs]
  | deletePost s =>
      by_cases hxs : s = x
      · subst hxs
        by_cases hin : s ∈ acc.added_posts
        · have hx : ¬ s ∈ acc.added_posts.filter (fun q => q ≠ s) := by
            simp [List.mem_filter]
          simp [foldStep, postOp, bitStep, hin, hx]
        · simp [foldStep, postOp, bitStep, hin, mem_setInsert]
      · by_cases hin : s ∈ acc.added_posts
        · simp only [foldStep, postOp, if_neg hxs, if_pos hin]
          simp only [mem_filter_ne hxs]
        · simp only [foldStep, postOp, if_neg hxs, if_neg hin]
          simp only [mem_setInsert_ne hxs]
  | createResource s => simp [foldStep, postOp]
  | deleteResource s =>
      by_cases hin : s ∈ acc.added_resources <;> simp [foldStep, postOp, hin]

/-- Same, for the resource sets. -/
theorem foldStep_resPair (x : String) (acc : FoldAcc) (c : Commit) :
    (decide (x ∈ (foldStep acc c).added_resources),
      decide (x ∈ (foldStep acc c).deleted_resources)) =
    (match resOp x c.payload with
     | some b => bitStep (decide (x ∈ acc.added_resources), decide (x ∈ acc.deleted_resources)) b
     | none => (decide (x ∈ acc.added_resources), decide (x ∈ acc.deleted_resources))) := by
  obtain ⟨cid, cts, cprev, pl⟩ := c
  cases pl with
  | createResource s =>
      by_cases hxs : s = x
      · subst hxs
        simp [foldStep, resOp, bitStep, mem_setInsert]
      · simp [foldStep, resOp, hxs, mem_setInsert_ne hxs]
  | deleteResource s =>
      by_cases hxs : s = x
      · subst hxs
        by_cases hin : s ∈ acc.added_resources
        · have hx : ¬ s ∈ acc.added_resources.filter (fun q => q ≠ s) := by
            simp [List.mem_filter]
          simp [foldStep, resOp, bitStep, hin, hx]
        · simp [foldStep, resOp, bitStep, hin, mem_setInsert]
      · by_cases hin : s ∈ acc.added_resources
        · simp only [foldStep, resOp, if_neg hxs, if_pos hin]
          simp only [mem_filter_ne hxs]
        · simp only [foldStep, resOp, if_neg hxs, if_neg hin]
          simp only [mem_setInsert_ne hxs]
  | createPost s => simp [foldStep, resOp]
  | deletePost s =>
      by_cases hin : s ∈ acc.added_posts <;> simp [foldStep, resOp, hin]

theorem foldStep_postPair_none {x : String} {acc : FoldAcc} {c : Commit}
    (hop : postOp x c.payload = none) :
    (decide (x ∈ (foldStep acc c).added_posts),
      decide (x ∈ (foldStep acc c).deleted_posts)) =
    (decide (x ∈ acc.added_posts), decide (x ∈ acc.deleted_posts)) := by
  have h := foldStep_postPair x acc c
  rw [hop] at h
  exact h

theorem foldStep_postPair_some {x : String} {acc : FoldAcc} {c : Commit} {b : Bool}
    (hop : postOp x c.payload = some b) :
    (decide (x ∈ (foldStep acc c).added_posts),
      decide (x ∈ (foldStep acc c).deleted_posts)) =
    bitStep (decide (x ∈ acc.added_posts), decide (x ∈ acc.deleted_posts)) b := by
  have h := foldStep_postPair x acc c
  rw [hop] at h
  exact h

theorem foldStep_resPair_none {x : String} {acc : FoldAcc} {c : Commit}
    (hop : resOp x c.payload = none) :
    (decide (x ∈ (foldStep acc c).added_resources),
      decide (x ∈ (foldStep acc c).deleted_resources)) =
    (decide (x ∈ acc.added_resources), decide (x ∈ acc.deleted_resources)) := by
  have h := foldStep_resPair x acc c
  rw [hop] at h
  exact h

theorem foldStep_resPair_some {x : String} {acc : FoldAcc} {c : Commit} {b : Bool}
    (hop : resOp x c.payload = some b) :
    (decide (x ∈ (foldStep acc c).added_resources),
      decide (x ∈ (foldStep acc c).deleted_resources)) =
    bitStep (decide (x ∈ acc.added_resources), decide (x ∈ acc.deleted_resources)) b := by
  have h := foldStep_resPair x acc c
  rw [hop] at h
  exact h

/-- The whole fold acts on a key's state as `bitStep` folded over the key's
projected operations. -/
theorem foldl_foldStep_postPair (x : String) (cs : List Commit) :
    ∀ acc : FoldAcc,
      (decide (x ∈ (cs.foldl foldStep acc).added_posts),
        decide (x ∈ (cs.foldl foldStep acc).deleted_posts)) =
      (projPost x cs).foldl bitStep
        (decide (x ∈ acc.added_posts), decide (x ∈ acc.deleted_posts)) := by
  induction cs with
  | nil => intro acc; rfl
  | cons c rest ih =>
      intro acc
      rw [List.foldl_cons, ih (foldStep acc c)]
      show _ = (List.filterMap (fun c => postOp x c.payload) (c :: rest)).foldl bitStep _
      cases hop : postOp x c.payload with
      | none =>
          rw [List.filterMap_cons, hop, foldStep_postPair_none hop]
          rfl
      | some b =>
          rw [List.filterMap_cons, hop, foldStep_postPair_some hop, List.foldl_cons]
          rfl

/-- Same, for the resource sets. -/
theorem foldl_foldStep_resPair (x : String) (cs : List Commit) :
    ∀ acc : FoldAcc,
      (decide (x ∈ (cs.foldl foldStep acc).added_resources),
        decide (x ∈ (cs.foldl foldStep acc).deleted_resources)) =
      (projRes x cs).foldl bitStep
        (decide (x ∈ acc.added_resources), decide (x ∈ acc.deleted_resources)) := by
  induction cs with
  | nil => intro acc; rfl
  | cons c rest ih =>
      intro acc
      rw [List.foldl_cons, ih (foldStep acc c)]
      show _ = (List.filterMap (fun c => resOp x c.payload) (c :: rest)).foldl bitStep _
      cases hop : resOp x c.payload with
      | none =>
          rw [List.filterMap_cons, hop, foldStep_resPair_none hop]
          rfl
      | some b =>
          rw [List.filterMap_cons, hop, foldStep_resPair_some hop, List.foldl_cons]
          rfl

theorem mem_added_posts_iff (x : String) (cs : List Commit) :
    x ∈ (foldSets cs).added_posts ↔ (bitRun (projPost x cs)).1 = true := by
  have h1 : decide (x ∈ (foldSets cs).added_posts) = (bitRun (projPost x cs)).1 := by
    have h := congrArg Prod.fst (foldl_foldStep_postPair x cs {})
    simpa [foldSets, bitRun] using h
  rw [← h1, decide_eq_true_eq]

theorem mem_deleted_posts_iff (x : String) (cs : List Commit) :
    x ∈ (foldSets cs).deleted_posts ↔ (bitRun (projPost x cs)).2 = true := by
  have h1 : decide (x ∈ (foldSets cs).deleted_posts) = (bitRun (projPost x cs)).2 := by
    have h := congrArg Prod.snd (foldl_foldStep_postPair x cs {})
    simpa [foldSets, bitRun] using h
  rw [← h1, decide_eq_true_eq]

theorem mem_added_resources_iff (x : String) (cs : List Commit) :
    x ∈ (foldSets cs).added_resources ↔ (bitRun (projRes x cs)).1 = true := by
  have h1 : decide (x ∈ (foldSets cs).added_resources) = (bitRun (projRes x cs)).1 := by
    have h := congrArg Prod.fst (foldl_foldStep_resPair x cs {})
    simpa [foldSets, bitRun] using h
  rw [← h1, decide_eq_true_eq]

theorem mem_deleted_resources_iff (x : String) (cs : List Commit) :
    x ∈ (foldSets cs).deleted_resources ↔ (bitRun (projRes x cs)).2 = true := by
  have h1 : decide (x ∈ (foldSets cs).deleted_resources) = (bitRun (projRes x cs)).2 := by
    have h := congrArg Prod.snd (foldl_foldStep_resPair x cs {})
    simpa [foldSets, bitRun] using h
  rw [← h1, decide_eq_true_eq]

/-- The first bit after a fold is the last operation (or the initial bit when
there is none): a create sets it, a delete clears it. -/
theorem foldl_bitStep_fst (l : List Bool) :
    ∀ s : Bool × Bool, (l.foldl bitStep s).1 = l.getLast?.getD s.1 := by
  induction l with
  | nil => intro s; rfl
  | cons b rest ih =>
      intro s
      rw [List.foldl_cons, ih]
      cases rest with
      | nil =>
          cases b <;> simp [bitStep] <;> split <;> rfl
      | cons c cs =>
          cases h : (c :: cs).getLast? with
          | none =>
              have hs : (c :: cs).getLast?.isSome := List.getLast?_isSome.mpr (by simp)
              rw [h] at hs
              simp at hs
          | some y => simp [h]

/-- The deleted bit, once set, stays set. -/
theorem foldl_bitStep_snd_true (l : List Bool) :
    ∀ a : Bool, (l.foldl bitStep (a, true)).2 = true := by
  induction l with
  | nil => intro a; rfl
  | cons b rest ih =>
      intro a
      rw [List.foldl_cons]
      cases b with
      | true => exact ih true
      | false =>
          by_cases ha : a = true
          · subst ha; simpa [bitStep] using ih false
          · have : a = false := by revert ha; cases a <;> simp
            subst this; simpa [bitStep] using ih false

/-- A key whose first operation is a delete ends up in the deleted set. -/
theorem bitRun_head_false {l : List Bool} (h : l.head? = some false) :
    (bitRun l).2 = true := by
  cases l with
  | nil => simp at h
  | cons b rest =>
      have hb : b = false := by simpa using h
      subst hb
      unfold bitRun
      rw [List.foldl_cons]
      exact foldl_bitStep_snd_true rest false

theorem bitRun_snd_ne_nil {l : List Bool} (h : (bitRun l).2 = true) : l ≠ [] := by
  intro e
  subst e
  simp [bitRun] at h

/-- A fetched post-with-resources carries the requested slug. -/
theorem get_post_with_resources_slug {S : Store} {s : String}
    {pr : Post × List PostResource}
    (h : Db.get_post_with_resources S s = some pr) : pr.1.slug = s := by
  unfold Db.get_post_with_resources Db.get_post Db.rowFor at h
  cases hrow : S.posts.find? (fun r => r.slug == s) with
  | none => rw [hrow] at h; simp at h
  | some r =>
      rw [hrow] at h
      have hs : r.slug = s := by
        have := List.find?_some hrow
        simpa using this
      simp only [Option.map_some', Option.some.injEq] at h
      rw [← h]
      exact hs

/-! ## Theorems -/

/-- C8.  Digest recomputation: for every commit produced by `Commit::new`,
the SHA-256 digest of the BSON serialization of the commit value with its id
field set to the empty byte sequence is exactly the commit's stored id. -/
theorem commit_digest_recompute (now : Int) (prev_commit_id : Bytes)
    (payload : CommitPayload) :
    sha256 (Commit.bson { Commit.new now prev_commit_id payload with id := [] }) =
      (Commit.new now prev_commit_id payload).id := rfl

/-- The row mapper of `get_resources` always fails on a row fetched by
`SELECT id, name, ty`: it requests the unselected `data` column. -/
theorem create_resources_from_row_no_data_fails (r : Resource) :
    Db.create_resources_from_row_no_data (Db.resourceRowNoData r) =
      .error (.invalidColumnName "data") := rfl

/-- C10.  `get_resources` returns the empty list exactly when the store holds
no free-standing resources; with at least one resource row it returns the
invalid-column-name error for `data`, because the query selects only
`(id, name, ty)` while the row mapper requests `data`. -/
theorem get_resources_empty_or_error (S : Store) :
    Db.get_resources S =
      if S.resources.isEmpty then .ok [] else .error (.invalidColumnName "data") := by
  cases h : S.resources with
  | nil => simp only [Db.get_resources, h]; rfl
  | cons r rs => simp only [Db.get_resources, h]; rfl

/-- C4 (code bug).  With both stores empty, `get_delta` is indeed the empty
delta, but `synchronize_storage` then fails instead of succeeding as a no-op:
`apply_delta` passes the delta's empty commit list to `insert_commits`, whose
generated `INSERT INTO commits ... VALUES ;` is malformed SQL. -/
theorem sync_empty_empty_fails :
    get_delta Store.empty Store.empty = .ok Delta.new ∧
      synchronize_storage Store.empty Store.empty =
        (.error (.toStorage .malformedSql), Store.empty) := ⟨rfl, rfl⟩

/-- C2.  If the destination has a latest commit whose id is not the id of the
first commit of `get_commits_since(destination's latest timestamp)` on the
source — in particular when that query returns nothing at all — then
`synchronize_storage` returns the diverged-history error and the destination
store is returned unchanged. -/
theorem sync_diverged_refusal (storage_from storage_to : Store) (L : Commit)
    (hL : Db.get_latest_commit storage_to = some L)
    (hne : Db.get_commits_since storage_from L.timestamp = [] ∨
      (Db.get_commits_since storage_from L.timestamp).head?.map (·.id) ≠ some L.id) :
    synchronize_storage storage_from storage_to =
      (.error .diverseHistory, storage_to) := by
  have hdelta : get_delta storage_from storage_to = .error .diverseHistory := by
    unfold get_delta
    rw [hL]
    simp only [Option.map_some', Option.getD_some]
    cases hfc : Db.get_commits_since storage_from L.timestamp with
    | nil => rfl
    | cons c rest =>
        rcases hne with hne | hne
        · rw [hfc] at hne; exact absurd hne (by simp)
        · rw [hfc] at hne
          simp only [List.head?, Option.map] at hne
          have hid : ¬ L.id = c.id := fun h => hne (by rw [h])
          simp [hid]
  unfold synchronize_storage
  rw [hdelta]

/-- C5.  Inserting a post whose slug is already present fails with the
unique-key conflict error, and the transaction rollback leaves the store
exactly as it was: no post row, tag row, attached resource or commit of the
failed call is persisted. -/
theorem insert_post_conflict_atomic (now : Int) (post : Post)
    (post_resources : List PostResource) (S : Store)
    (hdup : S.posts.any (fun r => r.slug == post.slug) = true) :
    SqliteStorage.insert_post now post post_resources S = .error .conflict ∧
      runEv S (.insertPost now post post_resources) = S := by
  have hfail : Db.insert_post post post_resources S = .error .conflict := by
    unfold Db.insert_post
    rw [hdup]
    rfl
  constructor
  · unfold SqliteStorage.insert_post SqliteStorage.transact_and_commit
    rw [hfail]
  · unfold runEv
    simp only [Ev.exec]
    unfold SqliteStorage.insert_post SqliteStorage.transact_and_commit
    rw [hfail]

/-- Witness for the divergence refusal: an empty source against a one-commit
destination diverges and leaves the destination untouched. -/
theorem sync_diverged_refusal_witness :
    (Db.get_latest_commit fixDst = some fixCommit ∧
      (Db.get_commits_since Store.empty fixCommit.timestamp = [] ∨
        (Db.get_commits_since Store.empty fixCommit.timestamp).head?.map (·.id) ≠
          some fixCommit.id)) ∧
    synchronize_storage Store.empty fixDst = (.error .diverseHistory, fixDst) :=
  ⟨⟨by decide, Or.inl (by decide)⟩,
    sync_diverged_refusal Store.empty fixDst fixCommit (by decide) (Or.inl (by decide))⟩

/-- Witness for the insert-conflict atomicity at a concrete store. -/
theorem insert_post_conflict_atomic_witness :
    ((fixStoreWithA.posts.any fun r => r.slug == fixPost.slug) = true) ∧
    (SqliteStorage.insert_post 3 fixPost [] fixStoreWithA = .error .conflict ∧
      runEv fixStoreWithA (.insertPost 3 fixPost []) = fixStoreWithA) :=
  ⟨by decide, insert_post_conflict_atomic 3 fixPost [] fixStoreWithA (by decide)⟩

theorem collect_delta_added_posts (S : Store) (cs : List Commit) :
    (collect_delta S cs).added_posts =
      (foldSets cs).added_posts.filterMap (Db.get_post_with_resources S) := rfl

theorem collect_delta_deleted_posts (S : Store) (cs : List Commit) :
    (collect_delta S cs).deleted_post_slugs = (foldSets cs).deleted_posts := rfl

theorem collect_delta_added_resources (S : Store) (cs : List Commit) :
    (collect_delta S cs).added_resources =
      (foldSets cs).added_resources.filterMap (Db.get_resource S) := rfl

theorem collect_delta_deleted_resources (S : Store) (cs : List Commit) :
    (collect_delta S cs).deleted_resource_ids = (foldSets cs).deleted_resources := rfl

theorem collect_delta_commits (S : Store) (cs : List Commit) :
    (collect_delta S cs).commits = cs := rfl

/-- C6 (amended).  When the commits concerning slug X are exactly one
`CreatePost` later followed by one `DeletePost`, the folded delta contains X
neither among its added posts nor among its deleted slugs, while all the
commits — both of X's included, in order — are carried in the delta's commit
list. -/
theorem create_delete_folding (S : Store) (commits : List Commit) (x : String)
    (h : projPost x commits = [true, false]) :
    (∀ pr ∈ (collect_delta S commits).added_posts, pr.1.slug ≠ x) ∧
      x ∉ (collect_delta S commits).deleted_post_slugs ∧
      (collect_delta S commits).commits = commits := by
  refine ⟨?_, ?_, rfl⟩
  · intro pr hpr he
    rw [collect_delta_added_posts] at hpr
    simp only [List.mem_filterMap] at hpr
    obtain ⟨slug, hslug, hfetch⟩ := hpr
    have hps : pr.1.slug = slug := get_post_with_resources_slug hfetch
    have hsx : slug = x := by rw [← hps, he]
    have hmem := (mem_added_posts_iff slug commits).mp hslug
    rw [hsx, h] at hmem
    exact absurd hmem (by decide)
  · intro hmem
    have hbit := (mem_deleted_posts_iff x commits).mp hmem
    rw [h] at hbit
    exact absurd hbit (by decide)

/-- Witness for the create-then-delete folding at a concrete window. -/
theorem create_delete_folding_witness :
    projPost "a" cexCommits2 = [true, false] ∧
    ((∀ pr ∈ (collect_delta fixStoreWithA cexCommits2).added_posts, pr.1.slug ≠ "a") ∧
      "a" ∉ (collect_delta fixStoreWithA cexCommits2).deleted_post_slugs ∧
      (collect_delta fixStoreWithA cexCommits2).commits = cexCommits2) :=
  ⟨by decide, create_delete_folding fixStoreWithA cexCommits2 "a" (by decide)⟩

/-- Counterexample to C6 as frozen: in the window create `a`, delete `a`,
create `a`, a `CreatePost(a)` is later followed by a `DeletePost(a)`, yet
the delta's added posts do contain slug `a`. -/
theorem create_delete_folding_cex :
    ((cexCommits3.map (fun c => c.payload)).take 2 =
        [.createPost "a", .deletePost "a"]) ∧
    ((collect_delta fixStoreWithA cexCommits3).added_posts.map (fun pr => pr.1.slug)) =
      ["a"] := by decide

/-- C7 (code bug).  Deleting a non-existent slug does succeed without touching
any post row, and after deleting an existing post `get_post` does return
"not found" — but the post's attached resource rows (and tag rows) are still
in the store: the schema's `ON DELETE CASCADE` clauses are inert because the
`foreign_keys` pragma is never enabled on the connection. -/
theorem delete_post_cascade_missing :
    ((Ev.deletePost 3 "zzz").exec storeC7).isOk = true ∧
    (runEv storeC7 (.deletePost 3 "zzz")).posts = storeC7.posts ∧
    Db.get_post storeC7d "a" = none ∧
    Db.resourcesFor "a" storeC7d.posts_resources = [fixPr] ∧
    Db.tagsFor "a" storeC7d.posts_tags = ["g"] := by decide

/-- Counterexample to C9 as frozen: with two equal-timestamp posts inserted in
the order `b`, `a`, page 1 of size 1 returns `b` (rowid order), not the
slug-tie-break ranking's `a`. -/
theorem get_posts_slug_tiebreak_cex :
    ((SqliteStorage.get_posts cexPagStore ⟨1, 1⟩).objects.map (fun p => p.slug)) = ["b"] ∧
    ((specRanking cexPagStore.posts).take 1).map (fun r => r.slug) = ["a"] ∧
    ("b" : String) ≠ "a" := by decide

/-! ### The stable descending sort behind `get_posts` -/

theorem insertByTsDesc_perm (r : PostRow) (l : List PostRow) :
    (Db.insertByTsDesc r l).Perm (r :: l) := by
  induction l with
  | nil => exact List.Perm.refl _
  | cons x xs ih =>
      unfold Db.insertByTsDesc
      split
      · exact (ih.cons x).trans (List.Perm.swap r x xs)
      · exact List.Perm.refl _

theorem foldl_insertByTsDesc_perm :
    ∀ (l acc : List PostRow),
      (l.foldl (fun acc r => Db.insertByTsDesc r acc) acc).Perm (acc ++ l) := by
  intro l
  induction l with
  | nil => intro acc; simp
  | cons r rest ih =>
      intro acc
      rw [List.foldl_cons]
      have h1 := ih (Db.insertByTsDesc r acc)
      have h2 : (Db.insertByTsDesc r acc ++ rest).Perm (acc ++ r :: rest) :=
        ((insertByTsDesc_perm r acc).append_right rest).trans List.perm_middle.symm
      exact h1.trans h2

theorem sortByTsDesc_perm (l : List PostRow) : (Db.sortByTsDesc l).Perm l := by
  have h := foldl_insertByTsDesc_perm l []
  simpa [Db.sortByTsDesc] using h

theorem insertByTsDesc_sorted {l : List PostRow} (hl : tsSortedDesc l) (r : PostRow) :
    tsSortedDesc (Db.insertByTsDesc r l) := by
  induction l with
  | nil => simp [Db.insertByTsDesc, tsSortedDesc]
  | cons x xs ih =>
      unfold Db.insertByTsDesc
      split
      · rename_i hle
        have hx : tsSortedDesc xs := hl.of_cons
        refine List.Pairwise.cons ?_ (ih hx)
        intro y hy
        rcases List.mem_cons.mp ((insertByTsDesc_perm r xs).mem_iff.mp hy) with hy | hy
        · subst hy; exact hle
        · exact List.rel_of_pairwise_cons hl hy
      · rename_i hgt
        refine List.Pairwise.cons ?_ hl
        intro y hy
        have hxr : x.create_timestamp ≤ r.create_timestamp := le_of_not_le hgt
        rcases List.mem_cons.mp hy with hy | hy
        · subst hy; exact hxr
        · exact le_trans (List.rel_of_pairwise_cons hl hy) hxr

theorem sortByTsDesc_sorted (l : List PostRow) : tsSortedDesc (Db.sortByTsDesc l) := by
  have hgen : ∀ (l acc : List PostRow), tsSortedDesc acc →
      tsSortedDesc (l.foldl (fun acc r => Db.insertByTsDesc r acc) acc) := by
    intro l
    induction l with
    | nil => intro acc h; exact h
    | cons r rest ih =>
        intro acc h
        rw [List.foldl_cons]
        exact ih _ (insertByTsDesc_sorted h r)
  exact hgen l [] (by simp [tsSortedDesc])

theorem insertByTsDesc_filter (r : PostRow) {l : List PostRow} (hl : tsSortedDesc l)
    (t : Int) :
    (Db.insertByTsDesc r l).filter (fun q => q.create_timestamp == t) =
      l.filter (fun q => q.create_timestamp == t) ++
        (if r.create_timestamp = t then [r] else []) := by
  induction l with
  | nil =>
      by_cases hrt : r.create_timestamp = t
      · simp [Db.insertByTsDesc, List.filter, hrt]
      · have hb : (r.create_timestamp == t) = false := by simp [hrt]
        simp [Db.insertByTsDesc, List.filter, hb, hrt]
  | cons x xs ih =>
      unfold Db.insertByTsDesc
      split
      · rename_i hle
        rw [List.filter_cons, List.filter_cons, ih hl.of_cons]
        by_cases hxt : x.create_timestamp = t <;> simp [hxt]
      · rename_i hgt
        have hxr : x.create_timestamp < r.create_timestamp := lt_of_not_le hgt
        rw [List.filter_cons]
        by_cases hrt : r.create_timestamp = t
        · have hnone : (x :: xs).filter (fun q => q.create_timestamp == t) = [] := by
            rw [List.filter_eq_nil]
            intro y hy
            have hyx : y.create_timestamp ≤ x.create_timestamp := by
              rcases List.mem_cons.mp hy with hy | hy
              · subst hy; exact le_refl _
              · exact List.rel_of_pairwise_cons hl hy
            have : y.create_timestamp < t := by omega
            simp [this]
            omega
          rw [hnone]
          simp [hrt]
        · simp [hrt]

theorem sortByTsDesc_stable (l : List PostRow) (t : Int) :
    (Db.sortByTsDesc l).filter (fun q => q.create_timestamp == t) =
      l.filter (fun q => q.create_timestamp == t) := by
  have hgen : ∀ (l acc : List PostRow), tsSortedDesc acc →
      (l.foldl (fun acc r => Db.insertByTsDesc r acc) acc).filter
          (fun q => q.create_timestamp == t) =
        acc.filter (fun q => q.create_timestamp == t) ++
          l.filter (fun q => q.create_timestamp == t) := by
    intro l
    induction l with
    | nil => intro acc h; simp
    | cons r rest ih =>
        intro acc h
        rw [List.foldl_cons, ih _ (insertByTsDesc_sorted h r),
          insertByTsDesc_filter r h t, List.filter_cons]
        by_cases hrt : r.create_timestamp = t <;> simp [hrt]
  have h := hgen l [] (by simp [tsSortedDesc])
  simpa [Db.sortByTsDesc] using h

/-- C9 (amended).  For page ≥ 1 and page size ≥ 1, the facade's post listing
returns the total number of posts in the store together with the posts ranked
`(page-1)*size+1 .. page*size` (fewer on the last page, none past the end)
under the ranking that orders posts by creation timestamp descending with
ties in insertion (rowid) order — not slug order: the ranking is the unique
permutation of the `posts` table that is timestamp-sorted and keeps each
timestamp class in table order.  Listed posts carry their tags and an empty
content (the query does not select `content`). -/
theorem get_posts_pagination (S : Store) (pg : Pagination)
    (hp : 1 ≤ pg.page) (hs : 1 ≤ pg.page_size) :
    (SqliteStorage.get_posts S pg).total_count = S.posts.length ∧
    ∃ ranking : List PostRow,
      ranking.Perm S.posts ∧ tsSortedDesc ranking ∧
      (∀ t, ranking.filter (fun r => r.create_timestamp == t) =
            S.posts.filter (fun r => r.create_timestamp == t)) ∧
      (SqliteStorage.get_posts S pg).objects =
        ((ranking.drop ((pg.page - 1) * pg.page_size)).take pg.page_size).map
          (fun r => Db.PostRow.toPost { r with content := [] }
            (Db.tagsFor r.slug S.posts_tags)) := by
  refine ⟨rfl, Db.sortByTsDesc S.posts, sortByTsDesc_perm S.posts,
    sortByTsDesc_sorted S.posts, fun t => sortByTsDesc_stable S.posts t, ?_⟩
  rfl

/-! ### The shape of a successful mutating facade call -/

theorem Commit.new_payload (t : Int) (p : Bytes) (pl : CommitPayload) :
    (Commit.new t p pl).payload = pl := rfl

theorem Commit.new_timestamp (t : Int) (p : Bytes) (pl : CommitPayload) :
    (Commit.new t p pl).timestamp = t := rfl

theorem Commit.new_prev (t : Int) (p : Bytes) (pl : CommitPayload) :
    (Commit.new t p pl).prev_commit_id = p := rfl

theorem newCommits_ts (now : Int) (prev : Bytes) (pls : List CommitPayload) :
    ∀ c ∈ newCommits now prev pls, c.timestamp = now := by
  induction pls generalizing prev with
  | nil => intro c hc; simp [newCommits] at hc
  | cons p ps ih =>
      intro c hc
      rcases List.mem_cons.mp hc with hc | hc
      · subst hc; rfl
      · exact ih _ c hc

theorem newCommits_length (now : Int) (prev : Bytes) (pls : List CommitPayload) :
    (newCommits now prev pls).length = pls.length := by
  induction pls generalizing prev with
  | nil => rfl
  | cons p ps ih => simp [newCommits, ih]

theorem newCommits_chained (now : Int) (prev : Bytes) (pls : List CommitPayload) :
    ChainedFrom prev (newCommits now prev pls) := by
  induction pls generalizing prev with
  | nil => trivial
  | cons p ps ih => exact ⟨rfl, ih _⟩

/-- The payload subsequence of the freshly created commits is the payload
list's own projection. -/
theorem newCommits_payloads (now : Int) (prev : Bytes) (pls : List CommitPayload) :
    (newCommits now prev pls).map (·.payload) = pls := by
  induction pls generalizing prev with
  | nil => rfl
  | cons p ps ih => simp [newCommits, Commit.new_payload, ih]

theorem transact_and_commit_error {now : Int} {pls : List CommitPayload}
    {f : Store → Except SqErr Store} {S : Store} {e : SqErr} (h : f S = .error e) :
    SqliteStorage.transact_and_commit now pls f S = .error e := by
  unfold SqliteStorage.transact_and_commit
  rw [h]

theorem foldl_insert_commit (now : Int) (pls : List CommitPayload) :
    ∀ (T : Store) (prev : Bytes),
      (pls.foldl (fun (acc : Store × Bytes) payload =>
        let commit := Commit.new now acc.2 payload
        (Db.insert_commit commit acc.1, commit.id)) (T, prev)).1 =
      { T with commits := T.commits ++ newCommits now prev pls } := by
  induction pls with
  | nil => intro T prev; simp [newCommits]
  | cons p ps ih =>
      intro T prev
      rw [List.foldl_cons]
      show (ps.foldl _ (Db.insert_commit (Commit.new now prev p) T,
        (Commit.new now prev p).id)).1 = _
      rw [ih]
      simp [Db.insert_commit, newCommits]

theorem transact_and_commit_ok {now : Int} {pls : List CommitPayload}
    {f : Store → Except SqErr Store} {S T : Store} (h : f S = .ok T) :
    SqliteStorage.transact_and_commit now pls f S =
      .ok { T with commits := T.commits ++ newCommits now (lastId S) pls } := by
  unfold SqliteStorage.transact_and_commit
  rw [h]
  show Except.ok ((pls.foldl (fun (acc : Store × Bytes) payload =>
      let commit := Commit.new now acc.2 payload
      (Db.insert_commit commit acc.1, commit.id))
      (T, ((Db.get_latest_commit S).map (fun x => x.id)).getD []))).1 = _
  rw [foldl_insert_commit]
  rfl

/-! ### Key-indexed lookups over table edits -/

theorem find?_key_filter_self {α : Type} (k : α → String) (s : String) (l : List α) :
    (l.filter (fun r => k r != s)).find? (fun r => k r == s) = none := by
  refine List.find?_eq_none.mpr ?_
  intro r hr
  have hne := (List.mem_filter.mp hr).2
  simp only [bne_iff_ne, ne_eq] at hne
  simp [hne]

theorem find?_key_filter_ne {α : Type} (k : α → String) {x s : String} (h : x ≠ s)
    (l : List α) :
    (l.filter (fun r => k r != s)).find? (fun r => k r == x) =
      l.find? (fun r => k r == x) := by
  induction l with
  | nil => rfl
  | cons r rest ih =>
      by_cases hks : k r = s
      · have h1 : ¬ (k r != s) = true := by simp [hks]
        have h2 : ¬ (k r == x) = true := by
          rw [hks]
          simp only [beq_iff_eq]
          exact fun e => h e.symm
        rw [@List.filter_cons_of_neg _ (fun q => k q != s) r rest h1,
          @List.find?_cons_of_neg _ (fun q => k q == x) r rest h2]
        exact ih
      · have h1 : (k r != s) = true := by simp [hks]
        rw [@List.filter_cons_of_pos _ (fun q => k q != s) r rest h1]
        by_cases h2 : (k r == x) = true
        · rw [@List.find?_cons_of_pos _ (fun q => k q == x) r
            (rest.filter (fun q => k q != s)) h2,
            @List.find?_cons_of_pos _ (fun q => k q == x) r rest h2]
        · rw [@List.find?_cons_of_neg _ (fun q => k q == x) r
            (rest.filter (fun q => k q != s)) h2,
            @List.find?_cons_of_neg _ (fun q => k q == x) r rest h2]
          exact ih

/-! ### The commit log queries on a sorted log -/

theorem latest_go (cs : List Commit) :
    ∀ m : Commit, (∀ c ∈ cs, m.timestamp ≤ c.timestamp) → tsSorted cs →
      (cs.foldl (fun acc c => match acc with
        | none => some c
        | some m => if m.timestamp ≤ c.timestamp then some c else some m) (some m)) =
      some (cs.getLastD m) := by
  induction cs with
  | nil => intro m _ _; rfl
  | cons c rest ih =>
      intro m hall hs
      rw [List.foldl_cons]
      have h1 : m.timestamp ≤ c.timestamp := hall c (List.mem_cons_self c rest)
      rw [show (match some m with
        | none => some c
        | some m => if m.timestamp ≤ c.timestamp then some c else some m) = some c from by
          simp [h1]]
      rw [ih c (fun y hy => List.rel_of_pairwise_cons hs hy) hs.of_cons]
      rw [List.getLastD_cons]

/-- On a timestamp-sorted log, `ORDER BY timestamp DESC LIMIT 1` is the last
inserted commit. -/
theorem get_latest_commit_sorted {S : Store} (h : tsSorted S.commits) :
    Db.get_latest_commit S = S.commits.getLast? := by
  unfold Db.get_latest_commit
  cases hcs : S.commits with
  | nil => rfl
  | cons c rest =>
      rw [hcs] at h
      rw [List.foldl_cons]
      rw [show (match (none : Option Commit) with
        | none => some c
        | some m => if m.timestamp ≤ c.timestamp then some c else some m) = some c from rfl]
      rw [latest_go rest c (fun y hy => List.rel_of_pairwise_cons h hy) h.of_cons]
      rw [List.getLast?_cons]
      simp [List.getLastD_eq_getLast?]

theorem insertByTsAsc_ge {c : Commit} :
    ∀ {l : List Commit}, (∀ x ∈ l, x.timestamp ≤ c.timestamp) →
      Db.insertByTsAsc c l = l ++ [c] := by
  intro l
  induction l with
  | nil => intro _; rfl
  | cons x xs ih =>
      intro hall
      unfold Db.insertByTsAsc
      rw [if_pos (hall x (List.mem_cons_self x xs))]
      rw [ih (fun y hy => hall y (List.mem_cons_of_mem x hy))]
      rfl

/-- A timestamp-sorted list is a fixed point of the `ORDER BY timestamp ASC`
stable sort. -/
theorem sortByTsAsc_sorted_id {l : List Commit} (h : tsSorted l) :
    Db.sortByTsAsc l = l := by
  have hgen : ∀ (l acc : List Commit),
      (∀ x ∈ acc, ∀ y ∈ l, x.timestamp ≤ y.timestamp) → tsSorted l → tsSorted acc →
      l.foldl (fun acc c => Db.insertByTsAsc c acc) acc = acc ++ l := by
    intro l
    induction l with
    | nil => intro acc _ _ _; simp
    | cons c rest ih =>
        intro acc hcross hl hacc
        rw [List.foldl_cons]
        rw [insertByTsAsc_ge (fun x hx => hcross x hx c (List.mem_cons_self c rest))]
        rw [ih (acc ++ [c]) ?cross hl.of_cons ?sorted]
        · simp
        case cross =>
          intro x hx y hy
          rcases List.mem_append.mp hx with hx | hx
          · exact hcross x hx y (List.mem_cons_of_mem c hy)
          · have : x = c := by simpa using hx
            subst this
            exact List.rel_of_pairwise_cons hl hy
        case sorted =>
          unfold tsSorted
          rw [List.pairwise_append]
          refine ⟨hacc, by simp [tsSorted], ?_⟩
          intro a ha b hb
          have hb' : b = c := by simpa using hb
          rw [hb']
          exact hcross a ha c (List.mem_cons_self c rest)
  have h0 := hgen l [] (by simp) h (by simp [tsSorted])
  simpa [Db.sortByTsAsc] using h0

/-- `get_commits_since 0` on a sorted, non-negative log returns the log
itself, in insertion order. -/
theorem get_commits_since_zero {S : Store} (hs : tsSorted S.commits)
    (hn : ∀ c ∈ S.commits, 0 ≤ c.timestamp) :
    Db.get_commits_since S 0 = S.commits := by
  unfold Db.get_commits_since
  rw [List.filter_eq_self.mpr (fun c hc => by simpa using hn c hc)]
  exact sortByTsAsc_sorted_id hs

theorem chainTail_append (p : Bytes) (c : Commit) (l : List Commit) :
    chainTail p (c :: l) = chainTail c.id l := by
  cases l with
  | nil => rfl
  | cons a as =>
      unfold chainTail
      rw [List.getLast?_cons_cons]
      cases hg : (a :: as).getLast? with
      | none =>
          have hsome : ((a :: as).getLast?).isSome = true :=
            List.getLast?_isSome.mpr (by simp)
          rw [hg] at hsome
          simp at hsome
      | some y => rfl

theorem chainedFrom_append {p : Bytes} {l1 l2 : List Commit}
    (h1 : ChainedFrom p l1) (h2 : ChainedFrom (chainTail p l1) l2) :
    ChainedFrom p (l1 ++ l2) := by
  induction l1 generalizing p with
  | nil => exact h2
  | cons c rest ih =>
      refine ⟨h1.1, ih h1.2 ?_⟩
      rw [← chainTail_append p c rest]
      exact h2

/-! ### Success shapes of the content-store operations -/

theorem insert_post_ok {post : Post} {rs : List PostResource} {S T : Store}
    (h : Db.insert_post post rs S = .ok T) :
    T = { S with
      posts := S.posts ++ [Db.Post.toRow post],
      posts_tags := S.posts_tags ++ post.tags.map (fun t => (post.slug, t)),
      posts_resources := S.posts_resources ++
        rs.map (fun r => { r with post_slug := post.slug }) } ∧
    (∀ r ∈ S.posts, ¬ r.slug = post.slug) ∧
    post.tags.Nodup ∧ (∀ t ∈ post.tags, (post.slug, t) ∉ S.posts_tags) ∧
    (rs.map (fun r => r.name)).Nodup ∧
    (∀ r ∈ rs, ∀ q ∈ S.posts_resources,
      ¬ (q.post_slug = post.slug ∧ q.name = r.name)) := by
  unfold Db.insert_post at h
  split at h
  · exact absurd h (by simp)
  · rename_i h1
    split at h
    · exact absurd h (by simp)
    · rename_i h2
      split at h
      · exact absurd h (by simp)
      · rename_i h3
        push_neg at h2 h3
        refine ⟨by injection h with h2; exact h2.symm, ?_, h2.1, ?_, h3.1, ?_⟩
        · intro r hr he
          rw [Bool.not_eq_true] at h1
          have := List.any_eq_false.mp h1 r hr
          simp [he] at this
        · intro t ht hmem
          have hfalse : (post.tags.any fun t => decide ((post.slug, t) ∈ S.posts_tags)) =
              false := by simpa using h2.2
          have h4 := List.any_eq_false.mp hfalse t ht
          simp [hmem] at h4
        · intro r hr q hq hqr
          have hfalse : (rs.any fun r => S.posts_resources.any fun q =>
              q.post_slug == post.slug && q.name == r.name) = false := by
            simpa using h3.2
          have h4 := List.any_eq_false.mp hfalse r hr
          have h5 : ∀ x ∈ S.posts_resources, x.post_slug = post.slug → ¬ x.name = r.name := by
            simpa using h4
          exact h5 q hq hqr.1 hqr.2

theorem insert_resource_ok {r : Resource} {S T : Store}
    (h : Db.insert_resource r S = .ok T) :
    T = { S with resources := S.resources ++ [r] } ∧
    (∀ q ∈ S.resources, ¬ q.id = r.id) := by
  unfold Db.insert_resource at h
  split at h
  · exact absurd h (by simp)
  · rename_i h1
    refine ⟨by injection h with h2; exact h2.symm, ?_⟩
    intro q hq he
    rw [Bool.not_eq_true] at h1
    have := List.any_eq_false.mp h1 q hq
    simp [he] at this

/-! ### Projection helpers -/

theorem projPost_append (x : String) (l1 l2 : List Commit) :
    projPost x (l1 ++ l2) = projPost x l1 ++ projPost x l2 :=
  List.filterMap_append l1 l2 _

theorem projRes_append (x : String) (l1 l2 : List Commit) :
    projRes x (l1 ++ l2) = projRes x l1 ++ projRes x l2 :=
  List.filterMap_append l1 l2 _

theorem lastPostOp_append (x : String) (cs W : List Commit) :
    lastPostOp x (cs ++ W) = ((projPost x W).getLast?).or (lastPostOp x cs) := by
  unfold lastPostOp
  rw [projPost_append, List.getLast?_append]

theorem lastResOp_append (x : String) (cs W : List Commit) :
    lastResOp x (cs ++ W) = ((projRes x W).getLast?).or (lastResOp x cs) := by
  unfold lastResOp
  rw [projRes_append, List.getLast?_append]

theorem projPost_cons (x : String) (c : Commit) (l : List Commit) :
    projPost x (c :: l) =
      (match postOp x c.payload with
       | none => projPost x l
       | some b => b :: projPost x l) := by
  unfold projPost
  rw [List.filterMap_cons]
  cases postOp x c.payload <;> rfl

theorem projRes_cons (x : String) (c : Commit) (l : List Commit) :
    projRes x (c :: l) =
      (match resOp x c.payload with
       | none => projRes x l
       | some b => b :: projRes x l) := by
  unfold projRes
  rw [List.filterMap_cons]
  cases resOp x c.payload <;> rfl

theorem projPost_newCommits (x : String) (now : Int) (prev : Bytes)
    (pls : List CommitPayload) :
    projPost x (newCommits now prev pls) = pls.filterMap (postOp x) := by
  induction pls generalizing prev with
  | nil => rfl
  | cons p ps ih =>
      show projPost x (Commit.new now prev p :: newCommits now (Commit.new now prev p).id ps) = _
      rw [projPost_cons, Commit.new_payload, List.filterMap_cons]
      cases hop : postOp x p with
      | none => exact ih _
      | some b => rw [ih _]

theorem projRes_newCommits (x : String) (now : Int) (prev : Bytes)
    (pls : List CommitPayload) :
    projRes x (newCommits now prev pls) = pls.filterMap (resOp x) := by
  induction pls generalizing prev with
  | nil => rfl
  | cons p ps ih =>
      show projRes x (Commit.new now prev p :: newCommits now (Commit.new now prev p).id ps) = _
      rw [projRes_cons, Commit.new_payload, List.filterMap_cons]
      cases hop : resOp x p with
      | none => exact ih _
      | some b => rw [ih _]

theorem tsSorted_append_new {cs W : List Commit} {now : Int} (hs : tsSorted cs)
    (hb : ∀ c ∈ cs, c.timestamp ≤ now) (hW : ∀ c ∈ W, c.timestamp = now) :
    tsSorted (cs ++ W) := by
  unfold tsSorted
  rw [List.pairwise_append]
  refine ⟨hs, ?_, ?_⟩
  · induction W with
    | nil => exact List.Pairwise.nil
    | cons c rest ih =>
        refine List.Pairwise.cons ?_ (ih (fun y hy => hW y (List.mem_cons_of_mem c hy)))
        intro y hy
        rw [hW c (List.mem_cons_self c rest), hW y (List.mem_cons_of_mem c hy)]
  · intro a ha b hb2
    rw [hW b hb2]
    exact hb a ha

theorem lastId_eq_chainTail {S : Store} (h : tsSorted S.commits) :
    lastId S = chainTail [] S.commits := by
  unfold lastId chainTail
  rw [get_latest_commit_sorted h]
  cases S.commits.getLast? <;> rfl

/-! ### Content-table lookups over edits -/

theorem rowFor_append (x : String) (l1 l2 : List PostRow) :
    Db.rowFor x (l1 ++ l2) = (Db.rowFor x l1).or (Db.rowFor x l2) :=
  List.find?_append

theorem rowFor_concat_self {l : List PostRow} {row : PostRow} {x : String}
    (hrow : row.slug = x) : (Db.rowFor x (l ++ [row])).isSome = true := by
  rw [rowFor_append]
  have h1 : Db.rowFor x [row] = some row := by
    unfold Db.rowFor
    exact List.find?_cons_of_pos [] (by simp [hrow])
  rw [h1]
  cases Db.rowFor x l <;> rfl

theorem rowFor_concat_other {l : List PostRow} {row : PostRow} {x : String}
    (h : ¬ row.slug = x) : Db.rowFor x (l ++ [row]) = Db.rowFor x l := by
  rw [rowFor_append]
  have h1 : Db.rowFor x [row] = none := by
    unfold Db.rowFor
    rw [List.find?_cons_of_neg [] (by simp [h])]
    rfl
  rw [h1, Option.or_none]

theorem rowFor_delete_self (l : List PostRow) (slug : String) :
    Db.rowFor slug (l.filter (fun r => r.slug != slug)) = none := by
  unfold Db.rowFor
  exact find?_key_filter_self (fun r => r.slug) slug l

theorem rowFor_delete_other {x slug : String} (h : x ≠ slug) (l : List PostRow) :
    Db.rowFor x (l.filter (fun r => r.slug != slug)) = Db.rowFor x l := by
  unfold Db.rowFor
  exact find?_key_filter_ne (fun r => r.slug) h l

theorem resFind_append (x : String) (l1 l2 : List Resource) :
    (l1 ++ l2).find? (fun r => r.id == x) =
      ((l1.find? (fun r => r.id == x)).or (l2.find? (fun r => r.id == x))) :=
  List.find?_append

theorem resFind_delete_self (l : List Resource) (id : String) :
    (l.filter (fun r => r.id != id)).find? (fun r => r.id == id) = none :=
  find?_key_filter_self (fun r => r.id) id l

theorem resFind_delete_other {x id : String} (h : x ≠ id) (l : List Resource) :
    (l.filter (fun r => r.id != id)).find? (fun r => r.id == x) =
      l.find? (fun r => r.id == x) :=
  find?_key_filter_ne (fun r => r.id) h l

theorem tagsFor_append (x : String) (l1 l2 : List (String × String)) :
    Db.tagsFor x (l1 ++ l2) = Db.tagsFor x l1 ++ Db.tagsFor x l2 := by
  unfold Db.tagsFor
  rw [List.filter_append, List.map_append]

theorem tagsFor_new_other {x slug : String} (h : ¬ slug = x) (tags : List String) :
    Db.tagsFor x (tags.map fun t => (slug, t)) = [] := by
  unfold Db.tagsFor
  rw [List.filter_eq_nil_iff.mpr ?none]
  · rfl
  case none =>
    intro a ha
    rcases List.mem_map.mp ha with ⟨t, _, rfl⟩
    simp [h]

theorem tagsFor_new_self (slug : String) (tags : List String) :
    Db.tagsFor slug (tags.map fun t => (slug, t)) = tags := by
  unfold Db.tagsFor
  rw [List.filter_eq_self.mpr ?all]
  · rw [List.map_map]
    simp
  case all =>
    intro a ha
    rcases List.mem_map.mp ha with ⟨t, _, rfl⟩
    simp

theorem resourcesFor_append (x : String) (l1 l2 : List PostResource) :
    Db.resourcesFor x (l1 ++ l2) = Db.resourcesFor x l1 ++ Db.resourcesFor x l2 := by
  unfold Db.resourcesFor
  rw [List.filter_append]

theorem resourcesFor_new_other {x slug : String} (h : ¬ slug = x)
    (rs : List PostResource) :
    Db.resourcesFor x (rs.map fun r => { r with post_slug := slug }) = [] := by
  unfold Db.resourcesFor
  rw [List.filter_eq_nil_iff.mpr ?none]
  case none =>
    intro a ha
    rcases List.mem_map.mp ha with ⟨r, _, rfl⟩
    simp [h]

theorem resourcesFor_new_self (slug : String) (rs : List PostResource) :
    Db.resourcesFor slug (rs.map fun r => { r with post_slug := slug }) =
      rs.map fun r => { r with post_slug := slug } := by
  unfold Db.resourcesFor
  rw [List.filter_eq_self.mpr ?all]
  case all =>
    intro a ha
    rcases List.mem_map.mp ha with ⟨r, _, rfl⟩
    simp

/-! ### Invariant preservation, per facade call -/

theorem inv_exec_insertPost {S S1 : Store} {t : Int} {p : Post} {rs : List PostResource}
    (hInv : Inv S) (hb : ∀ c ∈ S.commits, c.timestamp ≤ t) (h0 : 0 ≤ t)
    (h : (Ev.insertPost t p rs).exec S = .ok S1) :
    Inv S1 ∧
      S1.commits = S.commits ++ newCommits t (lastId S) [.createPost p.slug] := by
  have hexec : SqliteStorage.insert_post t p rs S = .ok S1 := h
  cases hf : Db.insert_post p rs S with
  | error e =>
      unfold SqliteStorage.insert_post at hexec
      rw [transact_and_commit_error hf] at hexec
      exact absurd hexec (by simp)
  | ok T =>
      unfold SqliteStorage.insert_post at hexec
      rw [transact_and_commit_ok hf] at hexec
      injection hexec with hS1
      obtain ⟨hT, hnew, htagsN, htagsD, hresN, hresD⟩ := insert_post_ok hf
      subst hT
      have hflat : S1 =
          { posts := S.posts ++ [Db.Post.toRow p],
            posts_tags := S.posts_tags ++ p.tags.map (fun t => (p.slug, t)),
            posts_resources := S.posts_resources ++
              rs.map (fun r => ({ r with post_slug := p.slug } : PostResource)),
            resources := S.resources,
            commits := S.commits ++
              newCommits t (lastId S) [CommitPayload.createPost p.slug] } := by
        rw [← hS1]
      subst hflat
      have hWts := newCommits_ts t (lastId S) [.createPost p.slug]
      refine ⟨⟨?ts, ?nn, ?ch, ?pn, ?tn, ?rn, ?sn, ?pl, ?rl⟩, rfl⟩
      case ts =>
        show tsSorted (S.commits ++ newCommits t (lastId S) [.createPost p.slug])
        exact tsSorted_append_new hInv.ts_sorted hb hWts
      case nn =>
        show ∀ c ∈ S.commits ++ newCommits t (lastId S) [.createPost p.slug],
          0 ≤ c.timestamp
        intro c hc
        rcases List.mem_append.mp hc with hc | hc
        · exact hInv.ts_nonneg c hc
        · rw [hWts c hc]; exact h0
      case ch =>
        show ChainedFrom [] (S.commits ++ newCommits t (lastId S) [.createPost p.slug])
        refine chainedFrom_append hInv.chain ?_
        rw [← lastId_eq_chainTail hInv.ts_sorted]
        exact newCommits_chained _ _ _
      case pn =>
        show ((S.posts ++ [Db.Post.toRow p]).map (·.slug)).Nodup
        rw [List.map_append, List.nodup_append]
        refine ⟨hInv.posts_nodup, by simp, ?_⟩
        intro a ha hb2
        have hbs : a = p.slug := by simpa [Db.Post.toRow] using hb2
        rcases List.mem_map.mp ha with ⟨r, hr, hra⟩
        exact hnew r hr (hra.trans hbs)
      case tn =>
        show (S.posts_tags ++ p.tags.map (fun t => (p.slug, t))).Nodup
        rw [List.nodup_append]
        refine ⟨hInv.tags_nodup, ?_, ?_⟩
        · exact htagsN.map (fun a b e => by injection e)
        · intro a ha hb2
          rcases List.mem_map.mp hb2 with ⟨tg, htg, hae⟩
          exact htagsD tg htg (hae ▸ ha)
      case rn =>
        show ((S.posts_resources ++
            rs.map (fun r => ({ r with post_slug := p.slug } : PostResource))).map
          (fun r => (r.post_slug, r.name))).Nodup
        rw [List.map_append, List.nodup_append]
        refine ⟨hInv.pres_nodup, ?_, ?_⟩
        · rw [List.map_map]
          have hco : ((fun (r : PostResource) => (r.post_slug, r.name)) ∘
              (fun (r : PostResource) => ({ r with post_slug := p.slug } : PostResource))) =
              (fun (n : String) => (p.slug, n)) ∘ (fun r => r.name) := rfl
          rw [hco, ← List.map_map]
          exact hresN.map (fun a b e => by injection e)
        · intro a ha hb2
          rcases List.mem_map.mp ha with ⟨q, hq, hqa⟩
          rcases List.mem_map.mp hb2 with ⟨r1, hr1, hra⟩
          rcases List.mem_map.mp hr1 with ⟨r, hr, hrr⟩
          subst hrr
          have he : ((q.post_slug, q.name) : String × String) = (p.slug, r.name) :=
            hqa.trans hra.symm
          exact hresD r hr q hq ⟨congrArg Prod.fst he, congrArg Prod.snd he⟩
      case sn => exact hInv.res_nodup
      case pl =>
        intro x
        show (Db.rowFor x (S.posts ++ [Db.Post.toRow p])).isSome = true ↔
          lastPostOp x (S.commits ++ newCommits t (lastId S) [.createPost p.slug]) =
            some true
        rw [lastPostOp_append, projPost_newCommits]
        by_cases hx : p.slug = x
        · have hproj : ([CommitPayload.createPost p.slug].filterMap (postOp x)) =
              [true] := by simp [postOp, hx]
          rw [hproj]
          constructor
          · intro _; rfl
          · intro _
            exact rowFor_concat_self (show (Db.Post.toRow p).slug = x from hx)
        · have hproj : ([CommitPayload.createPost p.slug].filterMap (postOp x)) = [] := by
            simp [postOp, hx]
          rw [hproj]
          rw [rowFor_concat_other (show ¬ (Db.Post.toRow p).slug = x from hx)]
          exact hInv.post_live x
      case rl =>
        intro x
        show resLive S x ↔
          lastResOp x (S.commits ++ newCommits t (lastId S) [.createPost p.slug]) =
            some true
        rw [lastResOp_append, projRes_newCommits]
        have hproj : ([CommitPayload.createPost p.slug].filterMap (resOp x)) = [] := by
          simp [resOp]
        rw [hproj]
        exact hInv.res_live x

theorem inv_exec_updatePost {S S1 : Store} {t : Int} {p : Post} {rs : List PostResource}
    (hInv : Inv S) (hb : ∀ c ∈ S.commits, c.timestamp ≤ t) (h0 : 0 ≤ t)
    (h : (Ev.updatePost t p rs).exec S = .ok S1) :
    Inv S1 ∧
      S1.commits = S.commits ++
        newCommits t (lastId S) [.deletePost p.slug, .createPost p.slug] := by
  have hexec : SqliteStorage.update_post t p rs S = .ok S1 := h
  cases hf : Db.insert_post p rs (Db.delete_post p.slug S) with
  | error e =>
      unfold SqliteStorage.update_post at hexec
      rw [@transact_and_commit_error t
        [CommitPayload.deletePost p.slug, CommitPayload.createPost p.slug]
        (fun S => Db.insert_post p rs (Db.delete_post p.slug S)) S e hf] at hexec
      exact absurd hexec (by simp)
  | ok T =>
      unfold SqliteStorage.update_post at hexec
      rw [@transact_and_commit_ok t
        [CommitPayload.deletePost p.slug, CommitPayload.createPost p.slug]
        (fun S => Db.insert_post p rs (Db.delete_post p.slug S)) S T hf] at hexec
      injection hexec with hS1
      obtain ⟨hT, hnew, htagsN, htagsD, hresN, hresD⟩ := insert_post_ok hf
      subst hT
      have hflat : S1 =
          { posts := S.posts.filter (fun r => r.slug != p.slug) ++ [Db.Post.toRow p],
            posts_tags := S.posts_tags ++ p.tags.map (fun t => (p.slug, t)),
            posts_resources := S.posts_resources ++
              rs.map (fun r => ({ r with post_slug := p.slug } : PostResource)),
            resources := S.resources,
            commits := S.commits ++ newCommits t (lastId S)
              [CommitPayload.deletePost p.slug, CommitPayload.createPost p.slug] } := by
        rw [← hS1]
        rfl
      subst hflat
      have hWts := newCommits_ts t (lastId S)
        [CommitPayload.deletePost p.slug, CommitPayload.createPost p.slug]
      refine ⟨⟨?ts, ?nn, ?ch, ?pn, ?tn, ?rn, ?sn, ?pl, ?rl⟩, rfl⟩
      case ts =>
        show tsSorted (S.commits ++ _)
        exact tsSorted_append_new hInv.ts_sorted hb hWts
      case nn =>
        intro c hc
        rcases List.mem_append.mp hc with hc | hc
        · exact hInv.ts_nonneg c hc
        · rw [hWts c hc]; exact h0
      case ch =>
        refine chainedFrom_append hInv.chain ?_
        rw [← lastId_eq_chainTail hInv.ts_sorted]
        exact newCommits_chained _ _ _
      case pn =>
        show (((S.posts.filter (fun r => r.slug != p.slug)) ++ [Db.Post.toRow p]).map
          (·.slug)).Nodup
        rw [List.map_append, List.nodup_append]
        refine ⟨((List.filter_sublist _).map (fun r : PostRow => r.slug)).nodup hInv.posts_nodup,
          by simp, ?_⟩
        intro a ha hb2
        have hbs : a = p.slug := by simpa [Db.Post.toRow] using hb2
        rcases List.mem_map.mp ha with ⟨r, hr, hra⟩
        have := (List.mem_filter.mp hr).2
        rw [bne_iff_ne] at this
        exact this (hra.trans hbs)
      case tn =>
        show (S.posts_tags ++ p.tags.map (fun t => (p.slug, t))).Nodup
        rw [List.nodup_append]
        refine ⟨hInv.tags_nodup, ?_, ?_⟩
        · exact htagsN.map (fun a b e => by injection e)
        · intro a ha hb2
          rcases List.mem_map.mp hb2 with ⟨tg, htg, hae⟩
          exact htagsD tg htg (hae ▸ ha)
      case rn =>
        show ((S.posts_resources ++
            rs.map (fun r => ({ r with post_slug := p.slug } : PostResource))).map
          (fun r => (r.post_slug, r.name))).Nodup
        rw [List.map_append, List.nodup_append]
        refine ⟨hInv.pres_nodup, ?_, ?_⟩
        · rw [List.map_map]
          have hco : ((fun (r : PostResource) => (r.post_slug, r.name)) ∘
              (fun (r : PostResource) => ({ r with post_slug := p.slug } : PostResource))) =
              (fun (n : String) => (p.slug, n)) ∘ (fun r => r.name) := rfl
          rw [hco, ← List.map_map]
          exact hresN.map (fun a b e => by injection e)
        · intro a ha hb2
          rcases List.mem_map.mp ha with ⟨q, hq, hqa⟩
          rcases List.mem_map.mp hb2 with ⟨r1, hr1, hra⟩
          rcases List.mem_map.mp hr1 with ⟨r, hr, hrr⟩
          subst hrr
          have he : ((q.post_slug, q.name) : String × String) = (p.slug, r.name) :=
            hqa.trans hra.symm
          exact hresD r hr q hq ⟨congrArg Prod.fst he, congrArg Prod.snd he⟩
      case sn => exact hInv.res_nodup
      case pl =>
        intro x
        show (Db.rowFor x
            ((S.posts.filter (fun r => r.slug != p.slug)) ++ [Db.Post.toRow p])).isSome =
          true ↔ lastPostOp x (S.commits ++ newCommits t (lastId S)
            [CommitPayload.deletePost p.slug, CommitPayload.createPost p.slug]) =
          some true
        rw [lastPostOp_append, projPost_newCommits]
        by_cases hx : p.slug = x
        · have hproj : ([CommitPayload.deletePost p.slug,
              CommitPayload.createPost p.slug].filterMap (postOp x)) = [false, true] := by
            simp [postOp, hx]
          rw [hproj]
          constructor
          · intro _; rfl
          · intro _
            exact rowFor_concat_self (show (Db.Post.toRow p).slug = x from hx)
        · have hproj : ([CommitPayload.deletePost p.slug,
              CommitPayload.createPost p.slug].filterMap (postOp x)) = [] := by
            simp [postOp, hx]
          rw [hproj]
          rw [rowFor_concat_other (show ¬ (Db.Post.toRow p).slug = x from hx)]
          rw [rowFor_delete_other (fun e => hx e.symm)]
          exact hInv.post_live x
      case rl =>
        intro x
        show resLive S x ↔ lastResOp x (S.commits ++ newCommits t (lastId S)
          [CommitPayload.deletePost p.slug, CommitPayload.createPost p.slug]) = some true
        rw [lastResOp_append, projRes_newCommits]
        have hproj : ([CommitPayload.deletePost p.slug,
            CommitPayload.createPost p.slug].filterMap (resOp x)) = [] := by
          simp [resOp]
        rw [hproj]
        exact hInv.res_live x

theorem inv_exec_deletePost {S S1 : Store} {t : Int} {slug : String}
    (hInv : Inv S) (hb : ∀ c ∈ S.commits, c.timestamp ≤ t) (h0 : 0 ≤ t)
    (h : (Ev.deletePost t slug).exec S = .ok S1) :
    Inv S1 ∧
      S1.commits = S.commits ++ newCommits t (lastId S) [.deletePost slug] := by
  have hexec : SqliteStorage.delete_post t slug S = .ok S1 := h
  unfold SqliteStorage.delete_post at hexec
  rw [@transact_and_commit_ok t [CommitPayload.deletePost slug]
    (fun S => (Except.ok (Db.delete_post slug S) : Except SqErr Store))
    S (Db.delete_post slug S) rfl] at hexec
  injection hexec with hS1
  have hflat : S1 =
      { posts := S.posts.filter (fun r => r.slug != slug),
        posts_tags := S.posts_tags,
        posts_resources := S.posts_resources,
        resources := S.resources,
        commits := S.commits ++ newCommits t (lastId S)
          [CommitPayload.deletePost slug] } := by
    rw [← hS1]
    rfl
  subst hflat
  have hWts := newCommits_ts t (lastId S) [CommitPayload.deletePost slug]
  refine ⟨⟨?ts, ?nn, ?ch, ?pn, ?tn, ?rn, ?sn, ?pl, ?rl⟩, rfl⟩
  case ts =>
    show tsSorted (S.commits ++ _)
    exact tsSorted_append_new hInv.ts_sorted hb hWts
  case nn =>
    intro c hc
    rcases List.mem_append.mp hc with hc | hc
    · exact hInv.ts_nonneg c hc
    · rw [hWts c hc]; exact h0
  case ch =>
    refine chainedFrom_append hInv.chain ?_
    rw [← lastId_eq_chainTail hInv.ts_sorted]
    exact newCommits_chained _ _ _
  case pn =>
    exact (((List.filter_sublist _).map (fun r : PostRow => r.slug)).nodup hInv.posts_nodup)
  case tn => exact hInv.tags_nodup
  case rn => exact hInv.pres_nodup
  case sn => exact hInv.res_nodup
  case pl =>
    intro x
    show (Db.rowFor x (S.posts.filter (fun r => r.slug != slug))).isSome = true ↔
      lastPostOp x (S.commits ++ newCommits t (lastId S)
        [CommitPayload.deletePost slug]) = some true
    rw [lastPostOp_append, projPost_newCommits]
    by_cases hx : slug = x
    · subst hx
      have hproj : ([CommitPayload.deletePost slug].filterMap (postOp slug)) =
          [false] := by simp [postOp]
      rw [hproj, rowFor_delete_self]
      simp
    · have hproj : ([CommitPayload.deletePost slug].filterMap (postOp x)) = [] := by
        simp [postOp, hx]
      rw [hproj, rowFor_delete_other (fun e => hx e.symm)]
      exact hInv.post_live x
  case rl =>
    intro x
    show resLive S x ↔ lastResOp x (S.commits ++ newCommits t (lastId S)
      [CommitPayload.deletePost slug]) = some true
    rw [lastResOp_append, projRes_newCommits]
    have hproj : ([CommitPayload.deletePost slug].filterMap (resOp x)) = [] := by
      simp [resOp]
    rw [hproj]
    exact hInv.res_live x

theorem inv_exec_insertResource {S S1 : Store} {t : Int} {r : Resource}
    (hInv : Inv S) (hb : ∀ c ∈ S.commits, c.timestamp ≤ t) (h0 : 0 ≤ t)
    (h : (Ev.insertResource t r).exec S = .ok S1) :
    Inv S1 ∧
      S1.commits = S.commits ++ newCommits t (lastId S) [.createResource r.id] := by
  have hexec : SqliteStorage.insert_resource t r S = .ok S1 := h
  cases hf : Db.insert_resource r S with
  | error e =>
      unfold SqliteStorage.insert_resource at hexec
      rw [transact_and_commit_error hf] at hexec
      exact absurd hexec (by simp)
  | ok T =>
      unfold SqliteStorage.insert_resource at hexec
      rw [transact_and_commit_ok hf] at hexec
      injection hexec with hS1
      obtain ⟨hT, hnew⟩ := insert_resource_ok hf
      subst hT
      have hflat : S1 =
          { posts := S.posts,
            posts_tags := S.posts_tags,
            posts_resources := S.posts_resources,
            resources := S.resources ++ [r],
            commits := S.commits ++ newCommits t (lastId S)
              [CommitPayload.createResource r.id] } := by
        rw [← hS1]
      subst hflat
      have hWts := newCommits_ts t (lastId S) [CommitPayload.createResource r.id]
      refine ⟨⟨?ts, ?nn, ?ch, ?pn, ?tn, ?rn, ?sn, ?pl, ?rl⟩, rfl⟩
      case ts =>
        show tsSorted (S.commits ++ _)
        exact tsSorted_append_new hInv.ts_sorted hb hWts
      case nn =>
        intro c hc
        rcases List.mem_append.mp hc with hc | hc
        · exact hInv.ts_nonneg c hc
        · rw [hWts c hc]; exact h0
      case ch =>
        refine chainedFrom_append hInv.chain ?_
        rw [← lastId_eq_chainTail hInv.ts_sorted]
        exact newCommits_chained _ _ _
      case pn => exact hInv.posts_nodup
      case tn => exact hInv.tags_nodup
      case rn => exact hInv.pres_nodup
      case sn =>
        show ((S.resources ++ [r]).map (·.id)).Nodup
        rw [List.map_append, List.nodup_append]
        refine ⟨hInv.res_nodup, by simp, ?_⟩
        intro a ha hb2
        have hbs : a = r.id := by simpa using hb2
        rcases List.mem_map.mp ha with ⟨q, hq, hqa⟩
        exact hnew q hq (hqa.trans hbs)
      case pl =>
        intro x
        show isLivePost S x ↔ lastPostOp x (S.commits ++ newCommits t (lastId S)
          [CommitPayload.createResource r.id]) = some true
        rw [lastPostOp_append, projPost_newCommits]
        have hproj : ([CommitPayload.createResource r.id].filterMap (postOp x)) = [] := by
          simp [postOp]
        rw [hproj]
        exact hInv.post_live x
      case rl =>
        intro x
        show ((S.resources ++ [r]).find? (fun q => q.id == x)).isSome = true ↔
          lastResOp x (S.commits ++ newCommits t (lastId S)
            [CommitPayload.createResource r.id]) = some true
        rw [lastResOp_append, projRes_newCommits, resFind_append]
        by_cases hx : r.id = x
        · have hproj : ([CommitPayload.createResource r.id].filterMap (resOp x)) =
              [true] := by simp [resOp, hx]
          rw [hproj]
          have h1 : ([r].find? (fun q => q.id == x)) = some r :=
            List.find?_cons_of_pos [] (by simp [hx])
          rw [h1]
          constructor
          · intro _; rfl
          · intro _
            cases S.resources.find? (fun q => q.id == x) <;> rfl
        · have hproj : ([CommitPayload.createResource r.id].filterMap (resOp x)) =
              [] := by simp [resOp, hx]
          rw [hproj]
          have h1 : ([r].find? (fun q => q.id == x)) = none := by
            rw [List.find?_cons_of_neg [] (by simp [hx])]
            rfl
          rw [h1, Option.or_none]
          exact hInv.res_live x

theorem inv_exec_deleteResource {S S1 : Store} {t : Int} {id : String}
    (hInv : Inv S) (hb : ∀ c ∈ S.commits, c.timestamp ≤ t) (h0 : 0 ≤ t)
    (h : (Ev.deleteResource t id).exec S = .ok S1) :
    Inv S1 ∧
      S1.commits = S.commits ++ newCommits t (lastId S) [.deleteResource id] := by
  have hexec : SqliteStorage.delete_resource t id S = .ok S1 := h
  unfold SqliteStorage.delete_resource at hexec
  rw [@transact_and_commit_ok t [CommitPayload.deleteResource id]
    (fun S => (Except.ok (Db.delete_resource id S) : Except SqErr Store))
    S (Db.delete_resource id S) rfl] at hexec
  injection hexec with hS1
  have hflat : S1 =
      { posts := S.posts,
        posts_tags := S.posts_tags,
        posts_resources := S.posts_resources,
        resources := S.resources.filter (fun q => q.id != id),
        commits := S.commits ++ newCommits t (lastId S)
          [CommitPayload.deleteResource id] } := by
    rw [← hS1]
    rfl
  subst hflat
  have hWts := newCommits_ts t (lastId S) [CommitPayload.deleteResource id]
  refine ⟨⟨?ts, ?nn, ?ch, ?pn, ?tn, ?rn, ?sn, ?pl, ?rl⟩, rfl⟩
  case ts =>
    show tsSorted (S.commits ++ _)
    exact tsSorted_append_new hInv.ts_sorted hb hWts
  case nn =>
    intro c hc
    rcases List.mem_append.mp hc with hc | hc
    · exact hInv.ts_nonneg c hc
    · rw [hWts c hc]; exact h0
  case ch =>
    refine chainedFrom_append hInv.chain ?_
    rw [← lastId_eq_chainTail hInv.ts_sorted]
    exact newCommits_chained _ _ _
  case pn => exact hInv.posts_nodup
  case tn => exact hInv.tags_nodup
  case rn => exact hInv.pres_nodup
  case sn => exact (((List.filter_sublist _).map (fun r : Resource => r.id)).nodup hInv.res_nodup)
  case pl =>
    intro x
    show isLivePost S x ↔ lastPostOp x (S.commits ++ newCommits t (lastId S)
      [CommitPayload.deleteResource id]) = some true
    rw [lastPostOp_append, projPost_newCommits]
    have hproj : ([CommitPayload.deleteResource id].filterMap (postOp x)) = [] := by
      simp [postOp]
    rw [hproj]
    exact hInv.post_live x
  case rl =>
    intro x
    show ((S.resources.filter (fun q => q.id != id)).find? (fun q => q.id == x)).isSome =
      true ↔ lastResOp x (S.commits ++ newCommits t (lastId S)
        [CommitPayload.deleteResource id]) = some true
    rw [lastResOp_append, projRes_newCommits]
    by_cases hx : id = x
    · subst hx
      have hproj : ([CommitPayload.deleteResource id].filterMap (resOp id)) =
          [false] := by simp [resOp]
      rw [hproj, resFind_delete_self]
      simp
    · have hproj : ([CommitPayload.deleteResource id].filterMap (resOp x)) = [] := by
        simp [resOp, hx]
      rw [hproj, resFind_delete_other (fun e => hx e.symm)]
      exact hInv.res_live x

/-! ### Reachability: the invariants hold along every clock-ordered trace -/

theorem inv_runEv {S : Store} {e : Ev} (hInv : Inv S)
    (hb : ∀ c ∈ S.commits, c.timestamp ≤ e.time) (h0 : 0 ≤ e.time) :
    Inv (runEv S e) ∧ ∃ W, (runEv S e).commits = S.commits ++ W ∧
      ∀ c ∈ W, c.timestamp = e.time := by
  unfold runEv
  cases hr : e.exec S with
  | error e1 => exact ⟨hInv, [], by simp, by simp⟩
  | ok S1 =>
      cases e with
      | insertPost t p rs =>
          obtain ⟨h1, h2⟩ := inv_exec_insertPost hInv hb h0 hr
          exact ⟨h1, _, h2, newCommits_ts _ _ _⟩
      | updatePost t p rs =>
          obtain ⟨h1, h2⟩ := inv_exec_updatePost hInv hb h0 hr
          exact ⟨h1, _, h2, newCommits_ts _ _ _⟩
      | deletePost t slug =>
          obtain ⟨h1, h2⟩ := inv_exec_deletePost hInv hb h0 hr
          exact ⟨h1, _, h2, newCommits_ts _ _ _⟩
      | insertResource t r =>
          obtain ⟨h1, h2⟩ := inv_exec_insertResource hInv hb h0 hr
          exact ⟨h1, _, h2, newCommits_ts _ _ _⟩
      | deleteResource t id =>
          obtain ⟨h1, h2⟩ := inv_exec_deleteResource hInv hb h0 hr
          exact ⟨h1, _, h2, newCommits_ts _ _ _⟩

theorem inv_empty : Inv Store.empty := by
  refine ⟨List.Pairwise.nil, by simp [Store.empty], trivial, by simp [Store.empty],
    by simp [Store.empty], by simp [Store.empty], by simp [Store.empty], ?_, ?_⟩
  · intro x
    simp [isLivePost, Db.rowFor, Store.empty, lastPostOp, projPost]
  · intro x
    simp [resLive, Db.get_resource, Store.empty, lastResOp, projRes]

theorem inv_runTrace :
    ∀ (evs : List Ev) (S : Store) (t : Int), Inv S →
      (∀ c ∈ S.commits, c.timestamp ≤ t) → 0 ≤ t → traceOKFrom t evs = true →
      Inv (runTrace S evs) ∧
        (∀ c ∈ (runTrace S evs).commits, c.timestamp ≤ lastTime t evs) ∧
        0 ≤ lastTime t evs := by
  intro evs
  induction evs with
  | nil => intro S t h1 h2 h3 _; exact ⟨h1, h2, h3⟩
  | cons e es ih =>
      intro S t h1 h2 h3 htr
      have hok : t ≤ e.time ∧ traceOKFrom e.time es = true := by
        simpa [traceOKFrom] using htr
      obtain ⟨hte, htr2⟩ := hok
      have h0e : 0 ≤ e.time := le_trans h3 hte
      have hbnd : ∀ c ∈ S.commits, c.timestamp ≤ e.time :=
        fun c hc => le_trans (h2 c hc) hte
      obtain ⟨hInv2, W, hW, hWts⟩ := inv_runEv h1 hbnd h0e
      have hb2 : ∀ c ∈ (runEv S e).commits, c.timestamp ≤ e.time := by
        rw [hW]
        intro c hc
        rcases List.mem_append.mp hc with hc | hc
        · exact hbnd c hc
        · rw [hWts c hc]
      exact ih (runEv S e) e.time hInv2 hb2 h0e htr2

/-- The invariants hold for every store built by a clock-ordered trace. -/
theorem inv_reachable (evs : List Ev) (h : TraceOK evs) :
    Inv (runTrace Store.empty evs) :=
  (inv_runTrace evs Store.empty 0 inv_empty (by simp [Store.empty]) (le_refl 0) h).1

theorem runTraceE_ok_runTrace :
    ∀ {evs : List Ev} {S T : Store}, runTraceE S evs = .ok T → runTrace S evs = T := by
  intro evs
  induction evs with
  | nil =>
      intro S T h
      exact Except.ok.inj h
  | cons e es ih =>
      intro S T h
      rw [show runTraceE S (e :: es) = e.exec S >>= fun S1 => runTraceE S1 es from
        List.foldlM_cons _ _ _ _] at h
      cases hx : e.exec S with
      | error e1 =>
          rw [hx] at h
          exact Except.noConfusion h
      | ok S1 =>
          rw [hx] at h
          have h2 : runTraceE S1 es = .ok T := h
          have hre : runEv S e = S1 := by
            unfold runEv
            rw [hx]
          show runTrace (runEv S e) es = T
          rw [hre]
          exact ih h2

/-- The commits a successful call appends: one fresh chained commit per
payload. -/
theorem exec_ok_commits {S S1 : Store} {e : Ev} (h : e.exec S = .ok S1) :
    S1.commits = S.commits ++ newCommits e.time (lastId S) e.payloads := by
  cases e with
  | insertPost t p rs =>
      cases hf : Db.insert_post p rs S with
      | error e1 =>
          have hexec : SqliteStorage.insert_post t p rs S = .ok S1 := h
          unfold SqliteStorage.insert_post at hexec
          rw [transact_and_commit_error hf] at hexec
          exact absurd hexec (by simp)
      | ok T =>
          have hexec : SqliteStorage.insert_post t p rs S = .ok S1 := h
          unfold SqliteStorage.insert_post at hexec
          rw [transact_and_commit_ok hf] at hexec
          injection hexec with hS1
          have h3 := (insert_post_ok hf).1
          have hTC : T.commits = S.commits := by rw [h3]
          rw [← hS1]
          show T.commits ++ _ = _
          rw [hTC]
          rfl
  | updatePost t p rs =>
      cases hf : Db.insert_post p rs (Db.delete_post p.slug S) with
      | error e1 =>
          have hexec : SqliteStorage.update_post t p rs S = .ok S1 := h
          unfold SqliteStorage.update_post at hexec
          rw [@transact_and_commit_error t
            [CommitPayload.deletePost p.slug, CommitPayload.createPost p.slug]
            (fun S => Db.insert_post p rs (Db.delete_post p.slug S)) S e1 hf] at hexec
          exact absurd hexec (by simp)
      | ok T =>
          have hexec : SqliteStorage.update_post t p rs S = .ok S1 := h
          unfold SqliteStorage.update_post at hexec
          rw [@transact_and_commit_ok t
            [CommitPayload.deletePost p.slug, CommitPayload.createPost p.slug]
            (fun S => Db.insert_post p rs (Db.delete_post p.slug S)) S T hf] at hexec
          injection hexec with hS1
          have h3 := (insert_post_ok hf).1
          have hTC : T.commits = S.commits := by rw [h3]; rfl
          rw [← hS1]
          show T.commits ++ _ = _
          rw [hTC]
          rfl
  | deletePost t slug =>
      have hexec : SqliteStorage.delete_post t slug S = .ok S1 := h
      unfold SqliteStorage.delete_post at hexec
      rw [@transact_and_commit_ok t [CommitPayload.deletePost slug]
        (fun S => (Except.ok (Db.delete_post slug S) : Except SqErr Store))
        S (Db.delete_post slug S) rfl] at hexec
      injection hexec with hS1
      rw [← hS1]
      rfl
  | insertResource t r =>
      cases hf : Db.insert_resource r S with
      | error e1 =>
          have hexec : SqliteStorage.insert_resource t r S = .ok S1 := h
          unfold SqliteStorage.insert_resource at hexec
          rw [transact_and_commit_error hf] at hexec
          exact absurd hexec (by simp)
      | ok T =>
          have hexec : SqliteStorage.insert_resource t r S = .ok S1 := h
          unfold SqliteStorage.insert_resource at hexec
          rw [transact_and_commit_ok hf] at hexec
          injection hexec with hS1
          have h3 := (insert_resource_ok hf).1
          have hTC : T.commits = S.commits := by rw [h3]
          rw [← hS1]
          show T.commits ++ _ = _
          rw [hTC]
          rfl
  | deleteResource t id =>
      have hexec : SqliteStorage.delete_resource t id S = .ok S1 := h
      unfold SqliteStorage.delete_resource at hexec
      rw [@transact_and_commit_ok t [CommitPayload.deleteResource id]
        (fun S => (Except.ok (Db.delete_resource id S) : Except SqErr Store))
        S (Db.delete_resource id S) rfl] at hexec
      injection hexec with hS1
      rw [← hS1]
      rfl

theorem payloads_length (e : Ev) : e.payloads.length = e.commitCount := by
  cases e <;> rfl

theorem commitCount_cons (e : Ev) (es : List Ev) :
    commitCount (e :: es) = e.commitCount + commitCount es := by
  unfold commitCount
  rw [List.foldl_cons]
  have hgen : ∀ (l : List Ev) (a b : Nat),
      l.foldl (fun n e => n + e.commitCount) (a + b) =
        a + l.foldl (fun n e => n + e.commitCount) b := by
    intro l
    induction l with
    | nil => intro a b; rfl
    | cons x xs ih =>
        intro a b
        rw [List.foldl_cons, List.foldl_cons, Nat.add_assoc, ih]
  have := hgen es e.commitCount 0
  simpa using this

theorem runTraceE_commits_length :
    ∀ {evs : List Ev} {S T : Store}, runTraceE S evs = .ok T →
      T.commits.length = S.commits.length + commitCount evs := by
  intro evs
  induction evs with
  | nil =>
      intro S T h
      have h3 : S = T := Except.ok.inj h
      subst h3
      simp [commitCount]
  | cons e es ih =>
      intro S T h
      rw [show runTraceE S (e :: es) = e.exec S >>= fun S1 => runTraceE S1 es from
        List.foldlM_cons _ _ _ _] at h
      cases hx : e.exec S with
      | error e1 =>
          rw [hx] at h
          exact Except.noConfusion h
      | ok S1 =>
          rw [hx] at h
          have h2 : runTraceE S1 es = .ok T := h
          have hlen : S1.commits.length = S.commits.length + e.commitCount := by
            rw [exec_ok_commits hx]
            rw [List.length_append, newCommits_length, payloads_length]
          rw [ih h2, hlen, commitCount_cons, Nat.add_assoc]

/-- C3 (amended).  After any successful sequence of mutating facade calls on
an initially empty store under a monotone non-negative clock,
`get_commits_since(0)` returns the whole commit log in insertion order with
non-decreasing timestamps (ties keep insertion order); the log holds one
commit per call except `update_post`, which contributes two (its `DeletePost`
and `CreatePost`); each commit's `prev_commit_id` is the previous commit's
id and the first commit's `prev_commit_id` is the empty byte sequence. -/
theorem commit_chain_integrity (evs : List Ev) (S : Store)
    (hok : TraceOK evs) (hrun : runTraceE Store.empty evs = .ok S) :
    Db.get_commits_since S 0 = S.commits ∧
      tsSorted S.commits ∧
      S.commits.length = commitCount evs ∧
      ChainedFrom [] S.commits := by
  have hS : runTrace Store.empty evs = S := runTraceE_ok_runTrace hrun
  have hInv : Inv S := hS ▸ inv_reachable evs hok
  refine ⟨get_commits_since_zero hInv.ts_sorted hInv.ts_nonneg, hInv.ts_sorted, ?_, hInv.chain⟩
  have := runTraceE_commits_length hrun
  simpa [Store.empty] using this

/-- Counterexample to C3 as frozen: a single `update_post` call on the empty
store appends two commits, not one. -/
theorem commit_chain_integrity_cex :
    ((runTraceE Store.empty [Ev.updatePost 1 fixPost []]).map
      (fun S => S.commits.length)) = .ok 2 ∧ (2 : Nat) ≠ 1 :=
  ⟨rfl, by decide⟩

/-- Witness for the amended chain-integrity theorem at a concrete trace. -/
theorem commit_chain_integrity_witness :
    (TraceOK [Ev.insertPost 1 fixPost [], Ev.updatePost 2 fixPost []] ∧
      ∃ S, runTraceE Store.empty [Ev.insertPost 1 fixPost [], Ev.updatePost 2 fixPost []] =
        .ok S) ∧
    (∀ S, runTraceE Store.empty
        [Ev.insertPost 1 fixPost [], Ev.updatePost 2 fixPost []] = .ok S →
      Db.get_commits_since S 0 = S.commits ∧
        tsSorted S.commits ∧
        S.commits.length =
          commitCount [Ev.insertPost 1 fixPost [], Ev.updatePost 2 fixPost []] ∧
        ChainedFrom [] S.commits) :=
  ⟨⟨rfl, _, rfl⟩,
    fun S hS => commit_chain_integrity _ S rfl hS⟩

/-- Witness for the amended pagination theorem at a concrete store. -/
theorem get_posts_pagination_witness :
    (1 ≤ (2 : Nat) ∧ 1 ≤ (1 : Nat)) ∧
    ((SqliteStorage.get_posts cexPagStore ⟨2, 1⟩).total_count = cexPagStore.posts.length ∧
    ∃ ranking : List PostRow,
      ranking.Perm cexPagStore.posts ∧ tsSortedDesc ranking ∧
      (∀ t, ranking.filter (fun r => r.create_timestamp == t) =
            cexPagStore.posts.filter (fun r => r.create_timestamp == t)) ∧
      (SqliteStorage.get_posts cexPagStore ⟨2, 1⟩).objects =
        ((ranking.drop ((2 - 1) * 1)).take 1).map
          (fun r => Db.PostRow.toPost { r with content := [] }
            (Db.tagsFor r.slug cexPagStore.posts_tags))) :=
  ⟨⟨by decide, by decide⟩,
    get_posts_pagination cexPagStore ⟨2, 1⟩ (by decide) (by decide)⟩

/-! ### Content shapes of the successful facade calls -/

theorem exec_insertPost_shape {S S1 : Store} {t : Int} {p : Post}
    {rs : List PostResource} (h : (Ev.insertPost t p rs).exec S = .ok S1) :
    S1.posts = S.posts ++ [Db.Post.toRow p] ∧
    S1.posts_tags = S.posts_tags ++ p.tags.map (fun tg => (p.slug, tg)) ∧
    S1.posts_resources = S.posts_resources ++
      rs.map (fun r => { r with post_slug := p.slug }) ∧
    S1.resources = S.resources := by
  cases hf : Db.insert_post p rs S with
  | error e1 =>
      have hexec : SqliteStorage.insert_post t p rs S = .ok S1 := h
      unfold SqliteStorage.insert_post at hexec
      rw [transact_and_commit_error hf] at hexec
      exact absurd hexec (by simp)
  | ok T =>
      have hexec : SqliteStorage.insert_post t p rs S = .ok S1 := h
      unfold SqliteStorage.insert_post at hexec
      rw [transact_and_commit_ok hf] at hexec
      injection hexec with hS1
      subst hS1
      have hT := (insert_post_ok hf).1
      refine ⟨?_, ?_, ?_, ?_⟩
      · show T.posts = _
        have h5 := congrArg Store.posts hT
        exact h5
      · show T.posts_tags = _
        have h5 := congrArg Store.posts_tags hT
        exact h5
      · show T.posts_resources = _
        have h5 := congrArg Store.posts_resources hT
        exact h5
      · show T.resources = _
        have h5 := congrArg Store.resources hT
        exact h5

theorem exec_updatePost_shape {S S1 : Store} {t : Int} {p : Post}
    {rs : List PostResource} (h : (Ev.updatePost t p rs).exec S = .ok S1) :
    S1.posts = S.posts.filter (fun r => r.slug != p.slug) ++ [Db.Post.toRow p] ∧
    S1.posts_tags = S.posts_tags ++ p.tags.map (fun tg => (p.slug, tg)) ∧
    S1.posts_resources = S.posts_resources ++
      rs.map (fun r => { r with post_slug := p.slug }) ∧
    S1.resources = S.resources := by
  cases hf : Db.insert_post p rs (Db.delete_post p.slug S) with
  | error e1 =>
      have hexec : SqliteStorage.update_post t p rs S = .ok S1 := h
      unfold SqliteStorage.update_post at hexec
      rw [@transact_and_commit_error t
        [CommitPayload.deletePost p.slug, CommitPayload.createPost p.slug]
        (fun S => Db.insert_post p rs (Db.delete_post p.slug S)) S e1 hf] at hexec
      exact absurd hexec (by simp)
  | ok T =>
      have hexec : SqliteStorage.update_post t p rs S = .ok S1 := h
      unfold SqliteStorage.update_post at hexec
      rw [@transact_and_commit_ok t
        [CommitPayload.deletePost p.slug, CommitPayload.createPost p.slug]
        (fun S => Db.insert_post p rs (Db.delete_post p.slug S)) S T hf] at hexec
      injection hexec with hS1
      subst hS1
      have hT := (insert_post_ok hf).1
      refine ⟨?_, ?_, ?_, ?_⟩
      · show T.posts = _
        have h5 := congrArg Store.posts hT
        exact h5
      · show T.posts_tags = _
        have h5 := congrArg Store.posts_tags hT
        exact h5
      · show T.posts_resources = _
        have h5 := congrArg Store.posts_resources hT
        exact h5
      · show T.resources = _
        have h5 := congrArg Store.resources hT
        exact h5

theorem exec_deletePost_shape {S S1 : Store} {t : Int} {slug : String}
    (h : (Ev.deletePost t slug).exec S = .ok S1) :
    S1.posts = S.posts.filter (fun r => r.slug != slug) ∧
    S1.posts_tags = S.posts_tags ∧
    S1.posts_resources = S.posts_resources ∧
    S1.resources = S.resources := by
  have hexec : SqliteStorage.delete_post t slug S = .ok S1 := h
  unfold SqliteStorage.delete_post at hexec
  rw [@transact_and_commit_ok t [CommitPayload.deletePost slug]
    (fun S => (Except.ok (Db.delete_post slug S) : Except SqErr Store))
    S (Db.delete_post slug S) rfl] at hexec
  injection hexec with hS1
  subst hS1
  exact ⟨rfl, rfl, rfl, rfl⟩

theorem exec_insertResource_shape {S S1 : Store} {t : Int} {r : Resource}
    (h : (Ev.insertResource t r).exec S = .ok S1) :
    S1.posts = S.posts ∧ S1.posts_tags = S.posts_tags ∧
    S1.posts_resources = S.posts_resources ∧
    S1.resources = S.resources ++ [r] := by
  cases hf : Db.insert_resource r S with
  | error e1 =>
      have hexec : SqliteStorage.insert_resource t r S = .ok S1 := h
      unfold SqliteStorage.insert_resource at hexec
      rw [transact_and_commit_error hf] at hexec
      exact absurd hexec (by simp)
  | ok T =>
      have hexec : SqliteStorage.insert_resource t r S = .ok S1 := h
      unfold SqliteStorage.insert_resource at hexec
      rw [transact_and_commit_ok hf] at hexec
      injection hexec with hS1
      subst hS1
      have hT := (insert_resource_ok hf).1
      refine ⟨?_, ?_, ?_, ?_⟩
      · show T.posts = _
        have h5 := congrArg Store.posts hT
        exact h5
      · show T.posts_tags = _
        have h5 := congrArg Store.posts_tags hT
        exact h5
      · show T.posts_resources = _
        have h5 := congrArg Store.posts_resources hT
        exact h5
      · show T.resources = _
        have h5 := congrArg Store.resources hT
        exact h5

theorem exec_deleteResource_shape {S S1 : Store} {t : Int} {id : String}
    (h : (Ev.deleteResource t id).exec S = .ok S1) :
    S1.posts = S.posts ∧ S1.posts_tags = S.posts_tags ∧
    S1.posts_resources = S.posts_resources ∧
    S1.resources = S.resources.filter (fun r => r.id != id) := by
  have hexec : SqliteStorage.delete_resource t id S = .ok S1 := h
  unfold SqliteStorage.delete_resource at hexec
  rw [@transact_and_commit_ok t [CommitPayload.deleteResource id]
    (fun S => (Except.ok (Db.delete_resource id S) : Except SqErr Store))
    S (Db.delete_resource id S) rfl] at hexec
  injection hexec with hS1
  subst hS1
  exact ⟨rfl, rfl, rfl, rfl⟩

/-! ### A call whose payloads do not concern a key leaves its content alone -/

theorem runEv_post_untouched {S : Store} {e : Ev} {x : String}
    (hx : e.payloads.filterMap (postOp x) = []) :
    postState (runEv S e) x = postState S x := by
  unfold runEv
  cases hr : e.exec S with
  | error e1 => rfl
  | ok S1 =>
      cases e with
      | insertPost t p rs =>
          have hne : ¬ p.slug = x := by
            intro he
            simp [Ev.payloads, postOp, he] at hx
          obtain ⟨h1, h2, h3, _⟩ := exec_insertPost_shape hr
          unfold postState
          rw [h1, h2, h3]
          rw [rowFor_concat_other (show ¬ (Db.Post.toRow p).slug = x from hne)]
          rw [tagsFor_append, tagsFor_new_other hne, List.append_nil]
          rw [resourcesFor_append, resourcesFor_new_other hne, List.append_nil]
      | updatePost t p rs =>
          have hne : ¬ p.slug = x := by
            intro he
            simp [Ev.payloads, postOp, he] at hx
          obtain ⟨h1, h2, h3, _⟩ := exec_updatePost_shape hr
          unfold postState
          rw [h1, h2, h3]
          rw [rowFor_concat_other (show ¬ (Db.Post.toRow p).slug = x from hne)]
          rw [rowFor_delete_other (fun he => hne he.symm)]
          rw [tagsFor_append, tagsFor_new_other hne, List.append_nil]
          rw [resourcesFor_append, resourcesFor_new_other hne, List.append_nil]
      | deletePost t slug =>
          have hne : ¬ slug = x := by
            intro he
            simp [Ev.payloads, postOp, he] at hx
          obtain ⟨h1, h2, h3, _⟩ := exec_deletePost_shape hr
          unfold postState
          rw [h1, h2, h3]
          rw [rowFor_delete_other (fun he => hne he.symm)]
      | insertResource t r =>
          obtain ⟨h1, h2, h3, _⟩ := exec_insertResource_shape hr
          unfold postState
          rw [h1, h2, h3]
      | deleteResource t id =>
          obtain ⟨h1, h2, h3, _⟩ := exec_deleteResource_shape hr
          unfold postState
          rw [h1, h2, h3]

theorem runEv_res_untouched {S : Store} {e : Ev} {x : String}
    (hx : e.payloads.filterMap (resOp x) = []) :
    Db.get_resource (runEv S e) x = Db.get_resource S x := by
  unfold runEv
  cases hr : e.exec S with
  | error e1 => rfl
  | ok S1 =>
      cases e with
      | insertPost t p rs =>
          obtain ⟨_, _, _, h4⟩ := exec_insertPost_shape hr
          unfold Db.get_resource
          rw [h4]
      | updatePost t p rs =>
          obtain ⟨_, _, _, h4⟩ := exec_updatePost_shape hr
          unfold Db.get_resource
          rw [h4]
      | deletePost t slug =>
          obtain ⟨_, _, _, h4⟩ := exec_deletePost_shape hr
          unfold Db.get_resource
          rw [h4]
      | insertResource t r =>
          have hne : ¬ r.id = x := by
            intro he
            simp [Ev.payloads, resOp, he] at hx
          obtain ⟨_, _, _, h4⟩ := exec_insertResource_shape hr
          unfold Db.get_resource
          rw [h4, resFind_append]
          rw [show (([r] : List Resource).find? (fun q => q.id == x)) = none from by
            rw [List.find?_cons_of_neg _ (by simp [hne])]
            rfl]
          rw [Option.or_none]
      | deleteResource t id =>
          have hne : ¬ id = x := by
            intro he
            simp [Ev.payloads, resOp, he] at hx
          obtain ⟨_, _, _, h4⟩ := exec_deleteResource_shape hr
          unfold Db.get_resource
          rw [h4]
          exact resFind_delete_other (fun he => hne he.symm) S.resources

/-! ### Inserting a live key fails -/

theorem insert_post_live_conflict {p : Post} {rs : List PostResource} {S : Store}
    (h : isLivePost S p.slug) : Db.insert_post p rs S = .error .conflict := by
  unfold Db.insert_post
  rw [if_pos]
  unfold isLivePost Db.rowFor at h
  rcases List.find?_isSome.mp h with ⟨r, hr, hpr⟩
  exact List.any_eq_true.mpr ⟨r, hr, hpr⟩

theorem insert_resource_live_conflict {r : Resource} {S : Store}
    (h : resLive S r.id) : Db.insert_resource r S = .error .conflict := by
  unfold Db.insert_resource
  rw [if_pos]
  unfold resLive Db.get_resource at h
  rcases List.find?_isSome.mp h with ⟨q, hq, hpq⟩
  exact List.any_eq_true.mpr ⟨q, hq, hpq⟩

/-! ### The commit window of a trace -/

theorem runEv_commits_ex (S : Store) (e : Ev) :
    ∃ W, (runEv S e).commits = S.commits ++ W := by
  unfold runEv
  cases hr : e.exec S with
  | error e1 => exact ⟨[], by simp⟩
  | ok S1 => exact ⟨_, exec_ok_commits hr⟩

theorem runTrace_commits_ex :
    ∀ (evs : List Ev) (S : Store), ∃ W, (runTrace S evs).commits = S.commits ++ W := by
  intro evs
  induction evs with
  | nil => intro S; exact ⟨[], by simp [runTrace]⟩
  | cons e es ih =>
      intro S
      obtain ⟨W1, h1⟩ := runEv_commits_ex S e
      obtain ⟨W2, h2⟩ := ih (runEv S e)
      refine ⟨W1 ++ W2, ?_⟩
      show (runTrace (runEv S e) es).commits = _
      rw [h2, h1, List.append_assoc]

theorem windowOf_spec {S : Store} {evs : List Ev} {W : List Commit}
    (h : (runTrace S evs).commits = S.commits ++ W) : windowOf S evs = W := by
  unfold windowOf
  rw [h]
  exact List.drop_left _ _

theorem runTrace_commits (S : Store) (evs : List Ev) :
    (runTrace S evs).commits = S.commits ++ windowOf S evs := by
  obtain ⟨W, h⟩ := runTrace_commits_ex evs S
  rw [windowOf_spec h, h]

theorem windowOf_nil (S : Store) : windowOf S [] = [] := by
  unfold windowOf
  exact List.drop_length _

theorem windowOf_cons (S : Store) (e : Ev) (evs : List Ev) :
    windowOf S (e :: evs) = windowOf S [e] ++ windowOf (runEv S e) evs := by
  obtain ⟨W1, h1⟩ := runEv_commits_ex S e
  obtain ⟨W2, h2⟩ := runTrace_commits_ex evs (runEv S e)
  have hW1 : windowOf S [e] = W1 :=
    windowOf_spec (show (runEv S e).commits = _ from h1)
  have h3 : (runTrace S (e :: evs)).commits = S.commits ++ (W1 ++ W2) := by
    show (runTrace (runEv S e) evs).commits = _
    rw [h2, h1, List.append_assoc]
  rw [windowOf_spec h3, hW1, windowOf_spec h2]

theorem windowOf_one_ok {S S1 : Store} {e : Ev} (h : e.exec S = .ok S1) :
    windowOf S [e] = newCommits e.time (lastId S) e.payloads := by
  apply windowOf_spec
  show (runEv S e).commits = _
  rw [show runEv S e = S1 from by unfold runEv; rw [h]]
  exact exec_ok_commits h

theorem windowOf_one_error {S : Store} {e : Ev} {err : SqErr}
    (h : e.exec S = .error err) : windowOf S [e] = [] := by
  apply windowOf_spec
  show (runEv S e).commits = _
  rw [show runEv S e = S from by unfold runEv; rw [h]]
  simp

/-! ### Keys the window does not mention keep their content across the
trace -/

theorem trace_post_untouched :
    ∀ (evs : List Ev) (S : Store) (x : String),
      projPost x (windowOf S evs) = [] →
      postState (runTrace S evs) x = postState S x := by
  intro evs
  induction evs with
  | nil => intro S x _; rfl
  | cons e es ih =>
      intro S x h
      rw [windowOf_cons, projPost_append] at h
      have h1 : projPost x (windowOf S [e]) = [] := by
        rcases List.append_eq_nil.mp h with ⟨ha, _⟩
        exact ha
      have h2 : projPost x (windowOf (runEv S e) es) = [] := by
        rcases List.append_eq_nil.mp h with ⟨_, hb⟩
        exact hb
      show postState (runTrace (runEv S e) es) x = _
      rw [ih (runEv S e) x h2]
      cases hr : e.exec S with
      | error err =>
          rw [show runEv S e = S from by unfold runEv; rw [hr]]
      | ok S1 =>
          rw [windowOf_one_ok hr, projPost_newCommits] at h1
          exact runEv_post_untouched h1

theorem trace_res_untouched :
    ∀ (evs : List Ev) (S : Store) (x : String),
      projRes x (windowOf S evs) = [] →
      Db.get_resource (runTrace S evs) x = Db.get_resource S x := by
  intro evs
  induction evs with
  | nil => intro S x _; rfl
  | cons e es ih =>
      intro S x h
      rw [windowOf_cons, projRes_append] at h
      have h1 : projRes x (windowOf S [e]) = [] := by
        rcases List.append_eq_nil.mp h with ⟨ha, _⟩
        exact ha
      have h2 : projRes x (windowOf (runEv S e) es) = [] := by
        rcases List.append_eq_nil.mp h with ⟨_, hb⟩
        exact hb
      show Db.get_resource (runTrace (runEv S e) es) x = _
      rw [ih (runEv S e) x h2]
      cases hr : e.exec S with
      | error err =>
          rw [show runEv S e = S from by unfold runEv; rw [hr]]
      | ok S1 =>
          rw [windowOf_one_ok hr, projRes_newCommits] at h1
          exact runEv_res_untouched h1

theorem isLivePost_of_postState {S S2 : Store} {x : String}
    (h : postState S x = postState S2 x) : isLivePost S x ↔ isLivePost S2 x := by
  unfold isLivePost
  have h1 : Db.rowFor x S.posts = Db.rowFor x S2.posts := congrArg Prod.fst h
  rw [h1]

/-! ### A key live at the base of a window is first deleted, never first
created, inside it -/

theorem trace_live_head_post :
    ∀ (evs : List Ev) (S : Store) (x : String),
      isLivePost S x → (projPost x (windowOf S evs)).head? ≠ some true := by
  intro evs
  induction evs with
  | nil =>
      intro S x _
      rw [windowOf_nil]
      simp [projPost]
  | cons e es ih =>
      intro S x hlive
      rw [windowOf_cons, projPost_append]
      cases hr : e.exec S with
      | error err =>
          rw [windowOf_one_error hr]
          rw [show runEv S e = S from by unfold runEv; rw [hr]]
          simpa [projPost] using ih S x hlive
      | ok S1 =>
          rw [windowOf_one_ok hr, projPost_newCommits]
          cases e with
          | insertPost t p rs =>
              by_cases hsx : p.slug = x
              · exfalso
                subst hsx
                have hconf := @insert_post_live_conflict p rs S hlive
                have : (Ev.insertPost t p rs).exec S =
                    SqliteStorage.insert_post t p rs S := rfl
                rw [this] at hr
                unfold SqliteStorage.insert_post at hr
                rw [transact_and_commit_error hconf] at hr
                exact absurd hr (by simp)
              · have hp : (Ev.insertPost t p rs).payloads.filterMap (postOp x) = [] := by
                  simp [Ev.payloads, postOp, hsx]
                rw [hp, List.nil_append]
                have hlive2 : isLivePost (runEv S (Ev.insertPost t p rs)) x :=
                  (isLivePost_of_postState (runEv_post_untouched hp)).mpr hlive
                exact ih (runEv S (Ev.insertPost t p rs)) x hlive2
          | updatePost t p rs =>
              by_cases hsx : p.slug = x
              · rw [show (Ev.updatePost t p rs).payloads.filterMap (postOp x) =
                    [false, true] from by simp [Ev.payloads, postOp, hsx]]
                intro hc
                simp at hc
              · have hp : (Ev.updatePost t p rs).payloads.filterMap (postOp x) = [] := by
                  simp [Ev.payloads, postOp, hsx]
                rw [hp, List.nil_append]
                have hlive2 : isLivePost (runEv S (Ev.updatePost t p rs)) x :=
                  (isLivePost_of_postState (runEv_post_untouched hp)).mpr hlive
                exact ih (runEv S (Ev.updatePost t p rs)) x hlive2
          | deletePost t slug =>
              by_cases hsx : slug = x
              · rw [show (Ev.deletePost t slug).payloads.filterMap (postOp x) =
                    [false] from by simp [Ev.payloads, postOp, hsx]]
                intro hc
                simp at hc
              · have hp : (Ev.deletePost t slug).payloads.filterMap (postOp x) = [] := by
                  simp [Ev.payloads, postOp, hsx]
                rw [hp, List.nil_append]
                have hlive2 : isLivePost (runEv S (Ev.deletePost t slug)) x :=
                  (isLivePost_of_postState (runEv_post_untouched hp)).mpr hlive
                exact ih (runEv S (Ev.deletePost t slug)) x hlive2
          | insertResource t r =>
              have hp : (Ev.insertResource t r).payloads.filterMap (postOp x) = [] := by
                simp [Ev.payloads, postOp]
              rw [hp, List.nil_append]
              have hlive2 : isLivePost (runEv S (Ev.insertResource t r)) x :=
                (isLivePost_of_postState (runEv_post_untouched hp)).mpr hlive
              exact ih (runEv S (Ev.insertResource t r)) x hlive2
          | deleteResource t id =>
              have hp : (Ev.deleteResource t id).payloads.filterMap (postOp x) = [] := by
                simp [Ev.payloads, postOp]
              rw [hp, List.nil_append]
              have hlive2 : isLivePost (runEv S (Ev.deleteResource t id)) x :=
                (isLivePost_of_postState (runEv_post_untouched hp)).mpr hlive
              exact ih (runEv S (Ev.deleteResource t id)) x hlive2

theorem trace_live_head_res :
    ∀ (evs : List Ev) (S : Store) (x : String),
      resLive S x → (projRes x (windowOf S evs)).head? ≠ some true := by
  intro evs
  induction evs with
  | nil =>
      intro S x _
      rw [windowOf_nil]
      simp [projRes]
  | cons e es ih =>
      intro S x hlive
      rw [windowOf_cons, projRes_append]
      cases hr : e.exec S with
      | error err =>
          rw [windowOf_one_error hr]
          rw [show runEv S e = S from by unfold runEv; rw [hr]]
          simpa [projRes] using ih S x hlive
      | ok S1 =>
          rw [windowOf_one_ok hr, projRes_newCommits]
          have resLive2 : ∀ e2 : Ev, e2.payloads.filterMap (resOp x) = [] →
              e2.exec S = .ok S1 → resLive (runEv S e2) x := by
            intro e2 hp _
            unfold resLive
            rw [runEv_res_untouched hp]
            exact hlive
          cases e with
          | insertPost t p rs =>
              have hp : (Ev.insertPost t p rs).payloads.filterMap (resOp x) = [] := by
                simp [Ev.payloads, resOp]
              rw [hp, List.nil_append]
              exact ih (runEv S (Ev.insertPost t p rs)) x (resLive2 _ hp hr)
          | updatePost t p rs =>
              have hp : (Ev.updatePost t p rs).payloads.filterMap (resOp x) = [] := by
                simp [Ev.payloads, resOp]
              rw [hp, List.nil_append]
              exact ih (runEv S (Ev.updatePost t p rs)) x (resLive2 _ hp hr)
          | deletePost t slug =>
              have hp : (Ev.deletePost t slug).payloads.filterMap (resOp x) = [] := by
                simp [Ev.payloads, resOp]
              rw [hp, List.nil_append]
              exact ih (runEv S (Ev.deletePost t slug)) x (resLive2 _ hp hr)
          | insertResource t r =>
              by_cases hsx : r.id = x
              · exfalso
                subst hsx
                have hconf := @insert_resource_live_conflict r S hlive
                have heq : (Ev.insertResource t r).exec S =
                    SqliteStorage.insert_resource t r S := rfl
                rw [heq] at hr
                unfold SqliteStorage.insert_resource at hr
                rw [transact_and_commit_error hconf] at hr
                exact absurd hr (by simp)
              · have hp : (Ev.insertResource t r).payloads.filterMap (resOp x) = [] := by
                  simp [Ev.payloads, resOp, hsx]
                rw [hp, List.nil_append]
                exact ih (runEv S (Ev.insertResource t r)) x (resLive2 _ hp hr)
          | deleteResource t id =>
              by_cases hsx : id = x
              · rw [show (Ev.deleteResource t id).payloads.filterMap (resOp x) =
                    [false] from by simp [Ev.payloads, resOp, hsx]]
                intro hc
                simp at hc
              · have hp : (Ev.deleteResource t id).payloads.filterMap (resOp x) = [] := by
                  simp [Ev.payloads, resOp, hsx]
                rw [hp, List.nil_append]
                exact ih (runEv S (Ev.deleteResource t id)) x (resLive2 _ hp hr)

/-! ### What `get_delta` computes when the destination log is a prefix of the
source log with an untied boundary -/

theorem tsSorted_of_prefix {S : Store} {W : List Commit} {cs : List Commit}
    (h : cs = S.commits ++ W) (hs : tsSorted cs) : tsSorted S.commits := by
  unfold tsSorted at hs ⊢
  rw [h] at hs
  exact hs.sublist (List.sublist_append_left _ _)

theorem get_commits_since_boundary {S2 : Store} {init : List Commit} {L : Commit}
    {W : List Commit}
    (hcommits : S2.commits = (init ++ [L]) ++ W)
    (hsorted : tsSorted S2.commits)
    (hinit : ∀ c ∈ init, c.timestamp < L.timestamp) :
    Db.get_commits_since S2 L.timestamp = L :: W := by
  have hW : ∀ c ∈ W, L.timestamp ≤ c.timestamp := by
    intro c hc
    have hp : tsSorted ((init ++ [L]) ++ W) := by
      unfold tsSorted at hsorted ⊢
      rw [hcommits] at hsorted
      exact hsorted
    unfold tsSorted at hp
    rw [List.pairwise_append] at hp
    exact hp.2.2 L (by simp) c hc
  unfold Db.get_commits_since
  rw [hcommits, List.filter_append, List.filter_append]
  rw [List.filter_eq_nil_iff.mpr (fun c hc => by
    simpa using not_le.mpr (hinit c hc))]
  rw [List.filter_eq_self.mpr (fun c hc => by
    have hcL : c = L := by simpa using hc
    simp [hcL])]
  rw [List.filter_eq_self.mpr (fun c hc => by simpa using hW c hc)]
  rw [List.nil_append]
  apply sortByTsAsc_sorted_id
  have hp : tsSorted ((init ++ [L]) ++ W) := by
    unfold tsSorted at hsorted ⊢
    rw [hcommits] at hsorted
    exact hsorted
  unfold tsSorted at hp ⊢
  rw [List.pairwise_append] at hp
  exact List.Pairwise.cons (fun b hb => hp.2.2 L (by simp) b hb) hp.2.1

theorem get_delta_prefix {S S2 : Store} {W : List Commit}
    (hSW : S2.commits = S.commits ++ W) (hW : W ≠ [])
    (hsorted : tsSorted S2.commits) (hnn : ∀ c ∈ S2.commits, 0 ≤ c.timestamp)
    (htie : ∀ c ∈ S.commits.dropLast, ∀ L, S.commits.getLast? = some L →
      c.timestamp < L.timestamp) :
    get_delta S2 S = .ok (collect_delta S2 W) := by
  have hsortedS : tsSorted S.commits := tsSorted_of_prefix hSW hsorted
  cases hS : S.commits with
  | nil =>
      have hlatest : Db.get_latest_commit S = none := by
        rw [get_latest_commit_sorted hsortedS, hS]
        rfl
      have hsince : Db.get_commits_since S2 0 = W := by
        have h0 := get_commits_since_zero hsorted hnn
        rw [h0, hSW, hS, List.nil_append]
      simp only [get_delta, hlatest, Option.map_none', Option.getD_none, hsince]
  | cons c0 cs0 =>
      have hne : S.commits ≠ [] := by rw [hS]; simp
      obtain ⟨L, hL⟩ : ∃ L, S.commits.getLast? = some L := by
        cases hg : S.commits.getLast? with
        | none =>
            have := List.getLast?_isSome.mpr hne
            rw [hg] at this
            simp at this
        | some L => exact ⟨L, rfl⟩
      have hlatest : Db.get_latest_commit S = some L := by
        rw [get_latest_commit_sorted hsortedS, hL]
      have hsplit : S.commits = S.commits.dropLast ++ [L] := by
        have h1 := List.dropLast_append_getLast? L hL
        exact h1.symm
      have hsince : Db.get_commits_since S2 L.timestamp = L :: W :=
        get_commits_since_boundary
          (by rw [hSW, ← hsplit]) hsorted
          (fun c hc => htie c hc L hL)
      simp only [get_delta, hlatest, Option.map_some', Option.getD_some, hsince]
      simp

/-! ### List helpers for the delta application -/

theorem find?_key_filter_keep {α : Type} (k : α → String) (x : String)
    (q : α → Bool) :
    ∀ (l : List α), (∀ a, k a = x → q a = true) →
      (l.filter q).find? (fun a => k a == x) = l.find? (fun a => k a == x) := by
  intro l
  induction l with
  | nil => intro _; rfl
  | cons a rest ih =>
      intro hq
      cases hqa : q a with
      | true =>
          rw [List.filter_cons_of_pos hqa]
          cases hka : k a == x with
          | true =>
              rw [@List.find?_cons_of_pos _ (fun b => k b == x) a (List.filter q rest) hka,
                @List.find?_cons_of_pos _ (fun b => k b == x) a rest hka]
          | false =>
              have hka2 : ¬ ((fun b => k b == x) a = true) := by simp [hka]
              rw [@List.find?_cons_of_neg _ (fun b => k b == x) a (List.filter q rest) hka2,
                @List.find?_cons_of_neg _ (fun b => k b == x) a rest hka2]
              exact ih hq
      | false =>
          have hka : ¬ k a = x := by
            intro he
            rw [hq a he] at hqa
            cases hqa
          rw [List.filter_cons_of_neg (by simp [hqa])]
          rw [List.find?_cons_of_neg _ (by simp [hka])]
          exact ih hq

theorem find?_key_filter_out {α : Type} (k : α → String) {x : String}
    {D : List String} (hx : x ∈ D) (l : List α) (q : α → Bool)
    (hq : ∀ a, q a = true → k a ∉ D) :
    (l.filter q).find? (fun a => k a == x) = none := by
  rw [List.find?_eq_none]
  intro a ha
  have h1 : q a = true := (List.mem_filter.mp ha).2
  intro hk
  have h2 : k a = x := by simpa using hk
  exact hq a h1 (h2 ▸ hx)

theorem find?_key_none_filter {α : Type} (k : α → String) {x : String}
    (q : α → Bool) {l : List α}
    (h : l.find? (fun a => k a == x) = none) :
    (l.filter q).find? (fun a => k a == x) = none := by
  rw [List.find?_eq_none] at h ⊢
  intro a ha
  exact h a (List.mem_filter.mp ha).1

theorem tagsFor_nil_no_pair {x : String} {l : List (String × String)}
    (h : Db.tagsFor x l = []) : ∀ t, (x, t) ∉ l := by
  intro t hmem
  unfold Db.tagsFor at h
  rcases List.map_eq_nil.mp h with hf
  have h2 := List.filter_eq_nil_iff.mp hf (x, t) hmem
  simp at h2

theorem resourcesFor_nil_no_row {x : String} {l : List PostResource}
    (h : Db.resourcesFor x l = []) : ∀ r ∈ l, ¬ r.post_slug = x := by
  intro r hr he
  have h2 := List.filter_eq_nil_iff.mp h r hr
  simp [he] at h2

theorem tagsFor_nodup {x : String} {l : List (String × String)} (h : l.Nodup) :
    (Db.tagsFor x l).Nodup := by
  unfold Db.tagsFor
  refine (h.filter _).map_on ?_
  intro a ha b hb hab
  have ha1 : a.1 = x := by simpa using (List.mem_filter.mp ha).2
  have hb1 : b.1 = x := by simpa using (List.mem_filter.mp hb).2
  exact Prod.ext (ha1.trans hb1.symm) hab

theorem resourcesFor_names_nodup {x : String} {l : List PostResource}
    (h : (l.map (fun r => (r.post_slug, r.name))).Nodup) :
    ((Db.resourcesFor x l).map (·.name)).Nodup := by
  unfold Db.resourcesFor
  have hsub : ((l.filter (fun r => r.post_slug == x)).map
      (fun r => (r.post_slug, r.name))).Nodup :=
    ((List.filter_sublist _).map _).nodup h
  have hinj := List.inj_on_of_nodup_map hsub
  refine List.Nodup.map_on ?_ (hsub.of_map _)
  intro a ha b hb hab
  have ha1 : a.post_slug = x := by simpa using (List.mem_filter.mp ha).2
  have hb1 : b.post_slug = x := by simpa using (List.mem_filter.mp hb).2
  exact hinj ha hb (by rw [ha1, hb1, hab])

theorem get_resource_id {S : Store} {a : String} {r : Resource}
    (h : Db.get_resource S a = some r) : r.id = a := by
  unfold Db.get_resource at h
  have := List.find?_some h
  simpa using this

theorem filterMap_post_slugs_sublist (S2 : Store) :
    ∀ (A : List String),
      ((A.filterMap (Db.get_post_with_resources S2)).map
        (fun pr => pr.1.slug)).Sublist A := by
  intro A
  induction A with
  | nil => exact List.Sublist.refl []
  | cons a rest ih =>
      rw [List.filterMap_cons]
      cases h : Db.get_post_with_resources S2 a with
      | none => exact ih.cons a
      | some pr =>
          rw [List.map_cons, get_post_with_resources_slug h]
          exact ih.cons₂ a

theorem filterMap_res_ids_sublist (S2 : Store) :
    ∀ (A : List String),
      ((A.filterMap (Db.get_resource S2)).map (·.id)).Sublist A := by
  intro A
  induction A with
  | nil => exact List.Sublist.refl []
  | cons a rest ih =>
      rw [List.filterMap_cons]
      cases h : Db.get_resource S2 a with
      | none => exact ih.cons a
      | some r =>
          rw [List.map_cons, get_resource_id h]
          exact ih.cons₂ a

theorem setInsert_nodup {x : String} {l : List String} (h : l.Nodup) :
    (setInsert x l).Nodup := by
  unfold setInsert
  split
  · exact h
  · rename_i hx
    simp [List.nodup_append, h, hx]

theorem foldStep_nodup {acc : FoldAcc} {c : Commit}
    (h1 : acc.added_posts.Nodup) (h2 : acc.deleted_posts.Nodup)
    (h3 : acc.added_resources.Nodup) (h4 : acc.deleted_resources.Nodup) :
    (foldStep acc c).added_posts.Nodup ∧ (foldStep acc c).deleted_posts.Nodup ∧
    (foldStep acc c).added_resources.Nodup ∧
    (foldStep acc c).deleted_resources.Nodup := by
  obtain ⟨cid, cts, cprev, pl⟩ := c
  cases pl with
  | createPost s => exact ⟨setInsert_nodup h1, h2, h3, h4⟩
  | deletePost s =>
      by_cases hm : s ∈ acc.added_posts
      · simp only [foldStep, if_pos hm]
        exact ⟨h1.filter _, h2, h3, h4⟩
      · simp only [foldStep, if_neg hm]
        exact ⟨h1, setInsert_nodup h2, h3, h4⟩
  | createResource s => exact ⟨h1, h2, setInsert_nodup h3, h4⟩
  | deleteResource s =>
      by_cases hm : s ∈ acc.added_resources
      · simp only [foldStep, if_pos hm]
        exact ⟨h1, h2, h3.filter _, h4⟩
      · simp only [foldStep, if_neg hm]
        exact ⟨h1, h2, h3, setInsert_nodup h4⟩

theorem foldSets_nodup (cs : List Commit) :
    (foldSets cs).added_posts.Nodup ∧ (foldSets cs).deleted_posts.Nodup ∧
    (foldSets cs).added_resources.Nodup ∧ (foldSets cs).deleted_resources.Nodup := by
  have hgen : ∀ (cs : List Commit) (acc : FoldAcc),
      acc.added_posts.Nodup → acc.deleted_posts.Nodup →
      acc.added_resources.Nodup → acc.deleted_resources.Nodup →
      (cs.foldl foldStep acc).added_posts.Nodup ∧
        (cs.foldl foldStep acc).deleted_posts.Nodup ∧
        (cs.foldl foldStep acc).added_resources.Nodup ∧
        (cs.foldl foldStep acc).deleted_resources.Nodup := by
    intro cs
    induction cs with
    | nil => intro acc h1 h2 h3 h4; exact ⟨h1, h2, h3, h4⟩
    | cons c rest ih =>
        intro acc h1 h2 h3 h4
        rw [List.foldl_cons]
        obtain ⟨g1, g2, g3, g4⟩ := foldStep_nodup (c := c) h1 h2 h3 h4
        exact ih (foldStep acc c) g1 g2 g3 g4
  have h := hgen cs {} (by simp) (by simp) (by simp) (by simp)
  exact h

/-! ### Shapes of the four bulk phases of `apply_delta` -/

theorem foldl_delete_post_shape :
    ∀ (l : List String) (X : Store),
      l.foldl (fun S slug => Db.delete_post slug S) X =
        { X with posts := X.posts.filter (fun r => !l.contains r.slug) } := by
  intro l
  induction l with
  | nil =>
      intro X
      show X = _
      rw [show X.posts.filter (fun r => !([] : List String).contains r.slug) =
        X.posts from by simp [List.contains]]
  | cons s rest ih =>
      intro X
      rw [List.foldl_cons, ih (Db.delete_post s X)]
      show ({ X with
                posts := (X.posts.filter (fun r => r.slug != s)).filter
                  (fun r => !rest.contains r.slug) } : Store) = _
      have h2 : (X.posts.filter (fun r => r.slug != s)).filter
          (fun r => !rest.contains r.slug) =
          X.posts.filter (fun r => !((s :: rest).contains r.slug)) := by
        simp only [List.filter_filter]
        have hpred : (fun (a : PostRow) => !rest.contains a.slug && (a.slug != s)) =
            (fun a : PostRow => !((s :: rest).contains a.slug)) := by
          funext a
          simp only [List.contains_cons, Bool.not_or]
          by_cases hss : a.slug = s <;> simp [hss, Bool.and_comm, bne]
        rw [hpred]
      rw [h2]

theorem foldl_delete_resource_shape :
    ∀ (l : List String) (X : Store),
      l.foldl (fun S id => Db.delete_resource id S) X =
        { X with resources := X.resources.filter (fun r => !l.contains r.id) } := by
  intro l
  induction l with
  | nil =>
      intro X
      show X = _
      rw [show X.resources.filter (fun r => !([] : List String).contains r.id) =
        X.resources from by simp [List.contains]]
  | cons s rest ih =>
      intro X
      rw [List.foldl_cons, ih (Db.delete_resource s X)]
      show ({ X with
                resources := (X.resources.filter (fun r => r.id != s)).filter
                  (fun r => !rest.contains r.id) } : Store) = _
      have h2 : (X.resources.filter (fun r => r.id != s)).filter
          (fun r => !rest.contains r.id) =
          X.resources.filter (fun r => !((s :: rest).contains r.id)) := by
        simp only [List.filter_filter]
        have hpred : (fun (a : Resource) => !rest.contains a.id && (a.id != s)) =
            (fun a : Resource => !((s :: rest).contains a.id)) := by
          funext a
          simp only [List.contains_cons, Bool.not_or]
          by_cases hss : a.id = s <;> simp [hss, Bool.and_comm, bne]
        rw [hpred]
      rw [h2]

theorem insert_resources_fold :
    ∀ (l : List Resource) (X : Store),
      (l.map (fun r => r.id)).Nodup →
      (∀ r ∈ l, Db.get_resource X r.id = none) →
      ∃ Y, l.foldlM (fun S r => Db.insert_resource r S) X = .ok Y ∧
        (∀ x, (∀ r ∈ l, ¬ r.id = x) → Db.get_resource Y x = Db.get_resource X x) ∧
        (∀ r ∈ l, Db.get_resource Y r.id = some r) ∧
        Y.posts = X.posts ∧ Y.posts_tags = X.posts_tags ∧
        Y.posts_resources = X.posts_resources ∧ Y.commits = X.commits := by
  intro l
  induction l with
  | nil =>
      intro X _ _
      exact ⟨X, rfl, fun x _ => rfl, fun r hr => absurd hr (by simp),
        rfl, rfl, rfl, rfl⟩
  | cons r0 rest ih =>
      intro X hnodup hnone
      have hnodup2 : (r0.id ∉ rest.map (fun r => r.id)) ∧
          (rest.map (fun r => r.id)).Nodup := by
        rw [List.map_cons] at hnodup
        exact List.nodup_cons.mp hnodup
      have hins : Db.insert_resource r0 X =
          .ok { X with resources := X.resources ++ [r0] } := by
        unfold Db.insert_resource
        rw [if_neg ?hno]
        case hno =>
          intro hany
          rcases List.any_eq_true.mp hany with ⟨q, hq, hbeq⟩
          have h0 := hnone r0 (List.mem_cons_self r0 rest)
          unfold Db.get_resource at h0
          rw [List.find?_eq_none] at h0
          exact h0 q hq hbeq
      rw [show (r0 :: rest).foldlM (fun S r => Db.insert_resource r S) X =
          Db.insert_resource r0 X >>= (fun X2 =>
            rest.foldlM (fun S r => Db.insert_resource r S) X2) from
        List.foldlM_cons _ _ _ _]
      rw [hins]
      have hnone2 : ∀ r ∈ rest,
          Db.get_resource { X with resources := X.resources ++ [r0] } r.id = none := by
        intro r hr
        show (X.resources ++ [r0]).find? (fun q => q.id == r.id) = none
        rw [resFind_append]
        have h1 : X.resources.find? (fun q => q.id == r.id) = none :=
          hnone r (List.mem_cons_of_mem r0 hr)
        have hne : ¬ r0.id = r.id := by
          intro he
          exact hnodup2.1 (he ▸ List.mem_map_of_mem (fun r => r.id) hr)
        have h2 : ([r0] : List Resource).find? (fun q => q.id == r.id) = none := by
          rw [@List.find?_cons_of_neg _ (fun q => q.id == r.id) r0 []
            (by simp [hne])]
          rfl
        rw [h1, h2]
        rfl
      obtain ⟨Y, hY, huntouched, helem, hp1, hp2, hp3, hp4⟩ :=
        ih { X with resources := X.resources ++ [r0] } hnodup2.2 hnone2
      refine ⟨Y, hY, ?_, ?_, hp1, hp2, hp3, hp4⟩
      · intro x hx
        have h1 := huntouched x (fun r hr => hx r (List.mem_cons_of_mem r0 hr))
        rw [h1]
        show (X.resources ++ [r0]).find? (fun q => q.id == x) =
          X.resources.find? (fun q => q.id == x)
        rw [resFind_append]
        have hne : ¬ r0.id = x := hx r0 (List.mem_cons_self r0 rest)
        rw [show ([r0] : List Resource).find? (fun q => q.id == x) = none from by
          rw [@List.find?_cons_of_neg _ (fun q => q.id == x) r0 [] (by simp [hne])]
          rfl]
        rw [Option.or_none]
      · intro r hr
        rcases List.mem_cons.mp hr with hr | hr
        · subst hr
          have h1 := huntouched r.id (fun q hq he =>
            hnodup2.1 (he ▸ List.mem_map_of_mem (fun r => r.id) hq))
          rw [h1]
          show (X.resources ++ [r]).find? (fun q => q.id == r.id) = some r
          rw [resFind_append]
          have h2 : X.resources.find? (fun q => q.id == r.id) = none :=
            hnone r (List.mem_cons_self r rest)
          rw [h2]
          rw [show ([r] : List Resource).find? (fun q => q.id == r.id) = some r from by
            rw [@List.find?_cons_of_pos _ (fun q => q.id == r.id) r [] (by simp)]]
          rfl
        · exact helem r hr

theorem insert_posts_fold :
    ∀ (l : List (Post × List PostResource)) (X : Store),
      (l.map (fun pr => pr.1.slug)).Nodup →
      (∀ pr ∈ l, Db.rowFor pr.1.slug X.posts = none) →
      (∀ pr ∈ l, pr.1.tags.Nodup) →
      (∀ pr ∈ l, ∀ t ∈ pr.1.tags, (pr.1.slug, t) ∉ X.posts_tags) →
      (∀ pr ∈ l, (pr.2.map (fun r => r.name)).Nodup) →
      (∀ pr ∈ l, ∀ q ∈ X.posts_resources, ¬ q.post_slug = pr.1.slug) →
      ∃ Y, l.foldlM (fun S pr => Db.insert_post pr.1 pr.2 S) X = .ok Y ∧
        (∀ x, (∀ pr ∈ l, ¬ pr.1.slug = x) →
          Db.rowFor x Y.posts = Db.rowFor x X.posts ∧
          Db.tagsFor x Y.posts_tags = Db.tagsFor x X.posts_tags ∧
          Db.resourcesFor x Y.posts_resources = Db.resourcesFor x X.posts_resources) ∧
        (∀ pr ∈ l,
          Db.rowFor pr.1.slug Y.posts = some (Db.Post.toRow pr.1) ∧
          Db.tagsFor pr.1.slug Y.posts_tags =
            Db.tagsFor pr.1.slug X.posts_tags ++ pr.1.tags ∧
          Db.resourcesFor pr.1.slug Y.posts_resources =
            Db.resourcesFor pr.1.slug X.posts_resources ++
              pr.2.map (fun r => { r with post_slug := pr.1.slug })) ∧
        Y.resources = X.resources ∧ Y.commits = X.commits := by
  intro l
  induction l with
  | nil =>
      intro X _ _ _ _ _ _
      exact ⟨X, rfl, fun x _ => ⟨rfl, rfl, rfl⟩, fun pr hpr => absurd hpr (by simp),
        rfl, rfl⟩
  | cons pr0 rest ih =>
      intro X hnodup h1 h2 h3 h4 h5
      have hnodup2 : (pr0.1.slug ∉ rest.map (fun pr => pr.1.slug)) ∧
          (rest.map (fun pr => pr.1.slug)).Nodup := by
        rw [List.map_cons] at hnodup
        exact List.nodup_cons.mp hnodup
      have hrest_ne : ∀ pr ∈ rest, ¬ pr.1.slug = pr0.1.slug := by
        intro pr hpr he
        exact hnodup2.1 (he ▸ List.mem_map_of_mem (fun pr => pr.1.slug) hpr)
      have hc1 : ¬ (X.posts.any (fun r => r.slug == pr0.1.slug) = true) := by
        intro hany
        rcases List.any_eq_true.mp hany with ⟨r, hr, hb⟩
        have h0 := h1 pr0 (List.mem_cons_self pr0 rest)
        unfold Db.rowFor at h0
        rw [List.find?_eq_none] at h0
        exact h0 r hr hb
      have hc2 : ¬ ((¬ pr0.1.tags.Nodup) ∨
          pr0.1.tags.any (fun t => decide ((pr0.1.slug, t) ∈ X.posts_tags)) = true) := by
        intro hc
        rcases hc with hc | hc
        · exact hc (h2 pr0 (List.mem_cons_self pr0 rest))
        · rcases List.any_eq_true.mp hc with ⟨t, ht, hmem⟩
          exact h3 pr0 (List.mem_cons_self pr0 rest) t ht (of_decide_eq_true hmem)
      have hc3 : ¬ ((¬ (pr0.2.map (fun r => r.name)).Nodup) ∨
          pr0.2.any (fun r => X.posts_resources.any
            (fun q => q.post_slug == pr0.1.slug && q.name == r.name)) = true) := by
        intro hc
        rcases hc with hc | hc
        · exact hc (h4 pr0 (List.mem_cons_self pr0 rest))
        · rcases List.any_eq_true.mp hc with ⟨r, hr, hq⟩
          rcases List.any_eq_true.mp hq with ⟨q, hqm, hband⟩
          have hb1 : (q.post_slug == pr0.1.slug) = true := by
            have h6 := hband
            rw [Bool.and_eq_true] at h6
            exact h6.1
          exact h5 pr0 (List.mem_cons_self pr0 rest) q hqm (by simpa using hb1)
      have hins : Db.insert_post pr0.1 pr0.2 X = .ok
          { X with
              posts := X.posts ++ [Db.Post.toRow pr0.1],
              posts_tags := X.posts_tags ++
                pr0.1.tags.map (fun t => (pr0.1.slug, t)),
              posts_resources := X.posts_resources ++
                pr0.2.map (fun r => { r with post_slug := pr0.1.slug }) } := by
        unfold Db.insert_post
        rw [if_neg hc1, if_neg hc2, if_neg hc3]
      rw [show (pr0 :: rest).foldlM (fun S pr => Db.insert_post pr.1 pr.2 S) X =
          Db.insert_post pr0.1 pr0.2 X >>= (fun X2 =>
            rest.foldlM (fun S pr => Db.insert_post pr.1 pr.2 S) X2) from
        List.foldlM_cons _ _ _ _]
      rw [hins]
      have hg1 : ∀ pr ∈ rest, Db.rowFor pr.1.slug
          ({ X with
              posts := X.posts ++ [Db.Post.toRow pr0.1],
              posts_tags := X.posts_tags ++
                pr0.1.tags.map (fun t => (pr0.1.slug, t)),
              posts_resources := X.posts_resources ++
                pr0.2.map (fun r => { r with post_slug := pr0.1.slug }) } : Store).posts =
          none := by
        intro pr hpr
        show Db.rowFor pr.1.slug (X.posts ++ [Db.Post.toRow pr0.1]) = none
        rw [rowFor_concat_other
          (show ¬ (Db.Post.toRow pr0.1).slug = pr.1.slug from
            fun he => hrest_ne pr hpr he.symm)]
        exact h1 pr (List.mem_cons_of_mem pr0 hpr)
      have hg3 : ∀ pr ∈ rest, ∀ t ∈ pr.1.tags, (pr.1.slug, t) ∉
          (X.posts_tags ++ pr0.1.tags.map (fun t => (pr0.1.slug, t))) := by
        intro pr hpr t ht hmem
        rcases List.mem_append.mp hmem with hmem | hmem
        · exact h3 pr (List.mem_cons_of_mem pr0 hpr) t ht hmem
        · rcases List.mem_map.mp hmem with ⟨t2, _, he⟩
          have := congrArg Prod.fst he
          exact hrest_ne pr hpr this.symm
      have hg5 : ∀ pr ∈ rest, ∀ q ∈
          (X.posts_resources ++ pr0.2.map (fun r => { r with post_slug := pr0.1.slug })),
          ¬ q.post_slug = pr.1.slug := by
        intro pr hpr q hq he
        rcases List.mem_append.mp hq with hq | hq
        · exact h5 pr (List.mem_cons_of_mem pr0 hpr) q hq he
        · rcases List.mem_map.mp hq with ⟨r, _, hre⟩
          have : q.post_slug = pr0.1.slug := by rw [← hre]
          exact hrest_ne pr hpr (this ▸ he).symm
      obtain ⟨Y, hY, huntouched, helem, hres, hcom⟩ :=
        ih ({ X with
              posts := X.posts ++ [Db.Post.toRow pr0.1],
              posts_tags := X.posts_tags ++
                pr0.1.tags.map (fun t => (pr0.1.slug, t)),
              posts_resources := X.posts_resources ++
                pr0.2.map (fun r => { r with post_slug := pr0.1.slug }) } : Store)
          hnodup2.2 hg1
          (fun pr hpr => h2 pr (List.mem_cons_of_mem pr0 hpr)) hg3
          (fun pr hpr => h4 pr (List.mem_cons_of_mem pr0 hpr)) hg5
      refine ⟨Y, hY, ?_, ?_, hres, hcom⟩
      · intro x hx
        have hx0 : ¬ pr0.1.slug = x := hx pr0 (List.mem_cons_self pr0 rest)
        obtain ⟨hu1, hu2, hu3⟩ := huntouched x
          (fun pr hpr => hx pr (List.mem_cons_of_mem pr0 hpr))
        refine ⟨?_, ?_, ?_⟩
        · rw [hu1]
          exact rowFor_concat_other
            (show ¬ (Db.Post.toRow pr0.1).slug = x from hx0)
        · rw [hu2]
          show Db.tagsFor x (X.posts_tags ++
            pr0.1.tags.map (fun t => (pr0.1.slug, t))) = _
          rw [tagsFor_append, tagsFor_new_other hx0, List.append_nil]
        · rw [hu3]
          show Db.resourcesFor x (X.posts_resources ++
            pr0.2.map (fun r => { r with post_slug := pr0.1.slug })) = _
          rw [resourcesFor_append, resourcesFor_new_other hx0, List.append_nil]
      · intro pr hpr
        rcases List.mem_cons.mp hpr with hpr | hpr
        · subst hpr
          obtain ⟨hu1, hu2, hu3⟩ := huntouched pr.1.slug
            (fun pr2 hpr2 => hrest_ne pr2 hpr2)
          refine ⟨?_, ?_, ?_⟩
          · rw [hu1]
            show Db.rowFor pr.1.slug (X.posts ++ [Db.Post.toRow pr.1]) = _
            rw [rowFor_append]
            rw [h1 pr (List.mem_cons_self pr rest)]
            rw [show Db.rowFor pr.1.slug [Db.Post.toRow pr.1] =
              some (Db.Post.toRow pr.1) from by
              unfold Db.rowFor
              rw [@List.find?_cons_of_pos _ (fun r => r.slug == pr.1.slug)
                (Db.Post.toRow pr.1) [] (by simp [Db.Post.toRow])]]
            rfl
          · rw [hu2]
            show Db.tagsFor pr.1.slug (X.posts_tags ++
              pr.1.tags.map (fun t => (pr.1.slug, t))) = _
            rw [tagsFor_append, tagsFor_new_self]
          · rw [hu3]
            show Db.resourcesFor pr.1.slug (X.posts_resources ++
              pr.2.map (fun r => { r with post_slug := pr.1.slug })) = _
            rw [resourcesFor_append, resourcesFor_new_self]
        · obtain ⟨he1, he2, he3⟩ := helem pr hpr
          have hne0 : ¬ pr0.1.slug = pr.1.slug :=
            fun he => hrest_ne pr hpr he.symm
          refine ⟨he1, ?_, ?_⟩
          · rw [he2]
            show Db.tagsFor pr.1.slug (X.posts_tags ++
              pr0.1.tags.map (fun t => (pr0.1.slug, t))) ++ pr.1.tags = _
            rw [tagsFor_append, tagsFor_new_other hne0, List.append_nil]
          · rw [he3]
            show Db.resourcesFor pr.1.slug (X.posts_resources ++
              pr0.2.map (fun r => { r with post_slug := pr0.1.slug })) ++
                pr.2.map (fun r => { r with post_slug := pr.1.slug }) = _
            rw [resourcesFor_append, resourcesFor_new_other hne0, List.append_nil]

/-! ### Small bridges used by the convergence proof -/

theorem not_contains_iff {l : List String} {y : String} :
    (!l.contains y) = true ↔ y ∉ l := by
  induction l with
  | nil => simp
  | cons a rest ih =>
      rw [List.contains_cons]
      by_cases h : y = a <;> simp [h, ih]

theorem toPost_toRow_self (p : Post) :
    Db.PostRow.toPost (Db.Post.toRow p) p.tags = p := rfl

theorem get_post_with_resources_parts {S : Store} {x : String}
    {pr : Post × List PostResource}
    (h : Db.get_post_with_resources S x = some pr) :
    Db.get_post S x = some pr.1 ∧ pr.2 = Db.resourcesFor x S.posts_resources := by
  unfold Db.get_post_with_resources at h
  cases hg : Db.get_post S x with
  | none => rw [hg] at h; exact absurd h (by simp)
  | some p =>
      rw [hg] at h
      have h2 : (p, Db.resourcesFor x S.posts_resources) = pr := by
        simpa using h
      rw [← h2]
      exact ⟨rfl, rfl⟩

theorem get_post_some_tags {S : Store} {x : String} {p : Post}
    (h : Db.get_post S x = some p) :
    p.tags = Db.tagsFor x S.posts_tags ∧
    ∃ r, Db.rowFor x S.posts = some r ∧ p = Db.PostRow.toPost r (Db.tagsFor x S.posts_tags) := by
  unfold Db.get_post at h
  cases hr : Db.rowFor x S.posts with
  | none => rw [hr] at h; exact absurd h (by simp)
  | some r =>
      rw [hr] at h
      have h2 : Db.PostRow.toPost r (Db.tagsFor x S.posts_tags) = p := by simpa using h
      exact ⟨by rw [← h2]; rfl, r, rfl, h2.symm⟩

theorem resourcesFor_mem_slug {x : String} {l : List PostResource} {r : PostResource}
    (h : r ∈ Db.resourcesFor x l) : r.post_slug = x := by
  unfold Db.resourcesFor at h
  have h2 := (List.mem_filter.mp h).2
  simpa using h2

theorem map_set_slug_id {x : String} :
    ∀ {rs : List PostResource}, (∀ r ∈ rs, r.post_slug = x) →
      rs.map (fun r => { r with post_slug := x }) = rs := by
  intro rs
  induction rs with
  | nil => intro _; rfl
  | cons r rest ih =>
      intro h
      rw [List.map_cons, ih (fun q hq => h q (List.mem_cons_of_mem r hq))]
      have hr : r.post_slug = x := h r (List.mem_cons_self r rest)
      rw [show ({ r with post_slug := x } : PostResource) = r from by
        cases r
        simp_all]

theorem bitRun_fst_getLast (l : List Bool) :
    (bitRun l).1 = l.getLast?.getD false :=
  foldl_bitStep_fst l (false, false)

theorem getLast?_true_of_getD {l : List Bool}
    (h : l.getLast?.getD false = true) : l.getLast? = some true := by
  cases hg : l.getLast? with
  | none => rw [hg] at h; exact absurd h (by simp)
  | some b => rw [hg] at h; simpa using congrArg some h

theorem getLast?_false_of_getD {l : List Bool} (hne : l ≠ [])
    (h : l.getLast?.getD false = false) : l.getLast? = some false := by
  cases hg : l.getLast? with
  | none =>
      have := List.getLast?_isSome.mpr hne
      rw [hg] at this
      simp at this
  | some b => rw [hg] at h; simpa using congrArg some h

theorem bitRun_fst_ne_nil {l : List Bool} (h : (bitRun l).1 = true) : l ≠ [] := by
  intro he
  subst he
  simp [bitRun] at h

theorem get_resource_congr {Sa Sb : Store} (h : Sa.resources = Sb.resources)
    (x : String) : Db.get_resource Sa x = Db.get_resource Sb x := by
  unfold Db.get_resource
  rw [h]

theorem get_post_congr {Sa Sb : Store} {x : String}
    (h : postState Sa x = postState Sb x) :
    Db.get_post Sa x = Db.get_post Sb x ∧
    Db.get_post_with_resources Sa x = Db.get_post_with_resources Sb x := by
  have h1 : Db.rowFor x Sa.posts = Db.rowFor x Sb.posts :=
    congrArg (fun t => t.1) h
  have h2 : Db.tagsFor x Sa.posts_tags = Db.tagsFor x Sb.posts_tags :=
    congrArg (fun t => t.2.1) h
  have h3 : Db.resourcesFor x Sa.posts_resources = Db.resourcesFor x Sb.posts_resources :=
    congrArg (fun t => t.2.2) h
  constructor
  · unfold Db.get_post
    rw [h1, h2]
  · unfold Db.get_post_with_resources Db.get_post
    rw [h1, h2, h3]

theorem deletes_shape (Dp Dr : List String) (S : Store) :
    Dr.foldl (fun S id => Db.delete_resource id S)
      (Dp.foldl (fun S slug => Db.delete_post slug S) S) =
    { S with posts := S.posts.filter (fun r => !Dp.contains r.slug),
             resources := S.resources.filter (fun r => !Dr.contains r.id) } := by
  rw [foldl_delete_post_shape, foldl_delete_resource_shape]

/-- Applying the delta of a fresh, untied window converges the destination to
the source on every per-key observable, and lands the source's commit log. -/
theorem apply_delta_converges {S F : Store} {W : List Commit}
    (hInvF : Inv F)
    (hSW : F.commits = S.commits ++ W)
    (hW : W ≠ [])
    (hfresh : ∀ x ∈ (foldSets W).added_posts,
      Db.tagsFor x S.posts_tags = [] ∧ Db.resourcesFor x S.posts_resources = [])
    (hliveP : ∀ x, isLivePost S x → (projPost x W).head? ≠ some true)
    (hliveR : ∀ x, resLive S x → (projRes x W).head? ≠ some true)
    (huntP : ∀ x, projPost x W = [] → postState S x = postState F x)
    (huntR : ∀ x, projRes x W = [] → Db.get_resource S x = Db.get_resource F x) :
    ∃ D, apply_delta S (collect_delta F W) = .ok D ∧
      (∀ x, Db.get_post D x = Db.get_post F x) ∧
      (∀ x, Db.get_post_with_resources D x = Db.get_post_with_resources F x) ∧
      (∀ x, Db.get_resource D x = Db.get_resource F x) ∧
      D.commits = F.commits := by
  have hfsn := foldSets_nodup W
  have hAPmem : ∀ pr ∈ (foldSets W).added_posts.filterMap
      (Db.get_post_with_resources F),
      pr.1.slug ∈ (foldSets W).added_posts ∧
      Db.get_post_with_resources F pr.1.slug = some pr := by
    intro pr hpr
    rcases List.mem_filterMap.mp hpr with ⟨a, ha, hf⟩
    have hs := get_post_with_resources_slug hf
    constructor
    · rw [hs]; exact ha
    · rw [hs]; exact hf
  have hARmem : ∀ r ∈ (foldSets W).added_resources.filterMap (Db.get_resource F),
      r.id ∈ (foldSets W).added_resources ∧ Db.get_resource F r.id = some r := by
    intro r hr
    rcases List.mem_filterMap.mp hr with ⟨a, ha, hf⟩
    have hs := get_resource_id hf
    constructor
    · rw [hs]; exact ha
    · rw [hs]; exact hf
  have hAdel : ∀ x ∈ (foldSets W).added_posts, isLivePost S x →
      x ∈ (foldSets W).deleted_posts := by
    intro x hx hlive
    have hfst := (mem_added_posts_iff x W).mp hx
    have hne := bitRun_fst_ne_nil hfst
    cases hh : (projPost x W).head? with
    | none => exact absurd (List.head?_eq_none_iff.mp hh) hne
    | some b =>
        cases b with
        | true => exact absurd hh (hliveP x hlive)
        | false => exact (mem_deleted_posts_iff x W).mpr (bitRun_head_false hh)
  have hRdel : ∀ x ∈ (foldSets W).added_resources, resLive S x →
      x ∈ (foldSets W).deleted_resources := by
    intro x hx hlive
    have hfst := (mem_added_resources_iff x W).mp hx
    have hne := bitRun_fst_ne_nil hfst
    cases hh : (projRes x W).head? with
    | none => exact absurd (List.head?_eq_none_iff.mp hh) hne
    | some b =>
        cases b with
        | true => exact absurd hh (hliveR x hlive)
        | false => exact (mem_deleted_resources_iff x W).mpr (bitRun_head_false hh)
  have hX2row_del : ∀ x ∈ (foldSets W).deleted_posts,
      Db.rowFor x (S.posts.filter
        (fun r => !((foldSets W).deleted_posts.contains r.slug))) = none := by
    intro x hx
    exact find?_key_filter_out (fun r => r.slug) hx S.posts _
      (fun a hq => not_contains_iff.mp hq)
  have hX2row_keep : ∀ x ∉ (foldSets W).deleted_posts,
      Db.rowFor x (S.posts.filter
        (fun r => !((foldSets W).deleted_posts.contains r.slug))) =
      Db.rowFor x S.posts := by
    intro x hx
    exact find?_key_filter_keep (fun r => r.slug) x _ S.posts
      (fun a ha => not_contains_iff.mpr (ha ▸ hx))
  have hX2res_del : ∀ x ∈ (foldSets W).deleted_resources,
      (S.resources.filter
        (fun r => !((foldSets W).deleted_resources.contains r.id))).find?
        (fun q => q.id == x) = none := by
    intro x hx
    exact find?_key_filter_out (fun r => r.id) hx S.resources _
      (fun a hq => not_contains_iff.mp hq)
  have hX2res_keep : ∀ x ∉ (foldSets W).deleted_resources,
      (S.resources.filter
        (fun r => !((foldSets W).deleted_resources.contains r.id))).find?
        (fun q => q.id == x) =
      S.resources.find? (fun q => q.id == x) := by
    intro x hx
    exact find?_key_filter_keep (fun r => r.id) x _ S.resources
      (fun a ha => not_contains_iff.mpr (ha ▸ hx))
  have pnodup : (((foldSets W).added_posts.filterMap
      (Db.get_post_with_resources F)).map (fun pr => pr.1.slug)).Nodup :=
    (filterMap_post_slugs_sublist F _).nodup hfsn.1
  have pp1 : ∀ pr ∈ (foldSets W).added_posts.filterMap
      (Db.get_post_with_resources F),
      Db.rowFor pr.1.slug (S.posts.filter
        (fun r => !((foldSets W).deleted_posts.contains r.slug))) = none := by
    intro pr hpr
    obtain ⟨hmem, hf⟩ := hAPmem pr hpr
    by_cases hlive : isLivePost S pr.1.slug
    · exact hX2row_del _ (hAdel _ hmem hlive)
    · have hnone : S.posts.find? (fun r => r.slug == pr.1.slug) = none :=
        Option.not_isSome_iff_eq_none.mp hlive
      show (S.posts.filter (fun r => !((foldSets W).deleted_posts.contains r.slug))).find?
        (fun r => r.slug == pr.1.slug) = none
      exact @find?_key_none_filter PostRow (fun r => r.slug) pr.1.slug
        (fun r => !((foldSets W).deleted_posts.contains r.slug)) S.posts hnone
  have pp2 : ∀ pr ∈ (foldSets W).added_posts.filterMap
      (Db.get_post_with_resources F), pr.1.tags.Nodup := by
    intro pr hpr
    obtain ⟨hmem, hf⟩ := hAPmem pr hpr
    obtain ⟨hg, _⟩ := get_post_with_resources_parts hf
    obtain ⟨ht, _⟩ := get_post_some_tags hg
    rw [ht]
    exact tagsFor_nodup hInvF.tags_nodup
  have pp3 : ∀ pr ∈ (foldSets W).added_posts.filterMap
      (Db.get_post_with_resources F),
      ∀ t ∈ pr.1.tags, (pr.1.slug, t) ∉ S.posts_tags := by
    intro pr hpr t _
    obtain ⟨hmem, _⟩ := hAPmem pr hpr
    exact tagsFor_nil_no_pair (hfresh _ hmem).1 t
  have pp4 : ∀ pr ∈ (foldSets W).added_posts.filterMap
      (Db.get_post_with_resources F), (pr.2.map (fun r => r.name)).Nodup := by
    intro pr hpr
    obtain ⟨hmem, hf⟩ := hAPmem pr hpr
    obtain ⟨_, hres⟩ := get_post_with_resources_parts hf
    rw [hres]
    exact resourcesFor_names_nodup hInvF.pres_nodup
  have pp5 : ∀ pr ∈ (foldSets W).added_posts.filterMap
      (Db.get_post_with_resources F),
      ∀ q ∈ S.posts_resources, ¬ q.post_slug = pr.1.slug := by
    intro pr hpr q hq
    obtain ⟨hmem, _⟩ := hAPmem pr hpr
    exact resourcesFor_nil_no_row (hfresh _ hmem).2 q hq
  obtain ⟨Y, hY, hu, he, hYres, hYcom⟩ :=
    insert_posts_fold
      ((foldSets W).added_posts.filterMap (Db.get_post_with_resources F))
      ({ S with
          posts := S.posts.filter
            (fun r => !((foldSets W).deleted_posts.contains r.slug)),
          resources := S.resources.filter
            (fun r => !((foldSets W).deleted_resources.contains r.id)) } : Store)
      pnodup pp1 pp2 pp3 pp4 pp5
  have hu' : ∀ x, (∀ pr ∈ (foldSets W).added_posts.filterMap
      (Db.get_post_with_resources F), ¬ pr.1.slug = x) →
      Db.rowFor x Y.posts = Db.rowFor x (S.posts.filter
        (fun r => !((foldSets W).deleted_posts.contains r.slug))) ∧
      Db.tagsFor x Y.posts_tags = Db.tagsFor x S.posts_tags ∧
      Db.resourcesFor x Y.posts_resources =
        Db.resourcesFor x S.posts_resources := hu
  have he' : ∀ pr ∈ (foldSets W).added_posts.filterMap
      (Db.get_post_with_resources F),
      Db.rowFor pr.1.slug Y.posts = some (Db.Post.toRow pr.1) ∧
      Db.tagsFor pr.1.slug Y.posts_tags =
        Db.tagsFor pr.1.slug S.posts_tags ++ pr.1.tags ∧
      Db.resourcesFor pr.1.slug Y.posts_resources =
        Db.resourcesFor pr.1.slug S.posts_resources ++
          pr.2.map (fun r => { r with post_slug := pr.1.slug }) := he
  have hYres' : Y.resources = S.resources.filter
      (fun r => !((foldSets W).deleted_resources.contains r.id)) := hYres
  have hYcom' : Y.commits = S.commits := hYcom
  have rnodup : (((foldSets W).added_resources.filterMap
      (Db.get_resource F)).map (fun r => r.id)).Nodup :=
    (filterMap_res_ids_sublist F _).nodup hfsn.2.2.1
  have rr1 : ∀ r ∈ (foldSets W).added_resources.filterMap (Db.get_resource F),
      Db.get_resource Y r.id = none := by
    intro r hr
    obtain ⟨hmem, hf⟩ := hARmem r hr
    show Y.resources.find? (fun q => q.id == r.id) = none
    rw [hYres']
    by_cases hlive : resLive S r.id
    · exact hX2res_del _ (hRdel _ hmem hlive)
    · have hnone : S.resources.find? (fun q => q.id == r.id) = none :=
        Option.not_isSome_iff_eq_none.mp hlive
      exact @find?_key_none_filter Resource (fun q => q.id) r.id
        (fun q => !((foldSets W).deleted_resources.contains q.id)) S.resources hnone
  obtain ⟨Z, hZ, hru, hre, hZp, hZt, hZpr, hZc⟩ :=
    insert_resources_fold
      ((foldSets W).added_resources.filterMap (Db.get_resource F)) Y rnodup rr1
  have hcm : Db.insert_commits W Z = .ok { Z with commits := Z.commits ++ W } := by
    unfold Db.insert_commits
    rw [if_neg ?hemp]
    case hemp =>
      cases W with
      | nil => exact absurd rfl hW
      | cons c cs => simp
  have hDY : ∀ x, postState ({ Z with commits := Z.commits ++ W } : Store) x =
      postState Y x := by
    intro x
    show (Db.rowFor x Z.posts, Db.tagsFor x Z.posts_tags,
      Db.resourcesFor x Z.posts_resources) = _
    rw [hZp, hZt, hZpr]
    rfl
  have hpost_key : ∀ x,
      Db.get_post ({ Z with commits := Z.commits ++ W } : Store) x =
        Db.get_post F x ∧
      Db.get_post_with_resources ({ Z with commits := Z.commits ++ W } : Store) x =
        Db.get_post_with_resources F x := by
    intro x
    obtain ⟨hgD, hgDr⟩ := get_post_congr (hDY x)
    rw [hgD, hgDr]
    by_cases hproj : projPost x W = []
    · have hxA : x ∉ (foldSets W).added_posts := fun hx =>
        bitRun_fst_ne_nil ((mem_added_posts_iff x W).mp hx) hproj
      have hxD : x ∉ (foldSets W).deleted_posts := fun hx =>
        bitRun_snd_ne_nil ((mem_deleted_posts_iff x W).mp hx) hproj
      have hAPne : ∀ pr ∈ (foldSets W).added_posts.filterMap
          (Db.get_post_with_resources F), ¬ pr.1.slug = x :=
        fun pr hpr hee => hxA (hee ▸ (hAPmem pr hpr).1)
      obtain ⟨hu1, hu2, hu3⟩ := hu' x hAPne
      have hYS : postState Y x = postState S x := by
        show (Db.rowFor x Y.posts, Db.tagsFor x Y.posts_tags,
          Db.resourcesFor x Y.posts_resources) =
          (Db.rowFor x S.posts, Db.tagsFor x S.posts_tags,
            Db.resourcesFor x S.posts_resources)
        rw [hu1, hu2, hu3, hX2row_keep x hxD]
      obtain ⟨hg1, hg2⟩ := get_post_congr hYS
      obtain ⟨hg3, hg4⟩ := get_post_congr (huntP x hproj)
      exact ⟨hg1.trans hg3, hg2.trans hg4⟩
    · by_cases hxA : x ∈ (foldSets W).added_posts
      · have hfst := (mem_added_posts_iff x W).mp hxA
        have hlastF : lastPostOp x F.commits = some true := by
          rw [hSW, lastPostOp_append]
          rw [bitRun_fst_getLast] at hfst
          rw [getLast?_true_of_getD hfst]
          rfl
        have hliveF : isLivePost F x := (hInvF.post_live x).mpr hlastF
        have hsome : ∃ pr, Db.get_post_with_resources F x = some pr := by
          unfold isLivePost at hliveF
          unfold Db.get_post_with_resources Db.get_post
          cases hr : Db.rowFor x F.posts with
          | none => rw [hr] at hliveF; simp at hliveF
          | some r => exact ⟨_, rfl⟩
        obtain ⟨pr, hpr⟩ := hsome
        have hprA : pr ∈ (foldSets W).added_posts.filterMap
            (Db.get_post_with_resources F) :=
          List.mem_filterMap.mpr ⟨x, hxA, hpr⟩
        have hslug : pr.1.slug = x := get_post_with_resources_slug hpr
        obtain ⟨he1, he2, he3⟩ := he' pr hprA
        rw [hslug] at he1 he2 he3
        have hft := (hfresh x hxA).1
        have hfr := (hfresh x hxA).2
        have htags : Db.tagsFor x Y.posts_tags = pr.1.tags := by
          rw [he2, hft, List.nil_append]
        have hpres : Db.resourcesFor x Y.posts_resources = pr.2 := by
          rw [he3, hfr, List.nil_append]
          apply map_set_slug_id
          intro r hr2
          have hparts := get_post_with_resources_parts hpr
          rw [hparts.2] at hr2
          exact resourcesFor_mem_slug hr2
        have hgY : Db.get_post Y x = some pr.1 := by
          unfold Db.get_post
          rw [he1]
          simp only [Option.map_some']
          rw [htags, toPost_toRow_self]
        have hgYr : Db.get_post_with_resources Y x = some pr := by
          unfold Db.get_post_with_resources
          rw [hgY]
          simp only [Option.map_some']
          rw [hpres]
        constructor
        · rw [hgY, (get_post_with_resources_parts hpr).1]
        · rw [hgYr, hpr]
      · have hfst : (bitRun (projPost x W)).1 = false := by
          cases hb : (bitRun (projPost x W)).1 with
          | false => rfl
          | true => exact absurd ((mem_added_posts_iff x W).mpr hb) hxA
        have hlastF : lastPostOp x F.commits = some false := by
          rw [hSW, lastPostOp_append]
          rw [bitRun_fst_getLast] at hfst
          rw [getLast?_false_of_getD hproj hfst]
          rfl
        have hrowF : Db.rowFor x F.posts = none := by
          cases hg : Db.rowFor x F.posts with
          | none => rfl
          | some r =>
              have hlf : isLivePost F x := by
                unfold isLivePost
                rw [hg]
                rfl
              have hcontr := (hInvF.post_live x).mp hlf
              rw [hlastF] at hcontr
              exact absurd hcontr (by simp)
        have hgF : Db.get_post F x = none := by
          unfold Db.get_post
          rw [hrowF]
          rfl
        have hgFr : Db.get_post_with_resources F x = none := by
          unfold Db.get_post_with_resources
          rw [hgF]
          rfl
        have hAPne : ∀ pr ∈ (foldSets W).added_posts.filterMap
            (Db.get_post_with_resources F), ¬ pr.1.slug = x :=
          fun pr hpr hee => hxA (hee ▸ (hAPmem pr hpr).1)
        obtain ⟨hu1, hu2, hu3⟩ := hu' x hAPne
        have hrow2 : Db.rowFor x (S.posts.filter
            (fun r => !((foldSets W).deleted_posts.contains r.slug))) = none := by
          by_cases hxD : x ∈ (foldSets W).deleted_posts
          · exact hX2row_del x hxD
          · have hsnd : (bitRun (projPost x W)).2 = false := by
              cases hb : (bitRun (projPost x W)).2 with
              | false => rfl
              | true => exact absurd ((mem_deleted_posts_iff x W).mpr hb) hxD
            have hhead : (projPost x W).head? = some true := by
              cases hh : (projPost x W).head? with
              | none => exact absurd (List.head?_eq_none_iff.mp hh) hproj
              | some b =>
                  cases b with
                  | true => rfl
                  | false =>
                      have hbt := bitRun_head_false hh
                      rw [hsnd] at hbt
                      exact absurd hbt (by simp)
            have hnlive : ¬ isLivePost S x := fun hl => hliveP x hl hhead
            have hnone : S.posts.find? (fun r => r.slug == x) = none :=
              Option.not_isSome_iff_eq_none.mp hnlive
            show (S.posts.filter
              (fun r => !((foldSets W).deleted_posts.contains r.slug))).find?
              (fun r => r.slug == x) = none
            exact @find?_key_none_filter PostRow (fun r => r.slug) x
              (fun r => !((foldSets W).deleted_posts.contains r.slug)) S.posts hnone
        have hgY : Db.get_post Y x = none := by
          unfold Db.get_post
          rw [hu1, hrow2]
          rfl
        have hgYr : Db.get_post_with_resources Y x = none := by
          unfold Db.get_post_with_resources
          rw [hgY]
          rfl
        exact ⟨by rw [hgY, hgF], by rw [hgYr, hgFr]⟩
  have hres_key : ∀ x,
      Db.get_resource ({ Z with commits := Z.commits ++ W } : Store) x =
        Db.get_resource F x := by
    intro x
    show Db.get_resource Z x = _
    by_cases hproj : projRes x W = []
    · have hxA : x ∉ (foldSets W).added_resources := fun hx =>
        bitRun_fst_ne_nil ((mem_added_resources_iff x W).mp hx) hproj
      have hxD : x ∉ (foldSets W).deleted_resources := fun hx =>
        bitRun_snd_ne_nil ((mem_deleted_resources_iff x W).mp hx) hproj
      have hARne : ∀ r ∈ (foldSets W).added_resources.filterMap
          (Db.get_resource F), ¬ r.id = x :=
        fun r hr hee => hxA (hee ▸ (hARmem r hr).1)
      rw [hru x hARne]
      show Y.resources.find? (fun q => q.id == x) = _
      rw [hYres', hX2res_keep x hxD]
      exact huntR x hproj
    · by_cases hxA : x ∈ (foldSets W).added_resources
      · have hfst := (mem_added_resources_iff x W).mp hxA
        have hlastF : lastResOp x F.commits = some true := by
          rw [hSW, lastResOp_append]
          rw [bitRun_fst_getLast] at hfst
          rw [getLast?_true_of_getD hfst]
          rfl
        have hliveF : resLive F x := (hInvF.res_live x).mpr hlastF
        have hsome : ∃ r, Db.get_resource F x = some r := by
          unfold resLive at hliveF
          cases hr : Db.get_resource F x with
          | none => rw [hr] at hliveF; simp at hliveF
          | some r => exact ⟨r, rfl⟩
        obtain ⟨r, hr⟩ := hsome
        have hrA : r ∈ (foldSets W).added_resources.filterMap
            (Db.get_resource F) :=
          List.mem_filterMap.mpr ⟨x, hxA, hr⟩
        have hid : r.id = x := get_resource_id hr
        have hzr := hre r hrA
        rw [hid] at hzr
        rw [hzr, hr]
      · have hfst : (bitRun (projRes x W)).1 = false := by
          cases hb : (bitRun (projRes x W)).1 with
          | false => rfl
          | true => exact absurd ((mem_added_resources_iff x W).mpr hb) hxA
        have hlastF : lastResOp x F.commits = some false := by
          rw [hSW, lastResOp_append]
          rw [bitRun_fst_getLast] at hfst
          rw [getLast?_false_of_getD hproj hfst]
          rfl
        have hgF : Db.get_resource F x = none := by
          cases hg : Db.get_resource F x with
          | none => rfl
          | some r =>
              have hlf : resLive F x := by
                unfold resLive
                rw [hg]
                rfl
              have hcontr := (hInvF.res_live x).mp hlf
              rw [hlastF] at hcontr
              exact absurd hcontr (by simp)
        have hARne : ∀ r ∈ (foldSets W).added_resources.filterMap
            (Db.get_resource F), ¬ r.id = x :=
          fun r hr hee => hxA (hee ▸ (hARmem r hr).1)
        rw [hru x hARne]
        show Y.resources.find? (fun q => q.id == x) = _
        rw [hYres', hgF]
        by_cases hxD : x ∈ (foldSets W).deleted_resources
        · exact hX2res_del x hxD
        · have hsnd : (bitRun (projRes x W)).2 = false := by
            cases hb : (bitRun (projRes x W)).2 with
            | false => rfl
            | true => exact absurd ((mem_deleted_resources_iff x W).mpr hb) hxD
          have hhead : (projRes x W).head? = some true := by
            cases hh : (projRes x W).head? with
            | none => exact absurd (List.head?_eq_none_iff.mp hh) hproj
            | some b =>
                cases b with
                | true => rfl
                | false =>
                    have hbt := bitRun_head_false hh
                    rw [hsnd] at hbt
                    exact absurd hbt (by simp)
          have hnlive : ¬ resLive S x := fun hl => hliveR x hl hhead
          have hnone : S.resources.find? (fun q => q.id == x) = none :=
            Option.not_isSome_iff_eq_none.mp hnlive
          exact @find?_key_none_filter Resource (fun q => q.id) x
            (fun q => !((foldSets W).deleted_resources.contains q.id)) S.resources hnone
  refine ⟨{ Z with commits := Z.commits ++ W }, ?_, ?_, ?_, ?_, ?_⟩
  · show (((foldSets W).added_posts.filterMap
        (Db.get_post_with_resources F)).foldlM
        (fun S pr => Db.insert_post pr.1 pr.2 S)
        ((foldSets W).deleted_resources.foldl
          (fun S id => Db.delete_resource id S)
          ((foldSets W).deleted_posts.foldl
            (fun S slug => Db.delete_post slug S) S)))
      >>= (fun S3 =>
        (((foldSets W).added_resources.filterMap (Db.get_resource F)).foldlM
          (fun S r => Db.insert_resource r S) S3)
        >>= (fun S4 => Db.insert_commits W S4)) =
      Except.ok { Z with commits := Z.commits ++ W }
    rw [show (((foldSets W).added_posts.filterMap
        (Db.get_post_with_resources F)).foldlM
        (fun S pr => Db.insert_post pr.1 pr.2 S)
        ((foldSets W).deleted_resources.foldl
          (fun S id => Db.delete_resource id S)
          ((foldSets W).deleted_posts.foldl
            (fun S slug => Db.delete_post slug S) S))) =
        Except.ok Y from by rw [deletes_shape]; exact hY]
    show (((foldSets W).added_resources.filterMap (Db.get_resource F)).foldlM
        (fun S r => Db.insert_resource r S) Y)
      >>= (fun S4 => Db.insert_commits W S4) =
      Except.ok { Z with commits := Z.commits ++ W }
    rw [hZ]
    show Db.insert_commits W Z = Except.ok { Z with commits := Z.commits ++ W }
    exact hcm
  · intro x
    exact (hpost_key x).1
  · intro x
    exact (hpost_key x).2
  · intro x
    exact hres_key x
  · show Z.commits ++ W = F.commits
    rw [hZc, hYcom', hSW]

/-- C1 (amended).  Synchronizing a source built by a clock-ordered trace
`evs1 ++ evs2` into its own past state after `evs1` succeeds and converges
the destination to the source — equal `get_post`, `get_post_with_resources`
and `get_resource` answers on every key, and the source's commit log —
provided the destination log is shorter than the source's, the destination's
last commit timestamp is untied within its log, and every net-added slug of
the window has no leftover tag or attached-resource rows in the destination
(the inert `ON DELETE CASCADE` makes such orphans fail the re-insert
otherwise). -/
theorem sync_convergence (evs1 evs2 : List Ev)
    (hok : TraceOK (evs1 ++ evs2))
    (hlen : (runTrace Store.empty evs1).commits.length <
      (runTrace Store.empty (evs1 ++ evs2)).commits.length)
    (htie : ∀ c ∈ (runTrace Store.empty evs1).commits.dropLast, ∀ L,
      (runTrace Store.empty evs1).commits.getLast? = some L →
      c.timestamp < L.timestamp)
    (hfresh : ∀ x ∈ (foldSets ((runTrace Store.empty (evs1 ++ evs2)).commits.drop
        (runTrace Store.empty evs1).commits.length)).added_posts,
      Db.tagsFor x (runTrace Store.empty evs1).posts_tags = [] ∧
      Db.resourcesFor x (runTrace Store.empty evs1).posts_resources = []) :
    (synchronize_storage (runTrace Store.empty (evs1 ++ evs2))
      (runTrace Store.empty evs1)).1 = .ok () ∧
    (∀ x, Db.get_post (synchronize_storage (runTrace Store.empty (evs1 ++ evs2))
        (runTrace Store.empty evs1)).2 x =
      Db.get_post (runTrace Store.empty (evs1 ++ evs2)) x) ∧
    (∀ x, Db.get_post_with_resources
        (synchronize_storage (runTrace Store.empty (evs1 ++ evs2))
          (runTrace Store.empty evs1)).2 x =
      Db.get_post_with_resources (runTrace Store.empty (evs1 ++ evs2)) x) ∧
    (∀ x, Db.get_resource (synchronize_storage (runTrace Store.empty (evs1 ++ evs2))
        (runTrace Store.empty evs1)).2 x =
      Db.get_resource (runTrace Store.empty (evs1 ++ evs2)) x) ∧
    (synchronize_storage (runTrace Store.empty (evs1 ++ evs2))
      (runTrace Store.empty evs1)).2.commits =
      (runTrace Store.empty (evs1 ++ evs2)).commits := by
  have hF : runTrace Store.empty (evs1 ++ evs2) =
      runTrace (runTrace Store.empty evs1) evs2 := by
    unfold runTrace
    exact List.foldl_append _ _ _ _
  have hInvF : Inv (runTrace Store.empty (evs1 ++ evs2)) :=
    inv_reachable (evs1 ++ evs2) hok
  have hSW : (runTrace Store.empty (evs1 ++ evs2)).commits =
      (runTrace Store.empty evs1).commits ++
        windowOf (runTrace Store.empty evs1) evs2 := by
    rw [hF]
    exact runTrace_commits _ _
  have hW : windowOf (runTrace Store.empty evs1) evs2 ≠ [] := by
    intro he
    have h1 : (runTrace Store.empty (evs1 ++ evs2)).commits =
        (runTrace Store.empty evs1).commits := by
      rw [hSW, he, List.append_nil]
    rw [h1] at hlen
    exact lt_irrefl _ hlen
  have hWeq : (runTrace Store.empty (evs1 ++ evs2)).commits.drop
      (runTrace Store.empty evs1).commits.length =
      windowOf (runTrace Store.empty evs1) evs2 := by
    rw [hF]
    rfl
  rw [hWeq] at hfresh
  have hliveP2 : ∀ x, isLivePost (runTrace Store.empty evs1) x →
      (projPost x (windowOf (runTrace Store.empty evs1) evs2)).head? ≠ some true :=
    fun x hl => trace_live_head_post evs2 (runTrace Store.empty evs1) x hl
  have hliveR2 : ∀ x, resLive (runTrace Store.empty evs1) x →
      (projRes x (windowOf (runTrace Store.empty evs1) evs2)).head? ≠ some true :=
    fun x hl => trace_live_head_res evs2 (runTrace Store.empty evs1) x hl
  have huntP2 : ∀ x, projPost x (windowOf (runTrace Store.empty evs1) evs2) = [] →
      postState (runTrace Store.empty evs1) x =
        postState (runTrace Store.empty (evs1 ++ evs2)) x := by
    intro x hp
    rw [hF]
    exact (trace_post_untouched evs2 (runTrace Store.empty evs1) x hp).symm
  have huntR2 : ∀ x, projRes x (windowOf (runTrace Store.empty evs1) evs2) = [] →
      Db.get_resource (runTrace Store.empty evs1) x =
        Db.get_resource (runTrace Store.empty (evs1 ++ evs2)) x := by
    intro x hp
    rw [hF]
    exact (trace_res_untouched evs2 (runTrace Store.empty evs1) x hp).symm
  obtain ⟨D, happ, hp, hpr2, hres, hcom⟩ :=
    apply_delta_converges hInvF hSW hW hfresh hliveP2 hliveR2 huntP2 huntR2
  have hdelta : get_delta (runTrace Store.empty (evs1 ++ evs2))
      (runTrace Store.empty evs1) =
      .ok (collect_delta (runTrace Store.empty (evs1 ++ evs2))
        (windowOf (runTrace Store.empty evs1) evs2)) :=
    get_delta_prefix hSW hW hInvF.ts_sorted hInvF.ts_nonneg htie
  have hsync : synchronize_storage (runTrace Store.empty (evs1 ++ evs2))
      (runTrace Store.empty evs1) = (.ok (), D) := by
    unfold synchronize_storage
    rw [hdelta]
    show (match apply_delta (runTrace Store.empty evs1)
        (collect_delta (runTrace Store.empty (evs1 ++ evs2))
          (windowOf (runTrace Store.empty evs1) evs2)) with
      | .error e => ((.error (.toStorage e) : Except SyncError Unit),
          runTrace Store.empty evs1)
      | .ok S1 => (.ok (), S1)) = (.ok (), D)
    rw [happ]
  refine ⟨?_, ?_, ?_, ?_, ?_⟩
  · rw [hsync]
  · intro x
    rw [hsync]
    exact hp x
  · intro x
    rw [hsync]
    exact hpr2 x
  · intro x
    rw [hsync]
    exact hres x
  · rw [hsync]
    exact hcom

set_option maxRecDepth 100000 in
/-- Counterexample to C1 as frozen: the destination holds exactly the first
two of the source's three commits, yet — the two destination commits sharing
a timestamp — `get_latest_commit` returns the second while the source's
`get_commits_since` lists the first first, so the ids mismatch and
synchronization refuses with `DiverseHistory` instead of converging. -/
theorem sync_convergence_cex :
    (runTrace Store.empty c1Evs1).commits =
      (runTrace Store.empty (c1Evs1 ++ c1Evs2)).commits.take 2 ∧
    (runTrace Store.empty (c1Evs1 ++ c1Evs2)).commits.length = 3 ∧
    (synchronize_storage (runTrace Store.empty (c1Evs1 ++ c1Evs2))
      (runTrace Store.empty c1Evs1)).1 = .error .diverseHistory := by
  refine ⟨by decide, by decide, by rfl⟩

set_option maxRecDepth 100000 in
/-- Witness for the amended convergence theorem at a concrete trace pair. -/
theorem sync_convergence_witness :
    (TraceOK (c1wEvs1 ++ c1wEvs2) ∧
      (runTrace Store.empty c1wEvs1).commits.length <
        (runTrace Store.empty (c1wEvs1 ++ c1wEvs2)).commits.length ∧
      (∀ c ∈ (runTrace Store.empty c1wEvs1).commits.dropLast, ∀ L,
        (runTrace Store.empty c1wEvs1).commits.getLast? = some L →
        c.timestamp < L.timestamp) ∧
      (∀ x ∈ (foldSets ((runTrace Store.empty (c1wEvs1 ++ c1wEvs2)).commits.drop
          (runTrace Store.empty c1wEvs1).commits.length)).added_posts,
        Db.tagsFor x (runTrace Store.empty c1wEvs1).posts_tags = [] ∧
        Db.resourcesFor x (runTrace Store.empty c1wEvs1).posts_resources = [])) ∧
    ((synchronize_storage (runTrace Store.empty (c1wEvs1 ++ c1wEvs2))
        (runTrace Store.empty c1wEvs1)).1 = .ok () ∧
      (∀ x, Db.get_post (synchronize_storage
          (runTrace Store.empty (c1wEvs1 ++ c1wEvs2))
          (runTrace Store.empty c1wEvs1)).2 x =
        Db.get_post (runTrace Store.empty (c1wEvs1 ++ c1wEvs2)) x) ∧
      (∀ x, Db.get_post_with_resources (synchronize_storage
          (runTrace Store.empty (c1wEvs1 ++ c1wEvs2))
          (runTrace Store.empty c1wEvs1)).2 x =
        Db.get_post_with_resources (runTrace Store.empty (c1wEvs1 ++ c1wEvs2)) x) ∧
      (∀ x, Db.get_resource (synchronize_storage
          (runTrace Store.empty (c1wEvs1 ++ c1wEvs2))
          (runTrace Store.empty c1wEvs1)).2 x =
        Db.get_resource (runTrace Store.empty (c1wEvs1 ++ c1wEvs2)) x) ∧
      (synchronize_storage (runTrace Store.empty (c1wEvs1 ++ c1wEvs2))
        (runTrace Store.empty c1wEvs1)).2.commits =
        (runTrace Store.empty (c1wEvs1 ++ c1wEvs2)).commits) :=
  ⟨⟨by rfl, by decide, by decide, by decide⟩,
    sync_convergence c1wEvs1 c1wEvs2 (by rfl) (by decide) (by decide) (by decide)⟩

end UBlog
